import Mathlib

/-!
PUNC++ particle localisation and population update.

A shallow embedding of `punc::Population` (src/punc/include/punc/population.h):
the facet-plane relocation walks `relocate` / `relocate_fast` and the
per-timestep `update` pass, followed by theorems about them.

Conventions of the embedding
* `double` values are exact rationals (`ℚ`).
* `signed long int` cell ids / boundary tags are integers (`Int`); casts between
  `std::size_t` and `signed long int` are written out modulo `2^64`.
* A read or write outside a `std::vector` / C array is undefined behaviour in the
  source; the embedding reports it as `Fault.outOfRange`.
* The relocation walks are recursive and need not terminate; they take a fuel
  parameter (number of nested calls allowed) and report `Fault.outOfFuel` when it
  is exhausted.
-/

namespace punc

/-! ## Results and data model -/

/-- Ways in which a run of the embedded code can fail to produce a value. -/
inductive Fault where
  | outOfRange
  | outOfFuel
deriving DecidableEq, Repr

/-- Result of running embedded code: a value, or the fault that stopped the run. -/
inductive Res (α : Type) where
  | ok (a : α)
  | error (e : Fault)
deriving DecidableEq, Repr

/-- Whether a run produced a value. -/
def Res.isOk {α : Type} : Res α → Bool
  | .ok _ => true
  | .error _ => false

/-- Checked element read `v[i]`. -/
def rd {α : Type} (v : List α) (i : Nat) : Res α :=
  match v[i]? with
  | some a => .ok a
  | none => .error .outOfRange

/-- A simulation particle (`struct Particle`). -/
structure Particle where
  x : List ℚ
  v : List ℚ
  q : ℚ
  m : ℚ
deriving DecidableEq

/-- A cell of the simulation domain (`class Cell`), restricted to the members the
localiser and the particle store use. -/
structure Cell where
  id : Nat
  neighbors : List Nat
  facet_adjacents : List Int
  facet_plane_coeffs : List ℚ
  particles : List Particle
deriving DecidableEq

/-- A collection of particles (`class Population`). -/
structure Population where
  g_dim : Nat
  num_cells : Nat
  cells : List Cell
deriving DecidableEq

/-- Modelled from the spec: the `Object` class behind `ObjectVector` is declared in a
header that is not part of the sources at hand; `update` uses its members `bnd_id`,
`charge` and `current`, and the spec's BoundaryObject adds `potential`. -/
structure Object where
  bnd_id : Nat
  charge : ℚ
  current : ℚ
  potential : ℚ
deriving DecidableEq

/-- The element access `cells[cell_id]` with a `signed long int` index: a negative index
converts to a huge `std::size_t` and is out of range. -/
def cellAt (pop : Population) (cell_id : Int) : Res Cell :=
  if cell_id < 0 then .error .outOfRange else rd pop.cells cell_id.toNat

/-! ## The relocation walks -/

/-- The inner loop `for j < g_dim: proj += *coeffs++ * p[j]`, started with `coeffs`
pointing at index `k` and `j` at `j`, for `n` more iterations. -/
def dot_loop (coeffs p : List ℚ) : Nat → Nat → Nat → ℚ → Res ℚ
  | 0, _, _, acc => .ok acc
  | n + 1, k, j, acc =>
    match rd coeffs k, rd p j with
    | .ok a, .ok b => dot_loop coeffs p n (k + 1) (j + 1) (acc + a * b)
    | .error e, _ => .error e
    | _, .error e => .error e

/-- The plane value of facet `i`: `proj = *coeffs++; for j < g_dim: proj += *coeffs++ * p[j]`,
where `coeffs` points at index `i * (g_dim + 1)` when facet `i` is reached. -/
def facet_proj (g_dim : Nat) (coeffs p : List ℚ) (i : Nat) : Res ℚ :=
  match rd coeffs (i * (g_dim + 1)) with
  | .ok off => dot_loop coeffs p g_dim (i * (g_dim + 1) + 1) 0 off
  | .error e => .error e

/-- The first loop of `relocate`: fill `proj[i]` for `i = from, ..., from + n - 1`. -/
def fill_proj (g_dim : Nat) (coeffs p : List ℚ) : Nat → Nat → Res (List ℚ)
  | 0, _ => .ok []
  | n + 1, i =>
    match facet_proj g_dim coeffs p i with
    | .ok v =>
      match fill_proj g_dim coeffs p n (i + 1) with
      | .ok vs => .ok (v :: vs)
      | .error e => .error e
    | .error e => .error e

/-- The second loop of `relocate`: scan `proj[i], proj[i+1], ...` keeping the running
maximum and its index; a later entry replaces the maximum only when strictly larger. -/
def argmax_loop : List ℚ → Nat → ℚ × Nat → ℚ × Nat
  | [], _, s => s
  | v :: vs, i, (proj_max, proj_argmax) =>
    if v > proj_max then argmax_loop vs (i + 1) (v, i)
    else argmax_loop vs (i + 1) (proj_max, proj_argmax)

/-- The function `Population::relocate`. The buffer `double proj[4]` holds one slot per
facet, so `g_dim + 1 > 4` writes outside it. -/
def relocate (pop : Population) (p : List ℚ) : Nat → Int → Res Int
  | 0, _ => .error .outOfFuel
  | fuel + 1, cell_id =>
    match cellAt pop cell_id with
    | .error e => .error e
    | .ok cell =>
      if 4 < pop.g_dim + 1 then .error .outOfRange
      else
        match fill_proj pop.g_dim cell.facet_plane_coeffs p (pop.g_dim + 1) 0 with
        | .error e => .error e
        | .ok [] => .error .outOfRange
        | .ok (proj0 :: rest) =>
          let (proj_max, proj_argmax) := argmax_loop rest 1 (proj0, 0)
          if proj_max < 0 then .ok cell_id
          else
            match rd cell.facet_adjacents proj_argmax with
            | .error e => .error e
            | .ok new_cell_id =>
              if new_cell_id ≥ 0 then relocate pop p fuel new_cell_id
              else .ok new_cell_id

/-- The facet loop of `relocate_fast`: evaluate the plane values of facets
`i, i + 1, ..., i + n - 1` in turn and stop at the first one that is strictly positive. -/
def first_positive (g_dim : Nat) (coeffs p : List ℚ) : Nat → Nat → Res (Option Nat)
  | 0, _ => .ok none
  | n + 1, i =>
    match facet_proj g_dim coeffs p i with
    | .error e => .error e
    | .ok proj =>
      if proj > 0 then .ok (some i)
      else first_positive g_dim coeffs p n (i + 1)

/-- The function `Population::relocate_fast`. -/
def relocate_fast (pop : Population) (p : List ℚ) : Nat → Int → Res Int
  | 0, _ => .error .outOfFuel
  | fuel + 1, cell_id =>
    match cellAt pop cell_id with
    | .error e => .error e
    | .ok cell =>
      match first_positive pop.g_dim cell.facet_plane_coeffs p (pop.g_dim + 1) 0 with
      | .error e => .error e
      | .ok none => .ok cell_id
      | .ok (some i) =>
        match rd cell.facet_adjacents i with
        | .error e => .error e
        | .ok new_cell_id =>
          if new_cell_id ≥ 0 then relocate_fast pop p fuel new_cell_id
          else .ok new_cell_id

/-- Feed the outcome of one `relocate` call into another `relocate` call. -/
def relocate_again (pop : Population) (p : List ℚ) (fuel : Nat) : Res Int → Res Int
  | .ok d => relocate pop p fuel d
  | .error e => .error e

/-! ## The update pass -/

/-- The cast `(signed long int)n` of a `std::size_t` value. -/
def to_signed (n : Nat) : Int :=
  if n % 2 ^ 64 < 2 ^ 63 then ((n % 2 ^ 64 : Nat) : Int) else ((n % 2 ^ 64 : Nat) : Int) - 2 ^ 64

/-- The cast `(std::size_t)z` of a `signed long int` value. -/
def to_size_t (z : Int) : Nat := (z % 2 ^ 64).toNat

/-- The statement `cells[new_cell_id].particles.push_back(particle)`. -/
def push_particle (pop : Population) (new_cell_id : Int) (particle : Particle) : Res Population :=
  match cellAt pop new_cell_id with
  | .error e => .error e
  | .ok cell =>
    .ok { pop with cells := pop.cells.set new_cell_id.toNat
                    { cell with particles := cell.particles ++ [particle] } }

/-- The object loop of `update`: every object whose `bnd_id` equals `(std::size_t)(-new_cell_id)`
gets `current += q`. -/
def deposit (objects : List Object) (new_cell_id : Int) (q : ℚ) : List Object :=
  objects.map fun object =>
    if to_size_t (-new_cell_id) = object.bnd_id then { object with current := object.current + q }
    else object

/-- The particle loop of `update` for the cell `cell_id`: slots `p_id, ..., p_id + n - 1` are
still to be scanned; the state is the population, the objects and the vector `to_delete`. -/
def scan_particles (fuel : Nat) (cell_id : Int) :
    Nat → Nat → Population → List Object → List Nat → Res (Population × List Object × List Nat)
  | 0, _, pop, objects, to_delete => .ok (pop, objects, to_delete)
  | n + 1, p_id, pop, objects, to_delete =>
    match cellAt pop cell_id with
    | .error e => .error e
    | .ok cell =>
      match rd cell.particles p_id with
      | .error e => .error e
      | .ok particle =>
        match relocate_fast pop particle.x fuel cell_id with
        | .error e => .error e
        | .ok new_cell_id =>
          if new_cell_id ≠ cell_id then
            if new_cell_id ≥ 0 then
              match push_particle pop new_cell_id particle with
              | .error e => .error e
              | .ok pop' =>
                scan_particles fuel cell_id n (p_id + 1) pop' objects (to_delete ++ [p_id])
            else
              scan_particles fuel cell_id n (p_id + 1) pop
                (deposit objects new_cell_id particle.q) (to_delete ++ [p_id])
          else scan_particles fuel cell_id n (p_id + 1) pop objects to_delete

/-- The two statements `particles[p_id] = particles.back(); particles.pop_back();`. -/
def swap_remove (particles : List Particle) (p_id : Nat) : Res (List Particle) :=
  match particles.getLast? with
  | none => .error .outOfRange
  | some back =>
    if p_id < particles.length then .ok (particles.set p_id back).dropLast
    else .error .outOfRange

/-- The compaction loop `for (it = size_to_delete; it-- > 0;)` of `update`, with `it` entries of
`to_delete` still to be handled. -/
def erase_marked (to_delete : List Nat) : Nat → List Particle → Res (List Particle)
  | 0, particles => .ok particles
  | it + 1, particles =>
    match rd to_delete it with
    | .error e => .error e
    | .ok p_id =>
      match swap_remove particles p_id with
      | .error e => .error e
      | .ok particles' => erase_marked to_delete it particles'

/-- The body of the cell loop of `update` for the cell `cell_id`. -/
def update_cell (fuel : Nat) (cell_id : Int) (pop : Population) (objects : List Object) :
    Res (Population × List Object) :=
  match cellAt pop cell_id with
  | .error e => .error e
  | .ok cell =>
    match scan_particles fuel cell_id cell.particles.length 0 pop objects [] with
    | .error e => .error e
    | .ok (pop1, objects1, to_delete) =>
      match cellAt pop1 cell_id with
      | .error e => .error e
      | .ok cell1 =>
        match erase_marked to_delete to_delete.length cell1.particles with
        | .error e => .error e
        | .ok particles =>
          .ok ({ pop1 with cells := pop1.cells.set cell_id.toNat
                              { cell1 with particles := particles } }, objects1)

/-- The cell loop of `update`, with `n` cells still to be visited, starting at `cell_id`. -/
def update_loop (fuel : Nat) : Nat → Int → Population → List Object →
    Res (Population × List Object)
  | 0, _, pop, objects => .ok (pop, objects)
  | n + 1, cell_id, pop, objects =>
    match update_cell fuel cell_id pop objects with
    | .error e => .error e
    | .ok (pop', objects') => update_loop fuel n (cell_id + 1) pop' objects'

/-- The function `Population::update`.  The cell loop runs while
`cell_id < (signed long int)num_cells`.  The entries of `ObjectVector` are pointers; the
embedding passes the objects by value, which takes the pointers to be pairwise distinct. -/
def update (fuel : Nat) (pop : Population) (objects : List Object) (dt : ℚ) :
    Res (Population × List Object) :=
  match update_loop fuel (to_signed pop.num_cells).toNat 0 pop
      (objects.map fun object => { object with current := 0 }) with
  | .error e => .error e
  | .ok (pop', objects') =>
    .ok (pop', objects'.map fun object =>
      { object with charge := object.charge + object.current, current := object.current / dt })

/-! ## Notions used in the statements -/

/-- The particles stored in cell `c` (none when `c` is not a cell of the population). -/
def cell_particles (pop : Population) (c : Nat) : List Particle :=
  ((pop.cells[c]?).map fun cell => cell.particles).getD []

/-- The fast walk of every stored particle, started in the cell the particle is stored in,
ends within `fuel` nested calls. -/
def walks_end (pop : Population) (fuel : Nat) : Bool :=
  (List.range pop.cells.length).all fun c : Nat =>
    (cell_particles pop c).all fun y => (relocate_fast pop y.x fuel (c : Int)).isOk

/-- The condition under which the exact walk and the fast walk take the same path from
`cell_id`: in every cell the exact walk visits, either all plane values are strictly negative,
or the largest plane value is strictly positive and no facet before the one `relocate` crosses
has a strictly positive plane value. -/
def agree_along (pop : Population) (p : List ℚ) : Nat → Int → Bool
  | 0, _ => true
  | fuel + 1, cell_id =>
    match cellAt pop cell_id with
    | .error _ => false
    | .ok cell =>
      decide (pop.g_dim ≤ 3) &&
      match fill_proj pop.g_dim cell.facet_plane_coeffs p (pop.g_dim + 1) 0 with
      | .ok (proj0 :: rest) =>
        decide ((argmax_loop rest 1 (proj0, 0)).1 < 0) ||
        (decide (0 < (argmax_loop rest 1 (proj0, 0)).1) &&
         ((List.range (argmax_loop rest 1 (proj0, 0)).2).all
            (fun j => decide ((proj0 :: rest).getD j 0 ≤ 0)) &&
          match rd cell.facet_adjacents (argmax_loop rest 1 (proj0, 0)).2 with
          | .ok a => decide (a < 0) || agree_along pop p fuel a
          | .error _ => true))
      | _ => false

/-- The particles stored in the cells `0, ..., k - 1` whose fast walk, started in the cell
they are stored in, ends in cell `d`. -/
def arrivals (pop : Population) (fuel : Nat) (d : Nat) (k : Nat) : List Particle :=
  (List.range k).flatMap fun c =>
    (cell_particles pop c).filter fun y => decide (relocate_fast pop y.x fuel (c : Int) = .ok (d : Int))

/-- Every adjacency entry is a `signed long int` value. -/
def adjacents_fit (pop : Population) : Prop :=
  ∀ cell, cell ∈ pop.cells → ∀ a, a ∈ cell.facet_adjacents → -(2 : Int) ^ 63 ≤ a ∧ a < 2 ^ 63

/-- The total charge of the stored particles whose relocation result, from the cell they are
stored in, is the negative tag `-bnd_id`. -/
def tag_charge (pop : Population) (fuel : Nat) (bnd_id : Nat) : ℚ :=
  ((List.range pop.cells.length).map fun c : Nat =>
    (((cell_particles pop c).filter fun y =>
        decide (relocate_fast pop y.x fuel (c : Int) = .ok (-(bnd_id : Int))) &&
        decide (-(bnd_id : Int) < 0)).map fun y => y.q).sum).sum

/-- The sum of the charges of all particles in the store. -/
def stored_charge (pop : Population) : ℚ :=
  (pop.cells.map fun cell => (cell.particles.map fun y => y.q).sum).sum

/-- The walk outcome `res` is an exit through a tag that matches the `bnd_id` of no object. -/
def exits_unmatched (objs : List Object) : Res Int → Bool
  | .ok r => decide (r < 0) && objs.all fun o => decide (-r ≠ (o.bnd_id : Int))
  | .error _ => false

/-- The sum of the charges of the stored particles that leave through a tag matching no
object. -/
def lost_charge (pop : Population) (fuel : Nat) (objs : List Object) : ℚ :=
  ((List.range pop.cells.length).map fun c : Nat =>
    (((cell_particles pop c).filter fun y =>
        exits_unmatched objs (relocate_fast pop y.x fuel (c : Int))).map fun y => y.q).sum).sum

/-! ## Notions used in the proofs -/

/-- The population `pop` with the particle list of cell `d` replaced by `P d`. -/
def with_particles (pop : Population) (P : Nat → List Particle) : Population :=
  { pop with cells := pop.cells.mapIdx fun d cell => { cell with particles := P d } }

/-- The slot indices, counted from `i`, of the particles of a list that satisfy `del`: the
content of `to_delete` after the particle loop has scanned the list. -/
def marks (del : Particle → Bool) : List Particle → Nat → List Nat
  | [], _ => []
  | y :: ys, i => if del y then i :: marks del ys (i + 1) else marks del ys (i + 1)

/-- The objects after the particle loop of `update` has scanned the particles `L` of the cell
`k`: every particle whose walk ends in a negative tag has been deposited. -/
def deposit_exits (pop : Population) (fuel : Nat) (k : Int) : List Particle → List Object →
    List Object
  | [], objects => objects
  | y :: ys, objects =>
    match relocate_fast pop y.x fuel k with
    | .ok r =>
      if r < 0 then deposit_exits pop fuel k ys (deposit objects r y.q)
      else deposit_exits pop fuel k ys objects
    | .error _ => deposit_exits pop fuel k ys objects

/-- The test of the object loop of `update` on the outcome of a walk: the outcome is a
negative tag `r` with `(std::size_t)(-r) == bnd_id`. -/
def hits (bnd_id : Nat) : Res Int → Bool
  | .ok r => decide (r < 0) && decide (to_size_t (-r) = bnd_id)
  | .error _ => false

/-- The total charge of the particles of the list `L`, stored in cell `c`, that `update`
deposits on an object with boundary id `bnd_id`. -/
def exit_charge (pop : Population) (fuel : Nat) (bnd_id : Nat) (c : Int) (L : List Particle) : ℚ :=
  ((L.filter fun y => hits bnd_id (relocate_fast pop y.x fuel c)).map fun y => y.q).sum

/-- The total charge of the stored particles that `update` deposits on an object with boundary
id `bnd_id`. -/
def exit_total (pop : Population) (fuel : Nat) (bnd_id : Nat) : ℚ :=
  ((List.range pop.cells.length).map fun c : Nat =>
    exit_charge pop fuel bnd_id (c : Int) (cell_particles pop c)).sum

/-! ## Example meshes and stores -/

/-- A one-cell 1D mesh on the interval [0, 1]: facet 0 is the point 0 (outward normal -1,
exterior tag -1), facet 1 is the point 1 (outward normal 1, exterior tag -2). -/
def pop1 : Population :=
  { g_dim := 1, num_cells := 1,
    cells := [{ id := 0, neighbors := [], facet_adjacents := [-1, -2],
                facet_plane_coeffs := [0, -1, -1, 1], particles := [] }] }

/-- A two-cell 2D mesh with a re-entrant corner at B.  Cell 0 is the triangle C(0,4), A(-3,0),
B(0,0); cell 1 is the triangle D(12,-5), C(0,4), B(0,0).  Facet `i` lies opposite vertex `i`.
Cell 0: facet 0 = AB on the line y = 0 (exterior, tag -1), facet 1 = BC on the line x = 0
(shared with cell 1), facet 2 = CA (exterior, tag -1).  Cell 1: facet 0 = BC (shared with
cell 0), facet 1 = BD (exterior, tag -1), facet 2 = CD (exterior, tag -2).  Each coefficient
block is
`-(mid·n), n_x, n_y` with `n` the outward unit normal of the facet. -/
def pop2 : Population :=
  { g_dim := 2, num_cells := 2,
    cells := [{ id := 0, neighbors := [1], facet_adjacents := [-1, 1, -1],
                facet_plane_coeffs := [0, 0, -1, 0, 1, 0, -12/5, -4/5, 3/5], particles := [] },
              { id := 1, neighbors := [0], facet_adjacents := [0, -1, -2],
                facet_plane_coeffs := [0, -1, 0, 0, -5/13, -12/13, -16/5, 3/5, 4/5],
                particles := [] }] }

/-- The one-cell mesh `pop1` holding a single particle at rest at the point 0, which lies
exactly on facet 0 (exterior tag -1). -/
def store1 : Population :=
  with_particles pop1 fun _ => [{ x := [0], v := [0], q := 1, m := 1 }]

/-- The two-cell mesh `pop2` holding four particles filed under cell 0 (at (1,1) inside cell 1,
at (-1,1) inside cell 0, at (-1,-1) and (6,-1) beyond facet 0 of cell 0) and two filed under
cell 1 (at (1,1) inside cell 1 and at (1,5) beyond facet 2 of cell 1). -/
def store2 : Population :=
  with_particles pop2 fun d =>
    if d = 0 then [{ x := [1, 1], v := [0, 0], q := 1, m := 1 },
                   { x := [-1, 1], v := [0, 0], q := 2, m := 1 },
                   { x := [-1, -1], v := [0, 0], q := 3, m := 1 },
                   { x := [6, -1], v := [0, 0], q := 4, m := 1 }]
    else [{ x := [1, 1], v := [0, 0], q := 5, m := 1 },
          { x := [1, 5], v := [0, 0], q := 6, m := 1 }]

/-- An object on boundary 2 of the one-cell mesh; boundary 1 is the exterior. -/
def objects1 : List Object :=
  [{ bnd_id := 2, charge := 5, current := 0, potential := 0 }]

/-- Two objects, on the boundaries 1 and 3, with a stale `current` left from an earlier pass.
No object lies on boundary 2. -/
def objects2 : List Object :=
  [{ bnd_id := 1, charge := 10, current := 7, potential := 0 },
   { bnd_id := 3, charge := 20, current := 7, potential := 0 }]

/-! ## The compaction of the deprecated update -/

/-- The compaction step of the deprecated `Population::update`
(src/deprecated/punc/population.cpp): `pop_back()` when `p_id == num_particles - 1`, with
`num_particles` the size of the cell before the pass (a `std::size_t`, so the subtraction
wraps), else `std::swap(particles[p_id], particles.back())` followed by `pop_back()`. -/
def deprecated_remove (num_particles : Nat) (particles : List Particle) (p_id : Nat) :
    Res (List Particle) :=
  if p_id = (num_particles + (2 ^ 64 - 1)) % 2 ^ 64 then
    match particles with
    | [] => .error .outOfRange
    | _ :: _ => .ok particles.dropLast
  else
    match rd particles p_id, particles.getLast? with
    | .ok x, some back =>
      .ok ((particles.set p_id back).set (particles.length - 1) x).dropLast
    | _, _ => .error .outOfRange

/-- The compaction loop of the deprecated `update`, with `it` entries of `to_delete` still to be
handled. -/
def deprecated_erase_marked (num_particles : Nat) (to_delete : List Nat) :
    Nat → List Particle → Res (List Particle)
  | 0, particles => .ok particles
  | it + 1, particles =>
    match rd to_delete it with
    | .error e => .error e
    | .ok p_id =>
      match deprecated_remove num_particles particles p_id with
      | .error e => .error e
      | .ok particles' => deprecated_erase_marked num_particles to_delete it particles'

/-! ## Notions used in the statements on compaction -/

/-- The particles of `particles` whose slot index is not in `to_delete`, in slot order. -/
def unmarked (particles : List Particle) (to_delete : List Nat) : List Particle :=
  (particles.enum.filter fun jy => decide (jy.1 ∉ to_delete)).map Prod.snd

/-! ## The localizer tables -/

/-- The data `init_localizer` reads through the dolfin mesh for one facet of a cell:
`facet_cells` is `facet.entities(t_dim)` (its length is `facet.num_entities(t_dim)`),
`bnd_value` is `bnd.values()[facets[i]]`, `midpoint j` is `facet.midpoint()[j]` and `normal j`
is `cell.normal(i)[j]`, the outward normal of the facet relative to the cell. -/
structure FacetView where
  facet_cells : List Nat
  bnd_value : Nat
  midpoint : Nat → ℚ
  normal : Nat → ℚ

/-- The loop `for j < num_adj_cells: if (cell_id != facet_cells[j]) push_back(facet_cells[j])`
of `init_localizer`. -/
def push_other_cells (cell_id : Nat) : List Nat → List Int → List Int
  | [], facet_adjacents => facet_adjacents
  | c :: cs, facet_adjacents =>
    if cell_id ≠ c then push_other_cells cell_id cs (facet_adjacents ++ [(c : Int)])
    else push_other_cells cell_id cs facet_adjacents

/-- The value `-1 * bnd.values()[facets[i]]` stored into a `signed long int`: the `int` -1
becomes the `std::size_t` `2^64 - 1`, the product is taken modulo `2^64` and the result is
read back as a signed value. -/
def boundary_entry (bnd_value : Nat) : Int :=
  to_signed ((2 ^ 64 - 1) * bnd_value % 2 ^ 64)

/-- The loop `for j < g_dim: dot_product += facet.midpoint()[j] * cell.normal(i)[j]`, with `n`
iterations left, at index `j`. -/
def dot_product_loop (f : FacetView) : Nat → Nat → ℚ → ℚ
  | 0, _, dot_product => dot_product
  | n + 1, j, dot_product =>
    dot_product_loop f n (j + 1) (dot_product + f.midpoint j * f.normal j)

/-- The loop `for j < g_dim: facet_plane_coeffs.push_back(cell.normal(i)[j])`, with `n`
iterations left, at index `j`. -/
def push_normal (f : FacetView) : Nat → Nat → List ℚ → List ℚ
  | 0, _, facet_plane_coeffs => facet_plane_coeffs
  | n + 1, j, facet_plane_coeffs =>
    push_normal f n (j + 1) (facet_plane_coeffs ++ [f.normal j])

/-- The facet loop of `init_localizer` for the cell `cell_id`, over the facets still to be
visited; the state is the pair of vectors `facet_adjacents`, `facet_plane_coeffs`. -/
def localize_facets (g_dim : Nat) (cell_id : Nat) :
    List FacetView → List Int × List ℚ → List Int × List ℚ
  | [], s => s
  | f :: fs, (facet_adjacents, facet_plane_coeffs) =>
    localize_facets g_dim cell_id fs
      (if f.facet_cells.length = 1 then
          push_other_cells cell_id f.facet_cells facet_adjacents ++ [boundary_entry f.bnd_value]
        else push_other_cells cell_id f.facet_cells facet_adjacents,
       push_normal f g_dim 0 (facet_plane_coeffs ++ [-(dot_product_loop f g_dim 0 0)]))

/-- The cell loop `for (auto &cell : cells)` of `init_localizer`, with `n` cells left, at
position `k`.  `mesh cell_id` lists the facets of the mesh cell `cell_id` in local facet order;
the two vectors are written to `cells[cell_id]`. -/
def init_localizer_loop (mesh : Nat → List FacetView) (g_dim : Nat) :
    Nat → Nat → List Cell → Res (List Cell)
  | 0, _, cells => .ok cells
  | n + 1, k, cells =>
    match rd cells k with
    | .error e => .error e
    | .ok cell =>
      match rd cells cell.id with
      | .error e => .error e
      | .ok target =>
        init_localizer_loop mesh g_dim n (k + 1)
          (cells.set cell.id
            { target with
              facet_adjacents := (localize_facets g_dim cell.id (mesh cell.id) ([], [])).1,
              facet_plane_coeffs := (localize_facets g_dim cell.id (mesh cell.id) ([], [])).2 })

/-- The function `Population::init_localizer`. -/
def init_localizer (pop : Population) (mesh : Nat → List FacetView) : Res Population :=
  match init_localizer_loop mesh pop.g_dim pop.cells.length 0 pop.cells with
  | .error e => .error e
  | .ok cells => .ok { pop with cells := cells }

/-- The loop `for j < gdim: facet_mids.push_back(facet.midpoint()[j]);
facet_normals.push_back(single_cell.normal(i)[j])` of the deprecated
`Population::init_localizer` (src/deprecated/punc/population.cpp), with `n` iterations left, at
index `j`. -/
def push_mid_normal (f : FacetView) : Nat → Nat → List ℚ × List ℚ → List ℚ × List ℚ
  | 0, _, s => s
  | n + 1, j, (facet_mids, facet_normals) =>
    push_mid_normal f n (j + 1) (facet_mids ++ [f.midpoint j], facet_normals ++ [f.normal j])

/-- The facet loop of the deprecated `Population::init_localizer` for the cell `cell_id`; the
state is the triple of vectors `facet_adjacents`, `facet_mids`, `facet_normals`. -/
def deprecated_localize_facets (gdim : Nat) (cell_id : Nat) :
    List FacetView → List Int × List ℚ × List ℚ → List Int × List ℚ × List ℚ
  | [], s => s
  | f :: fs, (facet_adjacents, facet_mids, facet_normals) =>
    deprecated_localize_facets gdim cell_id fs
      (if f.facet_cells.length = 1 then
          push_other_cells cell_id f.facet_cells facet_adjacents ++ [boundary_entry f.bnd_value]
        else push_other_cells cell_id f.facet_cells facet_adjacents,
       push_mid_normal f gdim 0 (facet_mids, facet_normals))

/-- The inner loop of the deprecated `Population::relocate`:
`proj[i] += (p[j] - facet_mids[i*gdim + j]) * facet_normals[i*gdim + j]`, with `n` iterations
left, at index `j`. -/
def deprecated_proj_loop (gdim : Nat) (facet_mids facet_normals p : List ℚ) (i : Nat) :
    Nat → Nat → ℚ → Res ℚ
  | 0, _, proj => .ok proj
  | n + 1, j, proj =>
    match rd p j, rd facet_mids (i * gdim + j), rd facet_normals (i * gdim + j) with
    | .ok x, .ok mid, .ok normal =>
      deprecated_proj_loop gdim facet_mids facet_normals p i n (j + 1) (proj + (x - mid) * normal)
    | .error e, _, _ => .error e
    | _, .error e, _ => .error e
    | _, _, .error e => .error e

/-- The projection `proj[i]` of the deprecated `Population::relocate`. -/
def deprecated_proj (gdim : Nat) (facet_mids facet_normals p : List ℚ) (i : Nat) : Res ℚ :=
  deprecated_proj_loop gdim facet_mids facet_normals p i gdim 0 0

/-- A one-dimensional mesh view of three cells (segments) that all share the point 0 as their
facet 0, which therefore has three adjacent cells; facet 1 of each cell is its free end point,
on the exterior boundary with tag 1. -/
def star_mesh (cell_id : Nat) : List FacetView :=
  [{ facet_cells := [0, 1, 2], bnd_value := 0, midpoint := fun _ => 0, normal := fun _ => -1 },
   { facet_cells := [cell_id], bnd_value := 1, midpoint := fun _ => 1, normal := fun _ => 1 }]

/-- Three cells without localizer tables, as the constructor leaves them before
`init_localizer` runs. -/
def star_pop : Population :=
  { g_dim := 1, num_cells := 3,
    cells := [{ id := 0, neighbors := [1, 2], facet_adjacents := [], facet_plane_coeffs := [],
                particles := [] },
              { id := 1, neighbors := [0, 2], facet_adjacents := [], facet_plane_coeffs := [],
                particles := [] },
              { id := 2, neighbors := [0, 1], facet_adjacents := [], facet_plane_coeffs := [],
                particles := [] }] }

/-- The mesh view of the one-cell mesh `pop1` on the interval [0, 1], with the exterior tags
`tag0` and `tag1` on its two end points. -/
def interval_mesh (tag0 tag1 : Nat) (_cell_id : Nat) : List FacetView :=
  [{ facet_cells := [0], bnd_value := tag0, midpoint := fun _ => 0, normal := fun _ => -1 },
   { facet_cells := [0], bnd_value := tag1, midpoint := fun _ => 1, normal := fun _ => 1 }]

/-- The mesh view of the two-cell mesh `pop2`. -/
def pop2_mesh (cell_id : Nat) : List FacetView :=
  if cell_id = 0 then
    [{ facet_cells := [0], bnd_value := 1,
       midpoint := fun j => if j = 0 then -3/2 else 0, normal := fun j => if j = 0 then 0 else -1 },
     { facet_cells := [0, 1], bnd_value := 0,
       midpoint := fun j => if j = 0 then 0 else 2, normal := fun j => if j = 0 then 1 else 0 },
     { facet_cells := [0], bnd_value := 1,
       midpoint := fun j => if j = 0 then -3/2 else 2,
       normal := fun j => if j = 0 then -4/5 else 3/5 }]
  else
    [{ facet_cells := [0, 1], bnd_value := 0,
       midpoint := fun j => if j = 0 then 0 else 2, normal := fun j => if j = 0 then -1 else 0 },
     { facet_cells := [1], bnd_value := 1,
       midpoint := fun j => if j = 0 then 6 else -5/2,
       normal := fun j => if j = 0 then -5/13 else -12/13 },
     { facet_cells := [1], bnd_value := 2,
       midpoint := fun j => if j = 0 then 6 else -1/2,
       normal := fun j => if j = 0 then 3/5 else 4/5 }]

/-- The cells of `pop2` before `init_localizer` has run. -/
def pop2_bare : Population :=
  { g_dim := 2, num_cells := 2,
    cells := [{ id := 0, neighbors := [1], facet_adjacents := [], facet_plane_coeffs := [],
                particles := [] },
              { id := 1, neighbors := [0], facet_adjacents := [], facet_plane_coeffs := [],
                particles := [] }] }

/-! ## Notions used in the statements on the localizer tables -/

/-- The adjacency entries one facet contributes for the cell `cell_id`: the adjacent cells other
than the cell itself, in mesh order, followed by the boundary entry when the facet has exactly
one adjacent cell. -/
def adjacent_entries (cell_id : Nat) (f : FacetView) : List Int :=
  (f.facet_cells.filter fun c => decide (cell_id ≠ c)).map (fun c : Nat => (c : Int)) ++
    (if f.facet_cells.length = 1 then [boundary_entry f.bnd_value] else [])

/-- The coefficient block of one facet: the offset followed by the `g_dim` normal components. -/
def coeff_block (g_dim : Nat) (f : FacetView) : List ℚ :=
  (-(∑ j in Finset.range g_dim, f.midpoint j * f.normal j)) :: (List.range g_dim).map f.normal

/-- The cell `c` with the two tables `init_localizer` computes for it. -/
def localized (mesh : Nat → List FacetView) (g_dim : Nat) (c : Cell) : Cell :=
  { c with
    facet_adjacents := (localize_facets g_dim c.id (mesh c.id) ([], [])).1,
    facet_plane_coeffs := (localize_facets g_dim c.id (mesh c.id) ([], [])).2 }

/-- Every cell record sits at the position of its own id, as the constructor leaves them. -/
def ids_are_positions (cells : List Cell) : Prop :=
  ∀ (k : Nat) (c : Cell), cells[k]? = some c → c.id = k

/-- A one-dimensional mesh view of one cell whose facet 1 has no adjacent cell at all. -/
def loose_mesh (_cell_id : Nat) : List FacetView :=
  [{ facet_cells := [0], bnd_value := 1, midpoint := fun _ => 0, normal := fun _ => -1 },
   { facet_cells := [], bnd_value := 2, midpoint := fun _ => 1, normal := fun _ => 1 }]

/-- The cell of `pop1` before `init_localizer` has run. -/
def pop1_bare : Population :=
  { g_dim := 1, num_cells := 1,
    cells := [{ id := 0, neighbors := [], facet_adjacents := [], facet_plane_coeffs := [],
                particles := [] }] }

/-- The table `init_localizer` builds for the one-cell interval mesh when its left end point
carries the boundary tag 0 and its right end point the tag 2. -/
def pop1_tag_zero : Population :=
  { g_dim := 1, num_cells := 1,
    cells := [{ id := 0, neighbors := [], facet_adjacents := [0, -2],
                facet_plane_coeffs := [0, -1, -1, 1], particles := [] }] }

/-! ## Notions used in the statements on the depth of the exact walk -/

/-- One call of `relocate` up to its recursive call: the value the call has in hand and whether
it passes that value on to a nested call (`true`) or returns it (`false`). -/
def relocate_hop (pop : Population) (p : List ℚ) (cell_id : Int) : Res (Int × Bool) :=
  match cellAt pop cell_id with
  | .error e => .error e
  | .ok cell =>
    if 4 < pop.g_dim + 1 then .error .outOfRange
    else
      match fill_proj pop.g_dim cell.facet_plane_coeffs p (pop.g_dim + 1) 0 with
      | .error e => .error e
      | .ok [] => .error .outOfRange
      | .ok (proj0 :: rest) =>
        let (proj_max, proj_argmax) := argmax_loop rest 1 (proj0, 0)
        if proj_max < 0 then .ok (cell_id, false)
        else
          match rd cell.facet_adjacents proj_argmax with
          | .error e => .error e
          | .ok new_cell_id => .ok (new_cell_id, decide (new_cell_id ≥ 0))

/-- The exact walk from `cell_id` never returns: every recursion depth is used up. -/
def recurses_forever (pop : Population) (p : List ℚ) (cell_id : Int) : Prop :=
  ∀ fuel : Nat, relocate pop p fuel cell_id = .error .outOfFuel

/-! ## The particle counters -/

/-- The loop of `num_of_particles`: `num_particles += cell.particles.size()` in a
`std::size_t`. -/
def num_of_particles_loop : List Cell → Nat → Nat
  | [], num_particles => num_particles
  | cell :: cells, num_particles =>
    num_of_particles_loop cells ((num_particles + cell.particles.length) % 2 ^ 64)

/-- The function `Population::num_of_particles`. -/
def num_of_particles (pop : Population) : Nat := num_of_particles_loop pop.cells 0

/-- The inner loop of `num_of_positives`: `if (particle.q > 0) num_positives++`. -/
def count_positives : List Particle → Nat → Nat
  | [], num_positives => num_positives
  | particle :: particles, num_positives =>
    if particle.q > 0 then count_positives particles ((num_positives + 1) % 2 ^ 64)
    else count_positives particles num_positives

/-- The cell loop of `num_of_positives`. -/
def num_of_positives_loop : List Cell → Nat → Nat
  | [], num_positives => num_positives
  | cell :: cells, num_positives =>
    num_of_positives_loop cells (count_positives cell.particles num_positives)

/-- The function `Population::num_of_positives`. -/
def num_of_positives (pop : Population) : Nat := num_of_positives_loop pop.cells 0

/-- The inner loop of `num_of_negatives`: `if (particle.q < 0) num_negatives++`. -/
def count_negatives : List Particle → Nat → Nat
  | [], num_negatives => num_negatives
  | particle :: particles, num_negatives =>
    if particle.q < 0 then count_negatives particles ((num_negatives + 1) % 2 ^ 64)
    else count_negatives particles num_negatives

/-- The cell loop of `num_of_negatives`. -/
def num_of_negatives_loop : List Cell → Nat → Nat
  | [], num_negatives => num_negatives
  | cell :: cells, num_negatives =>
    num_of_negatives_loop cells (count_negatives cell.particles num_negatives)

/-- The function `Population::num_of_negatives`. -/
def num_of_negatives (pop : Population) : Nat := num_of_negatives_loop pop.cells 0

/-- All stored particles, cell by cell. -/
def stored_particles (pop : Population) : List Particle :=
  pop.cells.flatMap fun cell => cell.particles

/-- The two-cell mesh `pop2` holding a positive, a negative and a neutral particle in cell 0 and
two negative particles in cell 1. -/
def store3 : Population :=
  with_particles pop2 fun d =>
    if d = 0 then [{ x := [-1, 1], v := [0, 0], q := 1, m := 1 },
                   { x := [-1, 1], v := [0, 0], q := -1, m := 1 },
                   { x := [-1, 1], v := [0, 0], q := 0, m := 1 }]
    else [{ x := [1, 1], v := [0, 0], q := -2, m := 1 },
          { x := [1, 1], v := [0, 0], q := -3, m := 1 }]

/-! ## The object potentials -/

/-- Modelled from the spec: entry `(i, j)` of an inverse-capacitance matrix given by its rows;
the matrix type `boost_matrix` of src/deprecated/punc/object.h is a library type. -/
def matrix_of_rows (rows : List (List ℚ)) (i j : Nat) : ℚ :=
  (rows.getD i []).getD j 0

/-- Modelled from the spec: the body of `compute_object_potentials` is not part of the sources
at hand (src/deprecated/punc/object.h only declares it); the spec says `potential =
inverseCapacitance · charge`, a matrix-vector product. This is the inner loop of that product
for one row: `potential += row[j] * objects[j].charge`, at column `j`. -/
def potential_sum (row : Nat → ℚ) : List Object → Nat → ℚ → ℚ
  | [], _, potential => potential
  | o :: objects, j, potential => potential_sum row objects (j + 1) (potential + row j * o.charge)

/-- Modelled from the spec: the outer loop of the matrix-vector product of
`compute_object_potentials`, which writes `potential` of the object at row `i`; `all` is the
whole object vector, whose charges every row reads. -/
def set_potentials (inv_capacity : Nat → Nat → ℚ) (all : List Object) :
    List Object → Nat → List Object
  | [], _ => []
  | o :: objects, i =>
    { o with potential := potential_sum (inv_capacity i) all 0 0 } ::
      set_potentials inv_capacity all objects (i + 1)

/-- Modelled from the spec: the potential update `compute_object_potentials` (the spec's
`CapacitanceCircuit.updatePotentials`), as far as the spec describes it: the potentials are the
product of the inverse-capacitance matrix and the vector of object charges. -/
def compute_object_potentials (objects : List Object) (inv_capacity : Nat → Nat → ℚ) :
    List Object :=
  set_potentials inv_capacity objects objects 0

/-! ## The neighbour lists -/

/-- The loop `for j < num_adj_cells: if (cell_id != vertex_cells[j])
neighbors.push_back(vertex_cells[j])` of the constructor. -/
def push_other_ids (cell_id : Nat) : List Nat → List Nat → List Nat
  | [], neighbors => neighbors
  | c :: cs, neighbors =>
    if cell_id ≠ c then push_other_ids cell_id cs (neighbors ++ [c])
    else push_other_ids cell_id cs neighbors

/-- The vertex loop of the constructor; the list holds, for every vertex of the cell in turn,
`vertex.entities(t_dim)`, the cells around that vertex. -/
def collect_neighbors (cell_id : Nat) : List (List Nat) → List Nat → List Nat
  | [], neighbors => neighbors
  | vertex_cells :: rest, neighbors =>
    collect_neighbors cell_id rest (push_other_ids cell_id vertex_cells neighbors)

/-- The scan of `std::unique` behind the element `last` kept most recently: an element equal to
`last` is dropped, any other element is kept and becomes `last`. -/
def unique_from (last : Nat) : List Nat → List Nat
  | [] => []
  | b :: l => if last = b then unique_from last l else b :: unique_from b l

/-- The statement `neighbors.erase(std::unique(neighbors.begin(), neighbors.end()),
neighbors.end())`: of every run of equal consecutive elements only the first is kept. -/
def std_unique : List Nat → List Nat
  | [] => []
  | a :: l => a :: unique_from a l

/-- The neighbour list the constructor builds for the cell `cell_id`: collect, `std::sort`
(the sorted rearrangement, given here by insertion sort), `std::unique` and erase. -/
def build_neighbors (cell_id : Nat) (vertex_cells : List (List Nat)) : List Nat :=
  std_unique ((collect_neighbors cell_id vertex_cells []).insertionSort (· ≤ ·))

/-- The cell loop of the constructor `Population::Population` over the mesh cells
`cell_id, cell_id + 1, ...`, with `n` cells left: `cells.emplace_back(Cell(mesh, cell_id,
neighbors))`. -/
def construct_cells (vertex_cells : Nat → List (List Nat)) : Nat → Nat → List Cell → List Cell
  | 0, _, cells => cells
  | n + 1, cell_id, cells =>
    construct_cells vertex_cells n (cell_id + 1)
      (cells ++ [{ id := cell_id, neighbors := build_neighbors cell_id (vertex_cells cell_id),
                   facet_adjacents := [], facet_plane_coeffs := [], particles := [] }])

/-- The constructor `Population::Population`: the cell loop followed by `init_localizer`
(writing the tables to a file afterwards does not change the population). -/
def construct (g_dim num_cells : Nat) (vertex_cells : Nat → List (List Nat))
    (mesh : Nat → List FacetView) : Res Population :=
  init_localizer
    { g_dim := g_dim, num_cells := num_cells,
      cells := construct_cells vertex_cells num_cells 0 [] } mesh

/-- The cells around the vertices of the two triangles of `pop2`: the two end points of the
shared facet see both cells, the third vertex of each triangle only its own cell. -/
def pop2_vertex_cells (cell_id : Nat) : List (List Nat) :=
  if cell_id = 0 then [[0], [0, 1], [0, 1]] else [[0, 1], [0, 1], [1]]

/-! ## The exact walk with a hop counter -/

/-- The value an `int` holds after an arithmetic result `z` is stored in it: the
two's-complement value in `[-2^31, 2^31)` congruent to `z` modulo `2^32`. -/
def to_int (z : Int) : Int := (z + 2 ^ 31) % 2 ^ 32 - 2 ^ 31

/-- The function `Population::relocate_stat`; the state carried along is the counter behind the
reference `int &crossings`. -/
def relocate_stat (pop : Population) (p : List ℚ) : Nat → Int → Int → Res (Int × Int)
  | 0, _, _ => .error .outOfFuel
  | fuel + 1, cell_id, crossings =>
    match cellAt pop cell_id with
    | .error e => .error e
    | .ok cell =>
      if 4 < pop.g_dim + 1 then .error .outOfRange
      else
        match fill_proj pop.g_dim cell.facet_plane_coeffs p (pop.g_dim + 1) 0 with
        | .error e => .error e
        | .ok [] => .error .outOfRange
        | .ok (proj0 :: rest) =>
          let (proj_max, proj_argmax) := argmax_loop rest 1 (proj0, 0)
          if proj_max < 0 then .ok (cell_id, crossings)
          else
            match rd cell.facet_adjacents proj_argmax with
            | .error e => .error e
            | .ok new_cell_id =>
              if new_cell_id ≥ 0 then
                relocate_stat pop p fuel new_cell_id (to_int (crossings + 1))
              else .ok (new_cell_id, to_int (crossings + 1))

/-- The number of facets the exact walk from `cell_id` crosses, the crossing into a boundary
included. -/
def facets_crossed (pop : Population) (p : List ℚ) : Nat → Int → Nat
  | 0, _ => 0
  | fuel + 1, cell_id =>
    match relocate_hop pop p cell_id with
    | .ok (v, true) => 1 + facets_crossed pop p fuel v
    | .ok (v, false) => if v < 0 then 1 else 0
    | .error _ => 0

/-! ## Adding particles -/

/-- The loop `for j < g_dim: xs_tmp[j] = xs[i * g_dim + j]; vs_tmp[j] = vs[i * g_dim + j]` of
`add_particles`, with `n` coordinates left, at index `j`; the state is the filled part of the
two buffers. -/
def copy_coords (g_dim : Nat) (xs vs : List ℚ) (i : Nat) :
    Nat → Nat → List ℚ × List ℚ → Res (List ℚ × List ℚ)
  | 0, _, s => .ok s
  | n + 1, j, (xs_tmp, vs_tmp) =>
    match rd xs (i * g_dim + j), rd vs (i * g_dim + j) with
    | .ok a, .ok b => copy_coords g_dim xs vs i n (j + 1) (xs_tmp ++ [a], vs_tmp ++ [b])
    | .error e, _ => .error e
    | _, .error e => .error e

/-- The statement `cells[cell_id].particles.push_back(particle)` with a `std::size_t` index. -/
def push_back_at (pop : Population) (cell_id : Nat) (particle : Particle) : Res Population :=
  match rd pop.cells cell_id with
  | .error e => .error e
  | .ok cell =>
    .ok { pop with cells := pop.cells.set cell_id
                    { cell with particles := cell.particles ++ [particle] } }

/-- The particle loop of `add_particles(xs, vs, q, m)`, with `n` particles left, at particle
`i`.  The mesh query `punc::locate` is a parameter: it returns the index of the cell holding the
point, or a negative value for a point outside the mesh.  Its result is stored in the
`std::size_t cell_id` before the test `cell_id >= 0`. -/
def add_particles_loop (locate : List ℚ → Int) (xs vs : List ℚ) (q m : ℚ) :
    Nat → Nat → Population → Res Population
  | 0, _, pop => .ok pop
  | n + 1, i, pop =>
    match copy_coords pop.g_dim xs vs i pop.g_dim 0 ([], []) with
    | .error e => .error e
    | .ok (xs_tmp, vs_tmp) =>
      if to_size_t (locate xs_tmp) ≥ 0 then
        match push_back_at pop (to_size_t (locate xs_tmp))
            { x := xs_tmp, v := vs_tmp, q := q, m := m } with
        | .error e => .error e
        | .ok pop' => add_particles_loop locate xs vs q m n (i + 1) pop'
      else add_particles_loop locate xs vs q m n (i + 1) pop

/-- The function `Population::add_particles(xs, vs, q, m)`; the number of particles is
`xs.size() / g_dim`. -/
def add_particles (pop : Population) (locate : List ℚ → Int) (xs vs : List ℚ) (q m : ℚ) :
    Res Population :=
  add_particles_loop locate xs vs q m (xs.length / pop.g_dim) 0 pop

/-- The function `Population::add_particles(ps)` for a vector of particles. -/
def add_particle_list (locate : List ℚ → Int) : List Particle → Population → Res Population
  | [], pop => .ok pop
  | p :: ps, pop =>
    if to_size_t (locate p.x) ≥ 0 then
      match push_back_at pop (to_size_t (locate p.x)) p with
      | .error e => .error e
      | .ok pop' => add_particle_list locate ps pop'
    else add_particle_list locate ps pop

/-- The mesh query for the one-cell mesh `pop1` on the interval [0, 1]: cell 0 for a point of
the interval, -1 for a point outside. -/
def locate_interval (x : List ℚ) : Int :=
  if 0 ≤ x.getD 0 0 ∧ x.getD 0 0 ≤ 1 then 0 else -1

/-! ## The speed statistics -/

/-- The variables of `statistics`: the counters `m` and `n`, the previous means `m_e_old` and
`m_i_old`, and the four slots of the array `stats`. -/
structure StatState (K : Type) where
  m : Nat
  n : Nat
  m_e_old : K
  m_i_old : K
  stats0 : K
  stats1 : K
  stats2 : K
  stats3 : K

/-- The loop `for i < g_dim: v += particle.v[i] * particle.v[i]` of `statistics`, with `n`
iterations left, at index `i`; the array `particle.v` has `g_dim` entries by its type.  The
doubles of the particle are taken into the field `K` in which the arithmetic is exact. -/
def sum_squares {K : Type} [Field K] (v : List ℚ) : Nat → Nat → K → K
  | 0, _, acc => acc
  | n + 1, i, acc =>
    sum_squares v n (i + 1) (acc + ((v.getD i 0 : ℚ) : K) * ((v.getD i 0 : ℚ) : K))

/-- The body of the particle loop of `statistics` for one particle; `sqrt` is the library
square root, and the counters are `std::size_t` values. -/
def visit {K : Type} [Field K] (sqrt : K → K) (g_dim : Nat) (st : StatState K)
    (particle : Particle) : StatState K :=
  let v := sqrt (sum_squares particle.v g_dim 0 0)
  let st1 :=
    if particle.q < 0 then
      if (st.m + 1) % 2 ^ 64 = 1 then
        { st with m := (st.m + 1) % 2 ^ 64, m_e_old := v, stats0 := v, stats1 := 0 }
      else
        { st with m := (st.m + 1) % 2 ^ 64,
                  stats0 := st.m_e_old + (v - st.m_e_old) / (((st.m + 1) % 2 ^ 64 : Nat) : K),
                  stats1 := st.stats1 + (v - st.m_e_old) *
                    (v - (st.m_e_old + (v - st.m_e_old) / (((st.m + 1) % 2 ^ 64 : Nat) : K))),
                  m_e_old := st.m_e_old + (v - st.m_e_old) / (((st.m + 1) % 2 ^ 64 : Nat) : K) }
    else st
  if particle.q > 0 then
    if (st1.n + 1) % 2 ^ 64 = 1 then
      { st1 with n := (st1.n + 1) % 2 ^ 64, m_i_old := v, stats2 := v, stats3 := 0 }
    else
      { st1 with n := (st1.n + 1) % 2 ^ 64,
                 stats2 := st1.m_i_old + (v - st1.m_i_old) / (((st1.n + 1) % 2 ^ 64 : Nat) : K),
                 stats3 := st1.stats3 + (v - st1.m_i_old) *
                   (v - (st1.m_i_old + (v - st1.m_i_old) / (((st1.n + 1) % 2 ^ 64 : Nat) : K))),
                 m_i_old := st1.m_i_old + (v - st1.m_i_old) / (((st1.n + 1) % 2 ^ 64 : Nat) : K) }
  else st1

/-- The particle loop of `statistics` over the particles of one cell. -/
def visit_particles {K : Type} [Field K] (sqrt : K → K) (g_dim : Nat) :
    List Particle → StatState K → StatState K
  | [], st => st
  | particle :: particles, st => visit_particles sqrt g_dim particles (visit sqrt g_dim st particle)

/-- The cell loop of `statistics`. -/
def visit_cells {K : Type} [Field K] (sqrt : K → K) (g_dim : Nat) :
    List Cell → StatState K → StatState K
  | [], st => st
  | cell :: cells, st => visit_cells sqrt g_dim cells (visit_particles sqrt g_dim cell.particles st)

/-- The two loops of `statistics`, started with the content `s0, s1, s2, s3` of the array
`stats` the caller passes in. -/
def statistics_loops {K : Type} [Field K] (sqrt : K → K) (pop : Population) (s0 s1 s2 s3 : K) :
    StatState K :=
  visit_cells sqrt pop.g_dim pop.cells
    { m := 0, n := 0, m_e_old := 0, m_i_old := 0,
      stats0 := s0, stats1 := s1, stats2 := s2, stats3 := s3 }

/-- The function `Population::statistics`: the loops followed by
`if (m > 0) stats[1] = sqrt(stats[1] / (m - 1)); if (n > 0) stats[3] = sqrt(stats[3] / (n - 1));`.
A quotient by 0 has no value in exact arithmetic (the field operation returns 0 there), so the
slots `stats1` and `stats3` of the result are meaningful only where the divisor is not 0. -/
def statistics {K : Type} [Field K] (sqrt : K → K) (pop : Population) (s0 s1 s2 s3 : K) :
    StatState K :=
  let st := statistics_loops sqrt pop s0 s1 s2 s3
  let st1 := if st.m > 0 then { st with stats1 := sqrt (st.stats1 / ((st.m - 1 : Nat) : K)) } else st
  if st1.n > 0 then { st1 with stats3 := sqrt (st1.stats3 / ((st1.n - 1 : Nat) : K)) } else st1

/-- The final step of `statistics` executes a division by zero: one of the two guarded
divisions is executed with the divisor `m - 1`, respectively `n - 1`, equal to 0. -/
def divides_by_zero {K : Type} (st : StatState K) : Bool :=
  (decide (st.m > 0) && decide (st.m - 1 = 0)) || (decide (st.n > 0) && decide (st.n - 1 = 0))

/-! ## Notions used in the statements on the speed statistics -/

/-- The Euclidean norm of the velocity of a particle, in `K`. -/
def speed {K : Type} [Field K] (sqrt : K → K) (g_dim : Nat) (particle : Particle) : K :=
  sqrt (∑ i in Finset.range g_dim, ((particle.v.getD i 0 : ℚ) : K) ^ 2)

/-- The speeds of the negatively charged particles of the store. -/
def negative_speeds {K : Type} [Field K] (sqrt : K → K) (pop : Population) : List K :=
  ((stored_particles pop).filter fun y => decide (y.q < 0)).map (speed sqrt pop.g_dim)

/-- The speeds of the positively charged particles of the store. -/
def positive_speeds {K : Type} [Field K] (sqrt : K → K) (pop : Population) : List K :=
  ((stored_particles pop).filter fun y => decide (y.q > 0)).map (speed sqrt pop.g_dim)

/-- The arithmetic mean of a list. -/
def mean {K : Type} [Field K] (xs : List K) : K := xs.sum / (xs.length : K)

/-- The sum of the squared deviations from the mean, divided by the length minus one. -/
def sample_variance {K : Type} [Field K] (xs : List K) : K :=
  (xs.map fun x => (x - mean xs) ^ 2).sum / ((xs.length : K) - 1)

/-- A square root on the rational squares that occur in the example stores. -/
def sqrt_table (x : ℚ) : ℚ :=
  if x = 25 then 5 else if x = 9 then 3 else if x = 4 then 2 else if x = 1 then 1 else 0

/-- The two-cell mesh `pop2` holding three negative particles of speeds 5, 3 and 1 and two
positive particles of speeds 5 and 3. -/
def store4 : Population :=
  with_particles pop2 fun d =>
    if d = 0 then [{ x := [-1, 1], v := [3, 4], q := -1, m := 1 },
                   { x := [-1, 1], v := [0, 3], q := -1, m := 1 },
                   { x := [-1, 1], v := [4, 3], q := 1, m := 1 }]
    else [{ x := [1, 1], v := [1, 0], q := -1, m := 1 },
          { x := [1, 1], v := [3, 0], q := 1, m := 1 }]

/-- The one-cell mesh `pop1` holding a single particle, of negative charge. -/
def store5 : Population :=
  with_particles pop1 fun _ => [{ x := [1/2], v := [3], q := -1, m := 1 }]

/-- Welford's invariant for the values `xs` seen so far: the counter is their number, and
once a value has been seen the previous mean equals the mean slot, the mean slot times the
counter is the sum, and the deviation slot is the sum of squares minus the counter times the
squared mean. -/
def welford_inv {K : Type} [Field K] (xs : List K) (c : Nat) (old a b : K) : Prop :=
  c = xs.length ∧
  (xs ≠ [] → old = a ∧ a * (xs.length : K) = xs.sum ∧
    b = (xs.map fun x => x ^ 2).sum - (xs.length : K) * a ^ 2)

/-! ## Saving and loading particles -/

/-- The loop `for i < gdim: fprintf(fout, "%.17g\t", a[i])` of `save_file`, with `n` numbers
left, at index `i`.  A line of the file is taken as the list of numbers printed on it: printing a
double with 17 significant digits and reading it back gives the same double. -/
def print_coords (a : List ℚ) : Nat → Nat → List ℚ → Res (List ℚ)
  | 0, _, line => .ok line
  | n + 1, i, line =>
    match rd a i with
    | .error e => .error e
    | .ok value => print_coords a n (i + 1) (line ++ [value])

/-- The line `save_file` prints for one particle: position, velocity, charge and mass. -/
def save_particle (gdim : Nat) (particle : Particle) : Res (List ℚ) :=
  match print_coords particle.x gdim 0 [] with
  | .error e => .error e
  | .ok line =>
    match print_coords particle.v gdim 0 line with
    | .error e => .error e
    | .ok line' => .ok (line' ++ [particle.q, particle.m])

/-- The particle loop of `save_file` over the particles of one cell. -/
def save_particles (gdim : Nat) : List Particle → List (List ℚ) → Res (List (List ℚ))
  | [], file => .ok file
  | particle :: particles, file =>
    match save_particle gdim particle with
    | .error e => .error e
    | .ok line => save_particles gdim particles (file ++ [line])

/-- The cell loop `for cell_id < num_cells` of the deprecated `Population::save_file`, with `n`
cells left, at `cell_id`. -/
def deprecated_save_loop (pop : Population) : Nat → Nat → List (List ℚ) → Res (List (List ℚ))
  | 0, _, file => .ok file
  | n + 1, cell_id, file =>
    match rd pop.cells cell_id with
    | .error e => .error e
    | .ok cell =>
      match save_particles pop.g_dim cell.particles file with
      | .error e => .error e
      | .ok file' => deprecated_save_loop pop n (cell_id + 1) file'

/-- The deprecated `Population::save_file` (src/deprecated/punc/population.cpp). -/
def deprecated_save_file (pop : Population) : Res (List (List ℚ)) :=
  deprecated_save_loop pop pop.num_cells 0 []

/-- The variables `x`, `v`, `q`, `m` of `load_file`, which keep their values from one line to
the next. -/
structure LoadState where
  x : List ℚ
  v : List ℚ
  q : ℚ
  m : ℚ
deriving DecidableEq

/-- The chain `if (i < gdim) x[i] = value; else if (i >= gdim && i < 2 * gdim)
v[i % gdim] = value; else if (i == 2 * gdim) q = value; else if (i == 2 * gdim + 1) m = value;`
of `load_file`. -/
def store_value (gdim i : Nat) (value : ℚ) (s : LoadState) : LoadState :=
  if i < gdim then { s with x := s.x.set i value }
  else if i ≥ gdim ∧ i < 2 * gdim then { s with v := s.v.set (i % gdim) value }
  else if i = 2 * gdim then { s with q := value }
  else if i = 2 * gdim + 1 then { s with m := value }
  else s

/-- The loop `while (ss >> value)` of the deprecated `Population::load_file` over the numbers
of one line, at number `i`: the chain of assignments, `++i`, and the call
`add_particles(x, v, q, m)` inside the loop. -/
def deprecated_load_line (locate : List ℚ → Int) :
    List ℚ → Nat → LoadState → Population → Res (Population × LoadState)
  | [], _, s, pop => .ok (pop, s)
  | value :: rest, i, s, pop =>
    match add_particles pop locate (store_value pop.g_dim i value s).x
        (store_value pop.g_dim i value s).v (store_value pop.g_dim i value s).q
        (store_value pop.g_dim i value s).m with
    | .error e => .error e
    | .ok pop' => deprecated_load_line locate rest (i + 1) (store_value pop.g_dim i value s) pop'

/-- The loop `while (std::getline(in, line))` of the deprecated `load_file`. -/
def deprecated_load_lines (locate : List ℚ → Int) :
    List (List ℚ) → LoadState → Population → Res Population
  | [], _, pop => .ok pop
  | line :: lines, s, pop =>
    match deprecated_load_line locate line 0 s pop with
    | .error e => .error e
    | .ok (pop', s') => deprecated_load_lines locate lines s' pop'

/-- The deprecated `Population::load_file`.  The vectors `x` and `v` start as `gdim` zeros; `q`
and `m` are declared without a value, the values `q0` and `m0` they happen to hold are
parameters. -/
def deprecated_load_file (pop : Population) (locate : List ℚ → Int) (file : List (List ℚ))
    (q0 m0 : ℚ) : Res Population :=
  deprecated_load_lines locate file
    { x := List.replicate pop.g_dim 0, v := List.replicate pop.g_dim 0, q := q0, m := m0 } pop

/-- The loop `while (ss >> value)` of the ASCII branch of `Population::load_file`
(population.h) over the numbers of one line: the chain of assignments and `++i`. -/
def read_line (gdim : Nat) : List ℚ → Nat → LoadState → LoadState
  | [], _, s => s
  | value :: rest, i, s => read_line gdim rest (i + 1) (store_value gdim i value s)

/-- The loop `while (std::getline(in, line))` of the ASCII branch of `load_file`: the line is
read, then `add_particles(x, v, q, m)` is called. -/
def load_lines (locate : List ℚ → Int) : List (List ℚ) → LoadState → Population → Res Population
  | [], _, pop => .ok pop
  | line :: lines, s, pop =>
    match add_particles pop locate (read_line pop.g_dim line 0 s).x
        (read_line pop.g_dim line 0 s).v (read_line pop.g_dim line 0 s).q
        (read_line pop.g_dim line 0 s).m with
    | .error e => .error e
    | .ok pop' => load_lines locate lines (read_line pop.g_dim line 0 s) pop'

/-- The ASCII branch of `Population::load_file` (population.h); `q` and `m` start as 0. -/
def load_file (pop : Population) (locate : List ℚ → Int) (file : List (List ℚ)) :
    Res Population :=
  load_lines locate file
    { x := List.replicate pop.g_dim 0, v := List.replicate pop.g_dim 0, q := 0, m := 0 } pop

/-- The one-cell mesh `pop1` holding one particle at 1/2 with velocity 3, charge 1, mass 2. -/
def store6 : Population :=
  with_particles pop1 fun _ => [{ x := [1/2], v := [3], q := 1, m := 2 }]

/-! ## The plane value of a facet -/

theorem rd_eq_ok {α : Type} (v : List α) (i : Nat) (a : α) : rd v i = .ok a ↔ v[i]? = some a := by
  unfold rd
  cases h : v[i]? with
  | none => simp
  | some b => simp

theorem rd_of_lt {α : Type} (v : List α) (i : Nat) (d : α) (h : i < v.length) :
    rd v i = .ok (v.getD i d) := by
  rw [rd_eq_ok, List.getD_eq_getElem?_getD, List.getElem?_eq_getElem h]
  rfl

/-- The inner loop adds the products `coeffs[k + t] * p[j + t]` to the accumulator. -/
theorem dot_loop_eq (coeffs p : List ℚ) :
    ∀ (n k j : Nat) (acc : ℚ), k + n ≤ coeffs.length → j + n ≤ p.length →
      dot_loop coeffs p n k j acc =
        .ok (acc + ∑ t in Finset.range n, coeffs.getD (k + t) 0 * p.getD (j + t) 0) := by
  intro n
  induction n with
  | zero => intro k j acc _ _; simp [dot_loop]
  | succ n ih =>
    intro k j acc hk hj
    rw [dot_loop, rd_of_lt coeffs k 0 (by omega), rd_of_lt p j 0 (by omega)]
    simp only
    rw [ih (k + 1) (j + 1) _ (by omega) (by omega), Finset.sum_range_succ']
    congr 1
    have h1 : ∀ t, k + 1 + t = k + (t + 1) := by intro t; omega
    have h2 : ∀ t, j + 1 + t = j + (t + 1) := by intro t; omega
    simp only [h1, h2, Nat.add_zero]
    ring

/-- In exact arithmetic the value computed for facet `i` is
`offset_i + sum_j normal_ij * p_j`, read from the coefficient block of facet `i`. -/
theorem facet_proj_eq (g_dim : Nat) (coeffs p : List ℚ) (i : Nat)
    (hc : (i + 1) * (g_dim + 1) ≤ coeffs.length) (hp : g_dim ≤ p.length) :
    facet_proj g_dim coeffs p i =
      .ok (coeffs.getD (i * (g_dim + 1)) 0 +
        ∑ j in Finset.range g_dim, coeffs.getD (i * (g_dim + 1) + 1 + j) 0 * p.getD j 0) := by
  have h1 : (i + 1) * (g_dim + 1) = i * (g_dim + 1) + 1 + g_dim := by ring
  unfold facet_proj
  rw [rd_of_lt coeffs _ 0 (by omega)]
  simp only
  rw [dot_loop_eq coeffs p g_dim _ 0 _ (by omega) (by omega)]
  simp

/-! ## The facet loops -/

theorem fill_proj_eq (g_dim : Nat) (coeffs p : List ℚ) (val : Nat → ℚ) :
    ∀ (n i : Nat), (∀ j, i ≤ j → j < i + n → facet_proj g_dim coeffs p j = .ok (val j)) →
      fill_proj g_dim coeffs p n i = .ok ((List.range' i n).map val) := by
  intro n
  induction n with
  | zero => intro i _; simp [fill_proj]
  | succ n ih =>
    intro i h
    have h0 := h i (le_refl i) (by omega)
    have h1 := ih (i + 1) (fun j hj1 hj2 => h j (by omega) (by omega))
    simp [fill_proj, h0, h1, List.range'_succ]

theorem argmax_loop_inv (vs : List ℚ) :
    ∀ (pre : List ℚ) (m : ℚ) (a : Nat), pre[a]? = some m →
      (∀ (j : Nat) (v : ℚ), pre[j]? = some v → v ≤ m) →
      (∀ (j : Nat) (v : ℚ), j < a → pre[j]? = some v → v < m) →
      (pre ++ vs)[(argmax_loop vs pre.length (m, a)).2]? = some (argmax_loop vs pre.length (m, a)).1 ∧
      (∀ (j : Nat) (v : ℚ), (pre ++ vs)[j]? = some v → v ≤ (argmax_loop vs pre.length (m, a)).1) ∧
      (∀ (j : Nat) (v : ℚ), j < (argmax_loop vs pre.length (m, a)).2 → (pre ++ vs)[j]? = some v →
        v < (argmax_loop vs pre.length (m, a)).1) := by
  induction vs with
  | nil =>
    intro pre m a h1 h2 h3
    simpa [argmax_loop] using ⟨h1, h2, h3⟩
  | cons v vs ih =>
    intro pre m a h1 h2 h3
    have hlen : (pre ++ [v]).length = pre.length + 1 := by simp
    have happ : pre ++ v :: vs = (pre ++ [v]) ++ vs := by simp
    have ha : a < pre.length := by
      rcases Nat.lt_or_ge a pre.length with h | h
      · exact h
      · rw [List.getElem?_eq_none h] at h1; cases h1
    have hget : ∀ (j : Nat) (w : ℚ), (pre ++ [v])[j]? = some w → (pre[j]? = some w ∧ j < pre.length) ∨ (j = pre.length ∧ w = v) := by
      intro j w hj
      rcases Nat.lt_or_ge j pre.length with h | h
      · rw [List.getElem?_append_left h] at hj; exact Or.inl ⟨hj, h⟩
      · rw [List.getElem?_append_right h] at hj
        rcases Nat.eq_zero_or_pos (j - pre.length) with h0 | h0
        · rw [h0] at hj; simp at hj; exact Or.inr ⟨by omega, hj.symm⟩
        · obtain ⟨t, ht⟩ := Nat.exists_eq_succ_of_ne_zero (Nat.pos_iff_ne_zero.mp h0)
          rw [ht] at hj; simp at hj
    by_cases hv : v > m
    · have hstep : argmax_loop (v :: vs) pre.length (m, a) = argmax_loop vs (pre ++ [v]).length (v, pre.length) := by
        simp [argmax_loop, hv]
      rw [hstep, happ]
      apply ih
      · simp
      · intro j w hj
        rcases hget j w hj with ⟨h, _⟩ | ⟨_, h⟩
        · exact le_of_lt (lt_of_le_of_lt (h2 j w h) hv)
        · rw [h]
      · intro j w hjl hj
        rcases hget j w hj with ⟨h, _⟩ | ⟨h, _⟩
        · exact lt_of_le_of_lt (h2 j w h) hv
        · omega
    · have hstep : argmax_loop (v :: vs) pre.length (m, a) = argmax_loop vs (pre ++ [v]).length (m, a) := by
        simp [argmax_loop, hv]
      rw [hstep, happ]
      apply ih
      · rw [List.getElem?_append_left ha]; exact h1
      · intro j w hj
        rcases hget j w hj with ⟨h, _⟩ | ⟨_, h⟩
        · exact h2 j w h
        · rw [h]; exact not_lt.mp hv
      · intro j w hjl hj
        rcases hget j w hj with ⟨h, _⟩ | ⟨h, _⟩
        · exact h3 j w hjl h
        · omega

/-- The two loops of `relocate` on a filled buffer `proj0 :: rest`: the result is an entry of
the buffer, no entry is larger, and every entry before it is strictly smaller. -/
theorem argmax_loop_spec (proj0 : ℚ) (rest : List ℚ) :
    (proj0 :: rest)[(argmax_loop rest 1 (proj0, 0)).2]? = some (argmax_loop rest 1 (proj0, 0)).1 ∧
    (∀ (j : Nat) (v : ℚ), (proj0 :: rest)[j]? = some v → v ≤ (argmax_loop rest 1 (proj0, 0)).1) ∧
    (∀ (j : Nat) (v : ℚ), j < (argmax_loop rest 1 (proj0, 0)).2 → (proj0 :: rest)[j]? = some v →
      v < (argmax_loop rest 1 (proj0, 0)).1) := by
  have h := argmax_loop_inv rest [proj0] proj0 0 (by simp)
    (by intro j v hj; cases j with
        | zero => simp at hj; rw [hj]
        | succ j => simp at hj)
    (by intro j v hj; omega)
  simpa using h

/-! ## One call of `relocate` -/

/-- The buffer `proj` after the first loop of `relocate`, when facet `j` evaluates to `val j`. -/
theorem fill_proj_val (g_dim : Nat) (coeffs p : List ℚ) (val : Nat → ℚ)
    (hval : ∀ j, j ≤ g_dim → facet_proj g_dim coeffs p j = .ok (val j)) :
    fill_proj g_dim coeffs p (g_dim + 1) 0 = .ok (val 0 :: (List.range' 1 g_dim).map val) := by
  have h := fill_proj_eq g_dim coeffs p val (g_dim + 1) 0 (fun j _ hj => hval j (by omega))
  rw [h, List.range'_succ]
  simp

theorem proj_buffer_get_of_le (g_dim : Nat) (val : Nat → ℚ) (j : Nat) (hj : j ≤ g_dim) :
    (val 0 :: (List.range' 1 g_dim).map val)[j]? = some (val j) := by
  have hL : val 0 :: (List.range' 1 g_dim).map val = (List.range' 0 (g_dim + 1)).map val := by
    rw [List.range'_succ]; simp
  rw [hL, List.getElem?_map, List.getElem?_range' 0 1 (by omega : j < g_dim + 1)]
  simp

theorem proj_buffer_get (g_dim : Nat) (val : Nat → ℚ) (j : Nat) (v : ℚ)
    (h : (val 0 :: (List.range' 1 g_dim).map val)[j]? = some v) : j ≤ g_dim ∧ v = val j := by
  have hj : j ≤ g_dim := by
    rcases Nat.lt_or_ge g_dim j with hlt | hge
    · rw [List.getElem?_eq_none (by simp; omega)] at h; cases h
    · exact hge
  rw [proj_buffer_get_of_le g_dim val j hj] at h
  exact ⟨hj, (Option.some.inj h).symm⟩

/-- One call of `relocate` in a cell whose plane values are all strictly negative. -/
theorem relocate_stay (pop : Population) (p : List ℚ) (fuel : Nat) (c : Int) (cell : Cell)
    (val : Nat → ℚ) (hdim : pop.g_dim ≤ 3) (hcell : cellAt pop c = .ok cell)
    (hval : ∀ j, j ≤ pop.g_dim → facet_proj pop.g_dim cell.facet_plane_coeffs p j = .ok (val j))
    (hneg : ∀ j, j ≤ pop.g_dim → val j < 0) :
    relocate pop p (fuel + 1) c = .ok c := by
  have hfill := fill_proj_val pop.g_dim cell.facet_plane_coeffs p val hval
  obtain ⟨h1, -, -⟩ := argmax_loop_spec (val 0) ((List.range' 1 pop.g_dim).map val)
  obtain ⟨hle, hv⟩ := proj_buffer_get _ _ _ _ h1
  have hlt : (argmax_loop ((List.range' 1 pop.g_dim).map val) 1 (val 0, 0)).1 < 0 := by
    rw [hv]; exact hneg _ hle
  have hd : ¬ (4 < pop.g_dim + 1) := by omega
  simp only [relocate, hcell, hfill, hd, if_false, hlt, if_true]

/-- One call of `relocate` in a cell where facet `istar` has the largest plane value, is the
first facet with that value, and the value is not negative: the walk crosses facet `istar`. -/
theorem relocate_cross (pop : Population) (p : List ℚ) (fuel : Nat) (c : Int) (cell : Cell)
    (val : Nat → ℚ) (istar : Nat) (a : Int) (hdim : pop.g_dim ≤ 3)
    (hcell : cellAt pop c = .ok cell)
    (hval : ∀ j, j ≤ pop.g_dim → facet_proj pop.g_dim cell.facet_plane_coeffs p j = .ok (val j))
    (histar : istar ≤ pop.g_dim)
    (hmax : ∀ j, j ≤ pop.g_dim → val j ≤ val istar)
    (hfirst : ∀ j, j < istar → val j < val istar)
    (hnonneg : 0 ≤ val istar)
    (hadj : rd cell.facet_adjacents istar = .ok a) :
    relocate pop p (fuel + 1) c = if a ≥ 0 then relocate pop p fuel a else .ok a := by
  have hfill := fill_proj_val pop.g_dim cell.facet_plane_coeffs p val hval
  obtain ⟨h1, h2, h3⟩ := argmax_loop_spec (val 0) ((List.range' 1 pop.g_dim).map val)
  obtain ⟨hle, hv⟩ := proj_buffer_get _ _ _ _ h1
  have hstar := proj_buffer_get_of_le pop.g_dim val istar histar
  have harg : (argmax_loop ((List.range' 1 pop.g_dim).map val) 1 (val 0, 0)).2 = istar := by
    rcases Nat.lt_trichotomy (argmax_loop ((List.range' 1 pop.g_dim).map val) 1 (val 0, 0)).2 istar
      with h | h | h
    · have := hfirst _ h
      have h4 := h2 istar (val istar) hstar
      rw [hv] at h4
      exact absurd this (not_lt.mpr h4)
    · exact h
    · have h4 := h3 istar (val istar) h hstar
      rw [hv] at h4
      exact absurd h4 (not_lt.mpr (hmax _ hle))
  have hmaxv : (argmax_loop ((List.range' 1 pop.g_dim).map val) 1 (val 0, 0)).1 = val istar := by
    rw [hv, harg]
  have hnl : ¬ ((argmax_loop ((List.range' 1 pop.g_dim).map val) 1 (val 0, 0)).1 < 0) := by
    rw [hmaxv]; exact not_lt.mpr hnonneg
  have hd : ¬ (4 < pop.g_dim + 1) := by omega
  simp only [relocate, hcell, hfill, hd, if_false, hnl, harg, hadj]

/-! ## One scan of `relocate_fast` -/

theorem fill_proj_inv (g_dim : Nat) (coeffs p : List ℚ) :
    ∀ (n i : Nat) (L : List ℚ), fill_proj g_dim coeffs p n i = .ok L →
      L.length = n ∧ ∀ k, k < n → ∃ v, L[k]? = some v ∧ facet_proj g_dim coeffs p (i + k) = .ok v := by
  intro n
  induction n with
  | zero =>
    intro i L h
    simp [fill_proj] at h
    subst h
    simp
  | succ n ih =>
    intro i L h
    simp only [fill_proj] at h
    cases hv : facet_proj g_dim coeffs p i with
    | error e => rw [hv] at h; cases h
    | ok v =>
      rw [hv] at h
      cases hr : fill_proj g_dim coeffs p n (i + 1) with
      | error e => rw [hr] at h; cases h
      | ok vs =>
        rw [hr] at h
        simp only [Res.ok.injEq] at h
        subst h
        obtain ⟨hl, hk⟩ := ih (i + 1) vs hr
        refine ⟨by simp [hl], ?_⟩
        intro k hklt
        cases k with
        | zero => exact ⟨v, by simp, by simpa using hv⟩
        | succ k =>
          obtain ⟨w, hw1, hw2⟩ := hk k (by omega)
          refine ⟨w, by simpa using hw1, ?_⟩
          have : i + (k + 1) = i + 1 + k := by omega
          rw [this]; exact hw2

/-- The facet loop of `relocate_fast` finds no facet when no plane value is positive. -/
theorem first_positive_none (g_dim : Nat) (coeffs p : List ℚ) (val : Nat → ℚ) :
    ∀ (n i : Nat), (∀ j, i ≤ j → j < i + n → facet_proj g_dim coeffs p j = .ok (val j)) →
      (∀ j, i ≤ j → j < i + n → val j ≤ 0) →
      first_positive g_dim coeffs p n i = .ok none := by
  intro n
  induction n with
  | zero => intro i _ _; simp [first_positive]
  | succ n ih =>
    intro i hval hle
    have h0 := hval i (le_refl i) (by omega)
    have h1 : ¬ (val i > 0) := not_lt.mpr (hle i (le_refl i) (by omega))
    simp only [first_positive, h0, h1, if_false]
    exact ih (i + 1) (fun j a b => hval j (by omega) (by omega))
      (fun j a b => hle j (by omega) (by omega))

/-- The facet loop of `relocate_fast` stops at the first facet with a positive plane value. -/
theorem first_positive_some (g_dim : Nat) (coeffs p : List ℚ) (val : Nat → ℚ) (istar : Nat) :
    ∀ (n i : Nat), (∀ j, i ≤ j → j ≤ istar → facet_proj g_dim coeffs p j = .ok (val j)) →
      i ≤ istar → istar < i + n → 0 < val istar → (∀ j, i ≤ j → j < istar → val j ≤ 0) →
      first_positive g_dim coeffs p n i = .ok (some istar) := by
  intro n
  induction n with
  | zero => intro i _ h1 h2 _ _; omega
  | succ n ih =>
    intro i hval h1 h2 hpos hle
    have h0 := hval i (le_refl i) h1
    rcases Nat.eq_or_lt_of_le h1 with heq | hlt
    · subst heq
      simp only [first_positive, h0, gt_iff_lt, hpos, if_true]
    · have hn : ¬ (val i > 0) := not_lt.mpr (hle i (le_refl i) hlt)
      simp only [first_positive, h0, hn, if_false]
      exact ih (i + 1) (fun j a b => hval j (by omega) b) (by omega) (by omega) hpos
        (fun j a b => hle j (by omega) b)

/-- The exact walk and the fast walk agree along a path on which they cross the same facets. -/
theorem relocate_eq_relocate_fast_of_agree (pop : Population) (p : List ℚ) :
    ∀ (fuel : Nat) (c : Int), agree_along pop p fuel c = true →
      relocate pop p fuel c = relocate_fast pop p fuel c := by
  intro fuel
  induction fuel with
  | zero => intro c _; simp [relocate, relocate_fast]
  | succ fuel ih =>
    intro c h
    simp only [agree_along] at h
    cases hcell : cellAt pop c with
    | error e => rw [hcell] at h; cases h
    | ok cell =>
      rw [hcell] at h
      simp only [Bool.and_eq_true, decide_eq_true_eq] at h
      obtain ⟨hdim, h⟩ := h
      cases hfill : fill_proj pop.g_dim cell.facet_plane_coeffs p (pop.g_dim + 1) 0 with
      | error e => rw [hfill] at h; cases h
      | ok L =>
        rw [hfill] at h
        cases L with
        | nil => cases h
        | cons proj0 rest =>
          simp only [Bool.or_eq_true, Bool.and_eq_true, decide_eq_true_eq, List.all_eq_true,
            List.mem_range] at h
          obtain ⟨hlen, hk⟩ := fill_proj_inv _ _ _ _ _ _ hfill
          -- the plane values as a function of the facet index
          have hval : ∀ j, j ≤ pop.g_dim →
              facet_proj pop.g_dim cell.facet_plane_coeffs p j = .ok ((proj0 :: rest).getD j 0) := by
            intro j hj
            obtain ⟨v, hv1, hv2⟩ := hk j (by omega)
            rw [Nat.zero_add] at hv2
            rw [hv2, List.getD_eq_getElem?_getD, hv1]; rfl
          obtain ⟨s1, s2, s3⟩ := argmax_loop_spec proj0 rest
          have hd : ¬ (4 < pop.g_dim + 1) := by omega
          have hargle : (argmax_loop rest 1 (proj0, 0)).2 ≤ pop.g_dim := by
            rcases Nat.lt_or_ge pop.g_dim (argmax_loop rest 1 (proj0, 0)).2 with hlt | hge
            · rw [List.getElem?_eq_none (by omega)] at s1; cases s1
            · exact hge
          rcases h with hneg | ⟨hpos, hbefore, hrec⟩
          · -- every plane value is negative: both return the start cell
            have hnone : first_positive pop.g_dim cell.facet_plane_coeffs p (pop.g_dim + 1) 0 = .ok none := by
              apply first_positive_none _ _ _ (fun j => (proj0 :: rest).getD j 0)
              · intro j _ hj; exact hval j (by omega)
              · intro j _ hj
                obtain ⟨v, hv1, _⟩ := hk j (by omega)
                have := s2 j v hv1
                rw [List.getD_eq_getElem?_getD, hv1]
                exact le_of_lt (lt_of_le_of_lt this hneg)
            simp only [relocate, relocate_fast, hcell, hfill, hd, if_false, hneg, if_true, hnone]
          · have hsome : first_positive pop.g_dim cell.facet_plane_coeffs p (pop.g_dim + 1) 0
                = .ok (some (argmax_loop rest 1 (proj0, 0)).2) := by
              apply first_positive_some _ _ _ (fun j => (proj0 :: rest).getD j 0)
              · intro j _ hj; exact hval j (by omega)
              · exact Nat.zero_le _
              · omega
              · show 0 < (proj0 :: rest).getD _ 0
                rw [List.getD_eq_getElem?_getD, s1]; exact hpos
              · intro j _ hj
                exact hbefore j hj
            have hnl : ¬ ((argmax_loop rest 1 (proj0, 0)).1 < 0) := not_lt.mpr (le_of_lt hpos)
            simp only [relocate, relocate_fast, hcell, hfill, hd, if_false, hnl, hsome]
            cases hadj : rd cell.facet_adjacents (argmax_loop rest 1 (proj0, 0)).2 with
            | error e => rfl
            | ok a =>
              rw [hadj] at hrec
              simp only [Bool.or_eq_true, decide_eq_true_eq] at hrec
              by_cases ha : a ≥ 0
              · simp only [ha, if_true]
                rcases hrec with hlt | hrec
                · omega
                · exact ih a hrec
              · simp only [ha, if_false]

/-! ## The relocation walks: claims -/

/-- C1: if each of the `g_dim + 1` facet plane values of an in-range cell `c` is strictly
negative at the point `p`, then `relocate(p, c)` returns `c` in one call, without visiting
another cell (one level of recursion is enough), and feeding the result back into `relocate`
any number of times keeps returning `c`. -/
theorem relocate_inside_returns_start (pop : Population) (p : List ℚ) (c : Int) (cell : Cell)
    (val : Nat → ℚ) (hdim : pop.g_dim ≤ 3) (hcell : cellAt pop c = .ok cell)
    (hval : ∀ j, j ≤ pop.g_dim → facet_proj pop.g_dim cell.facet_plane_coeffs p j = .ok (val j))
    (hneg : ∀ j, j ≤ pop.g_dim → val j < 0) :
    (∀ fuel : Nat, relocate pop p (fuel + 1) c = .ok c) ∧
    (∀ fuel k : Nat, Nat.iterate (relocate_again pop p (fuel + 1)) k (.ok c) = .ok c) := by
  have h1 : ∀ fuel : Nat, relocate pop p (fuel + 1) c = .ok c :=
    fun fuel => relocate_stay pop p fuel c cell val hdim hcell hval hneg
  refine ⟨h1, ?_⟩
  intro fuel k
  induction k with
  | zero => rfl
  | succ k ih =>
    rw [Function.iterate_succ_apply', ih]
    exact h1 fuel

theorem relocate_inside_returns_start_witness :
    relocate pop1 [1/2] (0 + 1) 0 = .ok 0 ∧
    Nat.iterate (relocate_again pop1 [1/2] (0 + 1)) 5 (.ok 0) = .ok 0 :=
  have h := relocate_inside_returns_start pop1 [1/2] 0
    { id := 0, neighbors := [], facet_adjacents := [-1, -2],
      facet_plane_coeffs := [0, -1, -1, 1], particles := [] }
    (fun _ => -1/2) (by decide) (by decide!)
    (by
      intro j hj
      have hj1 : j ≤ 1 := hj
      interval_cases j <;> norm_num [pop1, facet_proj, dot_loop, rd])
    (by intro j _; norm_num)
  ⟨h.1 0, h.2 0 5⟩

/-- C2: in an in-range cell `c` where not every facet plane value is negative, `relocate(p, c)`
crosses the facet `istar` with the largest plane value, the lowest-indexed one among equal
maxima: when the adjacency entry `a` of that facet is `>= 0` the result is that of
`relocate(p, a)`, and when `a` is negative the result is `a` itself. -/
theorem relocate_crosses_max_facet (pop : Population) (p : List ℚ) (fuel : Nat) (c : Int)
    (cell : Cell) (val : Nat → ℚ) (istar : Nat) (a : Int) (hdim : pop.g_dim ≤ 3)
    (hcell : cellAt pop c = .ok cell)
    (hval : ∀ j, j ≤ pop.g_dim → facet_proj pop.g_dim cell.facet_plane_coeffs p j = .ok (val j))
    (hsome : ∃ j, j ≤ pop.g_dim ∧ ¬ (val j < 0))
    (histar : istar ≤ pop.g_dim)
    (hmax : ∀ j, j ≤ pop.g_dim → val j ≤ val istar)
    (hfirst : ∀ j, j < istar → val j < val istar)
    (hadj : rd cell.facet_adjacents istar = .ok a) :
    (a ≥ 0 → relocate pop p (fuel + 1) c = relocate pop p fuel a) ∧
    (a < 0 → relocate pop p (fuel + 1) c = .ok a) := by
  obtain ⟨j, hj, hjn⟩ := hsome
  have hnonneg : 0 ≤ val istar := le_trans (not_lt.mp hjn) (hmax j hj)
  have h := relocate_cross pop p fuel c cell val istar a hdim hcell hval histar hmax hfirst
    hnonneg hadj
  constructor
  · intro ha; rw [h, if_pos ha]
  · intro ha; rw [h, if_neg (not_le.mpr ha)]

theorem relocate_crosses_max_facet_witness :
    ((1 : Int) ≥ 0 → relocate pop2 [6, -1] (1 + 1) 0 = relocate pop2 [6, -1] 1 1) ∧
    ((1 : Int) < 0 → relocate pop2 [6, -1] (1 + 1) 0 = .ok 1) :=
  relocate_crosses_max_facet pop2 [6, -1] 1 0
    { id := 0, neighbors := [1], facet_adjacents := [-1, 1, -1],
      facet_plane_coeffs := [0, 0, -1, 0, 1, 0, -12/5, -4/5, 3/5], particles := [] }
    (fun j => if j = 0 then 1 else if j = 1 then 6 else -39/5) 1 1
    (by decide) (by decide!)
    (by
      intro j hj
      have hj1 : j ≤ 2 := hj
      interval_cases j <;> norm_num [pop2, facet_proj, dot_loop, rd])
    ⟨1, by decide, by norm_num⟩
    (by decide)
    (by
      intro j hj
      have hj1 : j ≤ 2 := hj
      interval_cases j <;> norm_num)
    (by
      intro j hj
      interval_cases j; norm_num)
    (by decide!)

/-- C4: when the plane value of `p` is exactly 0 on a facet `i0` of the in-range cell `c` whose
adjacency entry is the exterior tag -1, and strictly negative on every other facet of `c`,
a single `relocate(p, c)` call returns -1 (the exit through boundary id 1) without visiting
another cell (one level of recursion is enough). -/
theorem relocate_on_exterior_facet (pop : Population) (p : List ℚ) (c : Int) (cell : Cell)
    (val : Nat → ℚ) (i0 : Nat) (hdim : pop.g_dim ≤ 3) (hcell : cellAt pop c = .ok cell)
    (hval : ∀ j, j ≤ pop.g_dim → facet_proj pop.g_dim cell.facet_plane_coeffs p j = .ok (val j))
    (hi0 : i0 ≤ pop.g_dim) (hzero : val i0 = 0)
    (hothers : ∀ j, j ≤ pop.g_dim → j ≠ i0 → val j < 0)
    (hadj : rd cell.facet_adjacents i0 = .ok (-1)) :
    ∀ fuel : Nat, relocate pop p (fuel + 1) c = .ok (-1) := by
  intro fuel
  have h := relocate_cross pop p fuel c cell val i0 (-1) hdim hcell hval hi0
    (by
      intro j hj
      by_cases hji : j = i0
      · rw [hji]
      · rw [hzero]; exact le_of_lt (hothers j hj hji))
    (by
      intro j hj
      rw [hzero]; exact hothers j (by omega) (by omega))
    (by rw [hzero]) hadj
  rw [h]; rfl

theorem relocate_on_exterior_facet_witness :
    relocate pop1 [0] (0 + 1) 0 = .ok (-1) :=
  relocate_on_exterior_facet pop1 [0] 0
    { id := 0, neighbors := [], facet_adjacents := [-1, -2],
      facet_plane_coeffs := [0, -1, -1, 1], particles := [] }
    (fun j => if j = 0 then 0 else -1) 0 (by decide) (by decide!)
    (by
      intro j hj
      have hj1 : j ≤ 1 := hj
      interval_cases j <;> norm_num [pop1, facet_proj, dot_loop, rd])
    (by decide) (by norm_num)
    (by
      intro j hj hne
      have hj1 : j ≤ 1 := hj
      interval_cases j
      · exact absurd rfl hne
      · norm_num)
    (by decide!) 0

/-- C3 (as stated) fails: in the two-cell mesh `pop2` the point (6, -1) lies strictly inside
cell 1; started from cell 0, where the plane values are 1, 6 and -39/5, `relocate` crosses
facet 1 (the largest value) and ends in cell 1, while `relocate_fast` crosses facet 0 (the
first positive value) and ends with the boundary tag -1.  Both walks terminate. -/
theorem relocate_fast_differs_from_relocate :
    relocate pop2 [6, -1] 2 0 = .ok 1 ∧ relocate_fast pop2 [6, -1] 2 0 = .ok (-1) := by
  constructor <;> decide!

/-- C3 (amended): for every localizer table, point `p` and in-range start cell `c`, if in every
cell the exact walk visits either all plane values are strictly negative, or the largest one is
strictly positive and no lower-indexed facet than the one `relocate` crosses has a strictly
positive plane value (`agree_along`), then `relocate(p, c)` and `relocate_fast(p, c)` give the
same outcome: the same final cell id or the same negative boundary tag. -/
theorem relocate_fast_agrees_on_common_path (pop : Population) (p : List ℚ) (fuel : Nat)
    (c : Int) (h : agree_along pop p fuel c = true) :
    relocate pop p fuel c = relocate_fast pop p fuel c :=
  relocate_eq_relocate_fast_of_agree pop p fuel c h

theorem relocate_fast_agrees_on_common_path_witness :
    relocate pop2 [1, 1] 2 0 = relocate_fast pop2 [1, 1] 2 0 ∧
    relocate_fast pop2 [1, 1] 2 0 = .ok 1 :=
  ⟨relocate_fast_agrees_on_common_path pop2 [1, 1] 2 0 (by decide!), by decide!⟩

/-! ## Populations that differ only in their particles -/

theorem with_particles_g_dim (pop : Population) (P : Nat → List Particle) :
    (with_particles pop P).g_dim = pop.g_dim := rfl

theorem with_particles_num_cells (pop : Population) (P : Nat → List Particle) :
    (with_particles pop P).num_cells = pop.num_cells := rfl

theorem with_particles_length (pop : Population) (P : Nat → List Particle) :
    (with_particles pop P).cells.length = pop.cells.length := by
  simp [with_particles]

theorem with_particles_get (pop : Population) (P : Nat → List Particle) (d : Nat) :
    (with_particles pop P).cells[d]? =
      (pop.cells[d]?).map fun cell => { cell with particles := P d } := by
  simp [with_particles]

theorem cellAt_with_particles (pop : Population) (P : Nat → List Particle) (c : Int) :
    cellAt (with_particles pop P) c =
      match cellAt pop c with
      | .ok cell => .ok { cell with particles := P c.toNat }
      | .error e => .error e := by
  unfold cellAt
  by_cases hc : c < 0
  · simp [hc]
  · simp only [hc, if_false, rd, with_particles_get]
    cases pop.cells[c.toNat]? <;> rfl

theorem cellAt_ok_iff (pop : Population) (c : Int) (cell : Cell) :
    cellAt pop c = .ok cell ↔ 0 ≤ c ∧ pop.cells[c.toNat]? = some cell := by
  unfold cellAt
  by_cases hc : c < 0
  · simp [hc]
  · simp [hc, rd_eq_ok, not_lt.mp hc]

theorem cellAt_nat (pop : Population) (k : Nat) (cell : Cell) (h : pop.cells[k]? = some cell) :
    cellAt pop (k : Int) = .ok cell := by
  rw [cellAt_ok_iff]; simpa using h

/-- The relocation walk reads only the localizer tables, not the particles. -/
theorem relocate_fast_with_particles (pop : Population) (P : Nat → List Particle) (p : List ℚ) :
    ∀ (fuel : Nat) (c : Int),
      relocate_fast (with_particles pop P) p fuel c = relocate_fast pop p fuel c := by
  intro fuel
  induction fuel with
  | zero => intro c; rfl
  | succ fuel ih =>
    intro c
    simp only [relocate_fast, cellAt_with_particles, with_particles_g_dim]
    cases cellAt pop c with
    | error e => rfl
    | ok cell =>
      simp only
      cases first_positive pop.g_dim cell.facet_plane_coeffs p (pop.g_dim + 1) 0 with
      | error e => rfl
      | ok r =>
        cases r with
        | none => rfl
        | some i =>
          simp only
          cases rd cell.facet_adjacents i with
          | error e => rfl
          | ok a =>
            simp only
            by_cases ha : a ≥ 0
            · simp only [ha, if_true]; exact ih a
            · simp only [ha, if_false]

theorem population_ext (a b : Population) (h1 : a.g_dim = b.g_dim)
    (h2 : a.num_cells = b.num_cells) (h3 : a.cells = b.cells) : a = b := by
  cases a; cases b; simp_all

theorem with_particles_congr (pop : Population) (P Q : Nat → List Particle)
    (h : ∀ d, d < pop.cells.length → P d = Q d) : with_particles pop P = with_particles pop Q := by
  refine population_ext _ _ ?_ ?_ ?_
  · rfl
  · rfl
  apply List.ext_getElem?
  intro d
  simp only [with_particles, List.getElem?_mapIdx]
  cases hd : pop.cells[d]? with
  | none => rfl
  | some cell =>
    have hlt : d < pop.cells.length := by
      rcases Nat.lt_or_ge d pop.cells.length with h1 | h1
      · exact h1
      · rw [List.getElem?_eq_none h1] at hd; cases hd
    simp [h d hlt]

/-- The particle list of cell `d` of `pop` (empty when `d` is not a cell). -/
theorem with_particles_self (pop : Population) :
    with_particles pop (fun d => ((pop.cells[d]?).map fun cell => cell.particles).getD []) = pop := by
  refine population_ext _ _ ?_ ?_ ?_
  · rfl
  · rfl
  apply List.ext_getElem?
  intro d
  simp only [with_particles, List.getElem?_mapIdx]
  cases hd : pop.cells[d]? with
  | none => rfl
  | some cell => simp

theorem with_particles_set (pop : Population) (P : Nat → List Particle) (d : Nat) (cell : Cell)
    (ps : List Particle) (h : pop.cells[d]? = some cell) :
    ({ with_particles pop P with
        cells := (with_particles pop P).cells.set d { cell with particles := ps } } : Population)
      = with_particles pop (Function.update P d ps) := by
  refine population_ext _ _ ?_ ?_ ?_
  · rfl
  · rfl
  apply List.ext_getElem?
  intro e
  show ((with_particles pop P).cells.set d { cell with particles := ps })[e]? = _
  by_cases hed : d = e
  · subst hed
    have hlt : d < pop.cells.length := by
      rcases Nat.lt_or_ge d pop.cells.length with h1 | h1
      · exact h1
      · rw [List.getElem?_eq_none h1] at h; cases h
    rw [List.getElem?_set_self (by rw [with_particles_length]; exact hlt)]
    simp [with_particles, h]
  · rw [List.getElem?_set_ne hed]
    simp only [with_particles, List.getElem?_mapIdx]
    cases pop.cells[e]? with
    | none => rfl
    | some c => simp [Function.update, Ne.symm hed]

theorem push_particle_with_particles (pop : Population) (P : Nat → List Particle) (d : Nat)
    (cell : Cell) (y : Particle) (h : pop.cells[d]? = some cell) :
    push_particle (with_particles pop P) (d : Int) y =
      .ok (with_particles pop (Function.update P d (P d ++ [y]))) := by
  unfold push_particle
  rw [cellAt_with_particles, cellAt_nat pop d cell h]
  simp only [Int.toNat_ofNat]
  have := with_particles_set pop P d cell (P d ++ [y]) h
  simp only [Res.ok.injEq]
  exact this

/-! ## Properties of the fast walk -/

/-- More fuel does not change the outcome of a walk that ends. -/
theorem relocate_fast_mono (pop : Population) (p : List ℚ) (r : Int) :
    ∀ (fuel : Nat) (c : Int), relocate_fast pop p fuel c = .ok r →
      relocate_fast pop p (fuel + 1) c = .ok r := by
  intro fuel
  induction fuel with
  | zero => intro c h; simp [relocate_fast] at h
  | succ fuel ih =>
    intro c h
    rw [relocate_fast] at h ⊢
    cases hcell : cellAt pop c with
    | error e => rw [hcell] at h; cases h
    | ok cell =>
      rw [hcell] at h
      simp only at h ⊢
      cases hfp : first_positive pop.g_dim cell.facet_plane_coeffs p (pop.g_dim + 1) 0 with
      | error e => rw [hfp] at h; cases h
      | ok o =>
        rw [hfp] at h
        cases o with
        | none => exact h
        | some i =>
          simp only at h ⊢
          cases hadj : rd cell.facet_adjacents i with
          | error e => rw [hadj] at h; cases h
          | ok a =>
            rw [hadj] at h
            simp only at h ⊢
            by_cases ha : a ≥ 0
            · simp only [ha, if_true] at h ⊢
              exact ih a h
            · simp only [ha, if_false] at h ⊢
              exact h

theorem relocate_fast_mono_le (pop : Population) (p : List ℚ) (r : Int) (c : Int) (fuel : Nat)
    (h : relocate_fast pop p fuel c = .ok r) :
    ∀ fuel', fuel ≤ fuel' → relocate_fast pop p fuel' c = .ok r := by
  intro fuel' hle
  induction fuel' with
  | zero =>
    have : fuel = 0 := by omega
    subst this; exact h
  | succ n ih =>
    rcases Nat.eq_or_lt_of_le hle with heq | hlt
    · subst heq; exact h
    · exact relocate_fast_mono pop p r n c (ih (by omega))

/-- The cell a fast walk ends in is a fixed point: a single call started there returns it. -/
theorem relocate_fast_fixed (pop : Population) (p : List ℚ) (d : Int) (hd : 0 ≤ d) :
    ∀ (fuel : Nat) (c : Int), relocate_fast pop p fuel c = .ok d →
      relocate_fast pop p 1 d = .ok d := by
  intro fuel
  induction fuel with
  | zero => intro c h; simp [relocate_fast] at h
  | succ fuel ih =>
    intro c h
    rw [relocate_fast] at h
    cases hcell : cellAt pop c with
    | error e => rw [hcell] at h; cases h
    | ok cell =>
      rw [hcell] at h
      simp only at h
      cases hfp : first_positive pop.g_dim cell.facet_plane_coeffs p (pop.g_dim + 1) 0 with
      | error e => rw [hfp] at h; cases h
      | ok o =>
        rw [hfp] at h
        cases o with
        | none =>
          simp only [Res.ok.injEq] at h
          subst h
          simp only [relocate_fast, hcell, hfp]
        | some i =>
          simp only at h
          cases hadj : rd cell.facet_adjacents i with
          | error e => rw [hadj] at h; cases h
          | ok a =>
            rw [hadj] at h
            simp only at h
            by_cases ha : a ≥ 0
            · simp only [ha, if_true] at h
              exact ih a h
            · simp only [ha, if_false, Res.ok.injEq] at h
              omega

/-- A fast walk that ends in a cell ends in a cell of the table. -/
theorem relocate_fast_in_range (pop : Population) (p : List ℚ) (d : Int) (hd : 0 ≤ d)
    (fuel : Nat) (c : Int) (h : relocate_fast pop p fuel c = .ok d) :
    ∃ cell, pop.cells[d.toNat]? = some cell := by
  have h1 := relocate_fast_fixed pop p d hd fuel c h
  rw [relocate_fast] at h1
  cases hcell : cellAt pop d with
  | error e => rw [hcell] at h1; cases h1
  | ok cell => exact ⟨cell, ((cellAt_ok_iff pop d cell).mp hcell).2⟩

/-- A negative outcome of the fast walk is an adjacency entry of some cell. -/
theorem relocate_fast_neg_mem (pop : Population) (p : List ℚ) (r : Int) (hr : r < 0) :
    ∀ (fuel : Nat) (c : Int), relocate_fast pop p fuel c = .ok r →
      ∃ cell, cell ∈ pop.cells ∧ r ∈ cell.facet_adjacents := by
  intro fuel
  induction fuel with
  | zero => intro c h; simp [relocate_fast] at h
  | succ fuel ih =>
    intro c h
    rw [relocate_fast] at h
    cases hcell : cellAt pop c with
    | error e => rw [hcell] at h; cases h
    | ok cell =>
      rw [hcell] at h
      simp only at h
      obtain ⟨hc0, hcget⟩ := (cellAt_ok_iff pop c cell).mp hcell
      cases hfp : first_positive pop.g_dim cell.facet_plane_coeffs p (pop.g_dim + 1) 0 with
      | error e => rw [hfp] at h; cases h
      | ok o =>
        rw [hfp] at h
        cases o with
        | none =>
          simp only [Res.ok.injEq] at h
          omega
        | some i =>
          simp only at h
          cases hadj : rd cell.facet_adjacents i with
          | error e => rw [hadj] at h; cases h
          | ok a =>
            rw [hadj] at h
            simp only at h
            by_cases ha : a ≥ 0
            · simp only [ha, if_true] at h
              exact ih a h
            · simp only [ha, if_false, Res.ok.injEq] at h
              subst h
              exact ⟨cell, List.getElem?_mem hcget,
                List.getElem?_mem ((rd_eq_ok _ _ _).mp hadj)⟩

/-! ## The compaction loop -/

theorem marks_append (del : Particle → Bool) (L M : List Particle) :
    ∀ i, marks del (L ++ M) i = marks del L i ++ marks del M (i + L.length) := by
  induction L with
  | nil => intro i; simp [marks]
  | cons y ys ih =>
    intro i
    have h : i + 1 + ys.length = i + (ys.length + 1) := by omega
    by_cases hy : del y = true
    · simp [marks, hy, ih (i + 1), h]
    · simp [marks, hy, ih (i + 1), h]

/-- Only the first `it` entries of `to_delete` are read by the remaining compaction steps. -/
theorem erase_marked_reads_front (td ex : List Nat) :
    ∀ (it : Nat) (ps : List Particle), it ≤ td.length →
      erase_marked (td ++ ex) it ps = erase_marked td it ps := by
  intro it
  induction it with
  | zero => intro ps _; rfl
  | succ it ih =>
    intro ps hle
    have hrd : rd (td ++ ex) it = rd td it := by
      unfold rd
      rw [List.getElem?_append_left (by omega)]
    simp only [erase_marked, hrd]
    cases rd td it with
    | error e => rfl
    | ok p_id =>
      simp only
      cases swap_remove ps p_id with
      | error e => rfl
      | ok ps' => exact ih ps' (by omega)

/-- Removing the slot right after the prefix `L`: the prefix is untouched and the rest keeps
its particles. -/
theorem swap_remove_behind_front (L : List Particle) (x : Particle) (post : List Particle) :
    ∃ post', swap_remove (L ++ x :: post) L.length = .ok (L ++ post') ∧ post'.Perm post := by
  rcases List.eq_nil_or_concat post with hnil | ⟨init, last, hpost⟩
  · subst hnil
    refine ⟨[], ?_, List.Perm.refl _⟩
    simp [swap_remove]
  · rw [List.concat_eq_append] at hpost
    subst hpost
    refine ⟨last :: init, ?_, ?_⟩
    · have hlast : (L ++ x :: (init ++ [last])).getLast? = some last := by
        have : L ++ x :: (init ++ [last]) = (L ++ x :: init) ++ [last] := by simp
        rw [this, List.getLast?_concat]
      have hset : (L ++ x :: (init ++ [last])).set L.length last = (L ++ last :: init) ++ [last] := by
        rw [List.set_append_right _ _ (le_refl _)]
        simp
      simp only [swap_remove, hlast]
      rw [if_pos (by simp), hset, List.dropLast_concat]
    · exact (List.perm_append_singleton last init).symm

/-- The compaction loop, run on the marks of the scanned prefix `L`, keeps exactly the unmarked
particles of `L` and everything behind `L`. -/
theorem erase_marked_spec (del : Particle → Bool) (L : List Particle) :
    ∀ post : List Particle, ∃ r,
      erase_marked (marks del L 0) (marks del L 0).length (L ++ post) = .ok r ∧
      r.Perm (L.filter (fun y => !del y) ++ post) := by
  induction L using List.reverseRecOn with
  | nil =>
    intro post
    exact ⟨post, by simp [marks, erase_marked], List.Perm.refl _⟩
  | append_singleton L x ih =>
    intro post
    by_cases hx : del x = true
    · have hm : marks del (L ++ [x]) 0 = marks del L 0 ++ [L.length] := by
        rw [marks_append]; simp [marks, hx]
      obtain ⟨post', hsw, hperm⟩ := swap_remove_behind_front L x post
      obtain ⟨r, hr, hrp⟩ := ih post'
      refine ⟨r, ?_, ?_⟩
      · rw [hm]
        have hlen : (marks del L 0 ++ [L.length]).length = (marks del L 0).length + 1 := by simp
        have hrd : rd (marks del L 0 ++ [L.length]) (marks del L 0).length = .ok L.length := by
          rw [rd_eq_ok]; simp
        have happ : L ++ [x] ++ post = L ++ x :: post := by simp
        rw [hlen, erase_marked, hrd, happ]
        simp only [hsw]
        rw [erase_marked_reads_front _ _ _ _ (le_refl _)]
        exact hr
      · have hf : (L ++ [x]).filter (fun y => !del y) = L.filter (fun y => !del y) := by
          simp [List.filter_append, hx]
        rw [hf]
        exact hrp.trans (List.Perm.append_left _ hperm)
    · have hm : marks del (L ++ [x]) 0 = marks del L 0 := by
        rw [marks_append]; simp [marks, hx]
      obtain ⟨r, hr, hrp⟩ := ih (x :: post)
      refine ⟨r, ?_, ?_⟩
      · rw [hm]
        have happ : L ++ [x] ++ post = L ++ x :: post := by simp
        rw [happ]; exact hr
      · have hf : (L ++ [x]).filter (fun y => !del y) = L.filter (fun y => !del y) ++ [x] := by
          simp [List.filter_append, hx]
        rw [hf]
        simpa using hrp

/-! ## The particle loop of `update` -/

/-- The particle loop over the unscanned part `todo` of cell `k`: the particles whose walk ends
in another cell `d` are appended to that cell, the exits are deposited, and the slots of all
particles that leave cell `k` are recorded in `to_delete`. -/
theorem scan_particles_spec (pop0 : Population) (fuel : Nat) (k : Nat) (cellk : Cell)
    (hk : pop0.cells[k]? = some cellk) :
    ∀ (todo done : List Particle) (P : Nat → List Particle) (objs : List Object) (td : List Nat),
      P k = done ++ todo →
      (∀ y, y ∈ todo → ∃ r, relocate_fast pop0 y.x fuel (k : Int) = .ok r) →
      scan_particles fuel (k : Int) todo.length done.length (with_particles pop0 P) objs td =
        .ok (with_particles pop0 (fun d => if d = k then P k else
                P d ++ todo.filter (fun y => decide (relocate_fast pop0 y.x fuel (k : Int) = .ok (d : Int)))),
             deposit_exits pop0 fuel (k : Int) todo objs,
             td ++ marks (fun y => decide (relocate_fast pop0 y.x fuel (k : Int) ≠ .ok (k : Int)))
                    todo done.length) := by
  intro todo
  induction todo with
  | nil =>
    intro done P objs td _ _
    simp only [List.length_nil, scan_particles, List.filter_nil, List.append_nil, marks,
      deposit_exits]
    congr 2
    apply with_particles_congr
    intro d _
    by_cases hd : d = k
    · simp [hd]
    · simp [hd]
  | cons y ys ih =>
    intro done P objs td hP hterm
    obtain ⟨r, hr⟩ := hterm y (List.mem_cons_self y ys)
    have hterm' : ∀ z, z ∈ ys → ∃ r, relocate_fast pop0 z.x fuel (k : Int) = .ok r :=
      fun z hz => hterm z (List.mem_cons_of_mem y hz)
    have hcell : cellAt (with_particles pop0 P) (k : Int) = .ok { cellk with particles := P k } := by
      rw [cellAt_with_particles, cellAt_nat pop0 k cellk hk]; simp
    have hrd : rd (P k) done.length = .ok y := by
      rw [rd_eq_ok, hP, List.getElem?_append_right (le_refl _)]; simp
    have hdone : (done ++ [y]).length = done.length + 1 := by simp
    have hwalk : relocate_fast (with_particles pop0 P) y.x fuel (k : Int) = .ok r := by
      rw [relocate_fast_with_particles]; exact hr
    simp only [List.length_cons, scan_particles, hcell, hrd, hwalk]
    by_cases hrk : r = (k : Int)
    · -- the particle stays in cell `k`
      subst hrk
      simp only [ne_eq, not_true_eq_false, if_false]
      have hP' : P k = (done ++ [y]) ++ ys := by rw [hP]; simp
      have := ih (done ++ [y]) P objs td hP' hterm'
      rw [hdone] at this
      rw [this]
      congr 1
      · congr 1
        · apply with_particles_congr
          intro d _
          by_cases hd : d = k
          · simp [hd]
          · have hne : ¬ ((k : Int) = (d : Int)) := by omega
            simp [hd, List.filter_cons, hr, hne]
        · congr 1
          · have hk0 : ¬ ((k : Int) < 0) := by omega
            simp [deposit_exits, hr, hk0]
          · simp [marks, hr]
    · simp only [ne_eq, hrk, not_false_eq_true, if_true]
      by_cases hr0 : r ≥ 0
      · -- the particle moves to the cell `r`
        simp only [hr0, if_true]
        obtain ⟨celld, hd0⟩ := relocate_fast_in_range pop0 y.x r hr0 fuel (k : Int) hr
        have hrd' : ((r.toNat : Nat) : Int) = r := Int.toNat_of_nonneg hr0
        have hne : r.toNat ≠ k := by omega
        have hpush : push_particle (with_particles pop0 P) r y =
            .ok (with_particles pop0 (Function.update P r.toNat (P r.toNat ++ [y]))) := by
          have := push_particle_with_particles pop0 P r.toNat celld y hd0
          rw [hrd'] at this; exact this
        simp only [hpush]
        have hP' : Function.update P r.toNat (P r.toNat ++ [y]) k = (done ++ [y]) ++ ys := by
          rw [Function.update_noteq (Ne.symm hne), hP]; simp
        have := ih (done ++ [y]) (Function.update P r.toNat (P r.toNat ++ [y])) objs
          (td ++ [done.length]) hP' hterm'
        rw [hdone] at this
        rw [this]
        congr 1
        · congr 1
          · apply with_particles_congr
            intro d _
            by_cases hd : d = k
            · simp [hd, Function.update_noteq (Ne.symm hne)]
            · by_cases hdr : d = r.toNat
              · subst hdr
                simp [hd, List.filter_cons, hr, hrd']
              · have hne2 : ¬ (r = (d : Int)) := by omega
                simp [hd, Function.update_noteq hdr, List.filter_cons, hr, hne2]
          · congr 1
            · simp [deposit_exits, hr, not_lt.mpr hr0]
            · simp [marks, hr, hrk]
      · -- the particle leaves through a boundary
        simp only [hr0, if_false]
        have hneg : r < 0 := not_le.mp hr0
        have hP' : P k = (done ++ [y]) ++ ys := by rw [hP]; simp
        have := ih (done ++ [y]) P (deposit objs r y.q) (td ++ [done.length]) hP' hterm'
        rw [hdone] at this
        rw [this]
        congr 1
        · congr 1
          · apply with_particles_congr
            intro d _
            by_cases hd : d = k
            · simp [hd]
            · have hne2 : ¬ (r = (d : Int)) := by omega
              simp [hd, List.filter_cons, hr, hne2]
          · congr 1
            · simp [deposit_exits, hr, hneg]
            · simp [marks, hr, hrk]

/-! ## One iteration of the cell loop -/

/-- One iteration of the cell loop, for cell `k`: the particles whose walk ends in `k` stay (in
some order), those whose walk ends in another cell `d` are appended to `d`, and the exits are
deposited on the objects. -/
theorem update_cell_spec (pop0 : Population) (fuel : Nat) (k : Nat) (cellk : Cell)
    (hk : pop0.cells[k]? = some cellk) (P : Nat → List Particle) (objs : List Object)
    (hterm : ∀ y, y ∈ P k → ∃ r, relocate_fast pop0 y.x fuel (k : Int) = .ok r) :
    ∃ ps : List Particle,
      update_cell fuel (k : Int) (with_particles pop0 P) objs =
        .ok (with_particles pop0 (fun d => if d = k then ps else
                P d ++ (P k).filter (fun y => decide (relocate_fast pop0 y.x fuel (k : Int) = .ok (d : Int)))),
             deposit_exits pop0 fuel (k : Int) (P k) objs) ∧
      ps.Perm ((P k).filter (fun y => decide (relocate_fast pop0 y.x fuel (k : Int) = .ok (k : Int)))) := by
  have hcell : ∀ Q : Nat → List Particle,
      cellAt (with_particles pop0 Q) (k : Int) = .ok { cellk with particles := Q k } := by
    intro Q
    rw [cellAt_with_particles, cellAt_nat pop0 k cellk hk]; simp
  have hscan := scan_particles_spec pop0 fuel k cellk hk (P k) [] P objs [] (by simp) hterm
  obtain ⟨r, hr, hperm⟩ := erase_marked_spec
    (fun y => decide (relocate_fast pop0 y.x fuel (k : Int) ≠ .ok (k : Int))) (P k) []
  refine ⟨r, ?_, ?_⟩
  · simp only [List.length_nil, List.nil_append] at hscan
    simp only [List.append_nil] at hr
    simp only [update_cell, hcell, hscan, if_true, hr, Int.toNat_ofNat]
    have hset := with_particles_set pop0 (fun d => if d = k then P k else
        P d ++ (P k).filter (fun y => decide (relocate_fast pop0 y.x fuel (k : Int) = .ok (d : Int))))
      k cellk r hk
    simp only [Res.ok.injEq, Prod.mk.injEq, and_true]
    rw [hset]
    apply with_particles_congr
    intro d _
    by_cases hd : d = k
    · subst hd; simp
    · simp [hd, Function.update_noteq hd]
  · have hf : (P k).filter (fun y => !decide (relocate_fast pop0 y.x fuel (k : Int) ≠ .ok (k : Int)))
        = (P k).filter (fun y => decide (relocate_fast pop0 y.x fuel (k : Int) = .ok (k : Int))) := by
      congr 1
      funext y
      by_cases h : relocate_fast pop0 y.x fuel (k : Int) = .ok (k : Int) <;> simp [h]
    rw [← hf]
    simpa using hperm

theorem cell_particles_eq_nil (pop : Population) (c : Nat) (h : pop.cells.length ≤ c) :
    cell_particles pop c = [] := by
  unfold cell_particles
  rw [List.getElem?_eq_none h]
  rfl

/-! ## The deposits of one cell -/

theorem exit_charge_nil (pop : Population) (fuel : Nat) (b : Nat) (c : Int) :
    exit_charge pop fuel b c [] = 0 := by
  simp [exit_charge]

theorem exit_charge_cons (pop : Population) (fuel : Nat) (b : Nat) (c : Int) (y : Particle)
    (ys : List Particle) :
    exit_charge pop fuel b c (y :: ys) =
      (if hits b (relocate_fast pop y.x fuel c) = true then y.q else 0)
        + exit_charge pop fuel b c ys := by
  unfold exit_charge
  by_cases h : hits b (relocate_fast pop y.x fuel c) = true
  · simp [List.filter_cons, h]
  · simp [List.filter_cons, h]

theorem exit_charge_append (pop : Population) (fuel : Nat) (b : Nat) (c : Int)
    (L M : List Particle) :
    exit_charge pop fuel b c (L ++ M) = exit_charge pop fuel b c L + exit_charge pop fuel b c M := by
  simp [exit_charge, List.filter_append]

theorem exit_charge_perm (pop : Population) (fuel : Nat) (b : Nat) (c : Int)
    (L M : List Particle) (h : L.Perm M) :
    exit_charge pop fuel b c L = exit_charge pop fuel b c M := by
  unfold exit_charge
  exact ((h.filter _).map _).sum_eq

/-- Particles whose walk ends in a cell deposit nothing. -/
theorem exit_charge_of_stay (pop : Population) (fuel : Nat) (b : Nat) (c : Int)
    (L : List Particle)
    (h : ∀ y, y ∈ L → ∃ r, 0 ≤ r ∧ relocate_fast pop y.x fuel c = .ok r) :
    exit_charge pop fuel b c L = 0 := by
  induction L with
  | nil => exact exit_charge_nil pop fuel b c
  | cons y ys ih =>
    rw [exit_charge_cons, ih (fun z hz => h z (List.mem_cons_of_mem y hz))]
    obtain ⟨r, hr0, hr⟩ := h y (List.mem_cons_self y ys)
    simp [hr, hits, not_lt.mpr hr0]

/-- The objects after the particle loop has scanned the list `L` of cell `k`. -/
theorem deposit_exits_eq (pop : Population) (fuel : Nat) (k : Int) (L : List Particle) :
    ∀ objs : List Object, deposit_exits pop fuel k L objs =
      objs.map fun o => { o with current := o.current + exit_charge pop fuel o.bnd_id k L } := by
  induction L with
  | nil =>
    intro objs
    simp [deposit_exits, exit_charge_nil]
  | cons y ys ih =>
    intro objs
    simp only [deposit_exits]
    cases hr : relocate_fast pop y.x fuel k with
    | error e =>
      simp only [ih, exit_charge_cons, hr, hits]
      simp
    | ok r =>
      by_cases hneg : r < 0
      · simp only [hneg, if_true, ih, deposit, List.map_map]
        apply List.map_congr_left
        intro o _
        by_cases hb : to_size_t (-r) = o.bnd_id
        · simp [exit_charge_cons, hr, hits, hneg, hb, add_assoc]
        · simp [exit_charge_cons, hr, hits, hneg, hb]
      · simp only [hneg, if_false, ih]
        apply List.map_congr_left
        intro o _
        simp [exit_charge_cons, hr, hits, hneg]

/-! ## The particles that reach a cell -/

theorem mem_arrivals (pop : Population) (fuel : Nat) (d k : Nat) (y : Particle) :
    y ∈ arrivals pop fuel d k ↔
      ∃ c, c < k ∧ y ∈ cell_particles pop c ∧ relocate_fast pop y.x fuel (c : Int) = .ok (d : Int) := by
  simp [arrivals, List.mem_flatMap, List.mem_filter]

theorem arrivals_succ (pop : Population) (fuel : Nat) (d k : Nat) :
    arrivals pop fuel d (k + 1) = arrivals pop fuel d k ++
      (cell_particles pop k).filter
        (fun y => decide (relocate_fast pop y.x fuel (k : Int) = .ok (d : Int))) := by
  simp [arrivals, List.range_succ, List.flatMap_append]

/-- A walk that ends in cell `d` also ends in `d` when started in `d`, with the same fuel. -/
theorem relocate_fast_stays (pop : Population) (p : List ℚ) (fuel : Nat) (c d : Int) (hd : 0 ≤ d)
    (h : relocate_fast pop p fuel c = .ok d) : relocate_fast pop p fuel d = .ok d := by
  have h1 := relocate_fast_fixed pop p d hd fuel c h
  have hf : 1 ≤ fuel := by
    cases fuel with
    | zero => simp [relocate_fast] at h
    | succ n => omega
  exact relocate_fast_mono_le pop p d d 1 h1 fuel hf

/-! ## The cell loop of `update` -/

theorem object_current_add_zero (objs : List Object) :
    (objs.map fun o => { o with current := o.current + 0 }) = objs := by
  have : (fun o : Object => ({ o with current := o.current + 0 } : Object)) = id := by
    funext o; cases o; simp
  rw [this, List.map_id]

/-- The state before cell `k` is visited: every cell `d` holds the particles that reached it
from the cells below `k` and, when `d` is still to be visited, its own original particles. -/
theorem found_in_cell_ends (pop0 : Population) (fuel : Nat) (k : Nat) (y : Particle)
    (hy : y ∈ arrivals pop0 fuel k k) :
    relocate_fast pop0 y.x fuel (k : Int) = .ok (k : Int) := by
  obtain ⟨c, _, _, hc⟩ := (mem_arrivals pop0 fuel k k y).mp hy
  exact relocate_fast_stays pop0 y.x fuel (c : Int) (k : Int) (by omega) hc

/-- One iteration of the cell loop keeps the loop invariant and deposits the exits of the
original particles of cell `k`. -/
theorem update_cell_step (pop0 : Population) (fuel : Nat) (k : Nat) (hklt : k < pop0.cells.length)
    (P : Nat → List Particle) (objs : List Object)
    (hinv : ∀ d, d < pop0.cells.length →
      (P d).Perm ((if k ≤ d then cell_particles pop0 d else []) ++ arrivals pop0 fuel d k))
    (htermk : ∀ y, y ∈ P k → ∃ r, relocate_fast pop0 y.x fuel (k : Int) = .ok r) :
    ∃ P1 : Nat → List Particle,
      update_cell fuel (k : Int) (with_particles pop0 P) objs =
        .ok (with_particles pop0 P1,
             objs.map fun o =>
               { o with current :=
                          o.current + exit_charge pop0 fuel o.bnd_id (k : Int) (cell_particles pop0 k) }) ∧
      ∀ d, d < pop0.cells.length →
        (P1 d).Perm ((if k + 1 ≤ d then cell_particles pop0 d else []) ++
          arrivals pop0 fuel d (k + 1)) := by
  obtain ⟨cellk, hk⟩ : ∃ cellk, pop0.cells[k]? = some cellk :=
    ⟨pop0.cells[k], List.getElem?_eq_getElem hklt⟩
  have hPk := hinv k hklt
  rw [if_pos (le_refl k)] at hPk
  have harr := found_in_cell_ends pop0 fuel k
  obtain ⟨ps, hcell, hps⟩ := update_cell_spec pop0 fuel k cellk hk P objs htermk
  -- the particles of cell `k` that go to cell `d`
  have hfilter : ∀ d : Nat, ((P k).filter
        (fun y => decide (relocate_fast pop0 y.x fuel (k : Int) = .ok (d : Int)))).Perm
      ((cell_particles pop0 k).filter
        (fun y => decide (relocate_fast pop0 y.x fuel (k : Int) = .ok (d : Int)))
       ++ (if d = k then arrivals pop0 fuel k k else [])) := by
    intro d
    refine (hPk.filter _).trans ?_
    rw [List.filter_append]
    apply List.Perm.append_left
    by_cases hd : d = k
    · subst hd
      rw [if_pos rfl, List.filter_eq_self.mpr]
      intro y hy
      simp [harr y hy]
    · rw [if_neg hd, List.filter_eq_nil_iff.mpr]
      intro y hy
      have hne : ¬ ((k : Int) = (d : Int)) := by omega
      simp [harr y hy, hne]
  have hexit : ∀ b, exit_charge pop0 fuel b (k : Int) (P k) =
      exit_charge pop0 fuel b (k : Int) (cell_particles pop0 k) := by
    intro b
    rw [exit_charge_perm pop0 fuel b (k : Int) _ _ hPk, exit_charge_append,
      exit_charge_of_stay pop0 fuel b (k : Int) (arrivals pop0 fuel k k)
        (fun y hy => ⟨(k : Int), by omega, harr y hy⟩), add_zero]
  refine ⟨fun d => if d = k then ps else
      P d ++ (P k).filter (fun y => decide (relocate_fast pop0 y.x fuel (k : Int) = .ok (d : Int))),
    ?_, ?_⟩
  · rw [hcell, deposit_exits_eq]
    simp only [hexit]
  · intro d hd
    by_cases hdk : d = k
    · subst hdk
      simp only [if_true]
      rw [if_neg (by omega), List.nil_append, arrivals_succ]
      refine hps.trans ((hfilter d).trans ?_)
      rw [if_pos rfl]
      exact List.perm_append_comm
    · simp only [hdk, if_false]
      rw [arrivals_succ, ← List.append_assoc]
      refine List.Perm.append ?_ ?_
      · have := hinv d hd
        by_cases hle : k ≤ d
        · rw [if_pos hle] at this
          rw [if_pos (by omega)]; exact this
        · rw [if_neg hle] at this
          rw [if_neg (by omega)]; exact this
      · have := hfilter d
        rw [if_neg hdk, List.append_nil] at this
        exact this

/-- The cell loop from cell `k` on, started in a state in which every cell `d` holds the
particles that reached it from the cells below `k` and, when `d` is still to be visited, its
own original particles: at the end every cell holds exactly the particles whose walk ends
in it, and every object has received the exits of the cells `k, k + 1, ...`. -/
theorem update_loop_spec (pop0 : Population) (fuel : Nat)
    (hterm : ∀ c y, y ∈ cell_particles pop0 c → ∃ r, relocate_fast pop0 y.x fuel (c : Int) = .ok r) :
    ∀ (m k : Nat) (P : Nat → List Particle) (objs : List Object),
      k + m = pop0.cells.length →
      (∀ d, d < pop0.cells.length →
        (P d).Perm ((if k ≤ d then cell_particles pop0 d else []) ++ arrivals pop0 fuel d k)) →
      ∃ P' : Nat → List Particle,
        update_loop fuel m (k : Int) (with_particles pop0 P) objs =
          .ok (with_particles pop0 P',
               objs.map fun o => { o with current := o.current +
                 ((List.range' k m).map fun c : Nat =>
                    exit_charge pop0 fuel o.bnd_id (c : Int) (cell_particles pop0 c)).sum }) ∧
        ∀ d, d < pop0.cells.length → (P' d).Perm (arrivals pop0 fuel d pop0.cells.length) := by
  intro m
  induction m with
  | zero =>
    intro k P objs hkm hinv
    refine ⟨P, ?_, ?_⟩
    · simp only [update_loop, List.range'_zero, List.map_nil, List.sum_nil,
        object_current_add_zero]
    · intro d hd
      have := hinv d hd
      have hk : k = pop0.cells.length := by omega
      rw [if_neg (by omega), List.nil_append, hk] at this
      exact this
  | succ m ih =>
    intro k P objs hkm hinv
    have hklt : k < pop0.cells.length := by omega
    have hPk := hinv k hklt
    rw [if_pos (le_refl k)] at hPk
    have htermk : ∀ y, y ∈ P k → ∃ r, relocate_fast pop0 y.x fuel (k : Int) = .ok r := by
      intro y hy
      rcases List.mem_append.mp (hPk.mem_iff.mp hy) with h | h
      · exact hterm k y h
      · exact ⟨_, found_in_cell_ends pop0 fuel k y h⟩
    obtain ⟨P1, hcell, hinv'⟩ := update_cell_step pop0 fuel k hklt P objs hinv htermk
    obtain ⟨P', hloop, hfin⟩ := ih (k + 1) P1 _ (by omega) hinv'
    refine ⟨P', ?_, hfin⟩
    have hcast : ((k : Int) + 1) = ((k + 1 : Nat) : Int) := by push_cast; rfl
    simp only [update_loop, hcell, hcast]
    rw [hloop]
    simp only [Res.ok.injEq, Prod.mk.injEq, true_and]
    rw [List.map_map]
    apply List.map_congr_left
    intro o _
    simp [List.range'_succ, add_assoc]

/-! ## A pass that ends -/

/-- When the particle loop ends, the walk of every scanned particle has ended. -/
theorem scan_particles_ok_inv (pop0 : Population) (fuel : Nat) (k : Nat) (cellk : Cell)
    (hk : pop0.cells[k]? = some cellk) :
    ∀ (todo done : List Particle) (P : Nat → List Particle) (objs : List Object) (td : List Nat)
      (res : Population × List Object × List Nat),
      P k = done ++ todo →
      scan_particles fuel (k : Int) todo.length done.length (with_particles pop0 P) objs td = .ok res →
      ∀ y, y ∈ todo → ∃ r, relocate_fast pop0 y.x fuel (k : Int) = .ok r := by
  intro todo
  induction todo with
  | nil => intro _ _ _ _ _ _ _ y hy; cases hy
  | cons y ys ih =>
    intro done P objs td res hP hok z hz
    have hcell : cellAt (with_particles pop0 P) (k : Int) = .ok { cellk with particles := P k } := by
      rw [cellAt_with_particles, cellAt_nat pop0 k cellk hk]; simp
    have hrd : rd (P k) done.length = .ok y := by
      rw [rd_eq_ok, hP, List.getElem?_append_right (le_refl _)]; simp
    have hdone : (done ++ [y]).length = done.length + 1 := by simp
    simp only [List.length_cons, scan_particles, hcell, hrd, relocate_fast_with_particles] at hok
    cases hr : relocate_fast pop0 y.x fuel (k : Int) with
    | error e => rw [hr] at hok; cases hok
    | ok r =>
      rw [hr] at hok
      simp only at hok
      rcases List.mem_cons.mp hz with rfl | hz'
      · exact ⟨r, hr⟩
      · by_cases hrk : r = (k : Int)
        · simp only [hrk, ne_eq, not_true_eq_false, if_false] at hok
          have hP' : P k = (done ++ [y]) ++ ys := by rw [hP]; simp
          rw [← hdone] at hok
          exact ih (done ++ [y]) P objs td res hP' hok z hz'
        · simp only [ne_eq, hrk, not_false_eq_true, if_true] at hok
          by_cases hr0 : r ≥ 0
          · simp only [hr0, if_true] at hok
            obtain ⟨celld, hd0⟩ := relocate_fast_in_range pop0 y.x r hr0 fuel (k : Int) hr
            have hrd' : ((r.toNat : Nat) : Int) = r := Int.toNat_of_nonneg hr0
            have hne : r.toNat ≠ k := by omega
            have hpush : push_particle (with_particles pop0 P) r y =
                .ok (with_particles pop0 (Function.update P r.toNat (P r.toNat ++ [y]))) := by
              have := push_particle_with_particles pop0 P r.toNat celld y hd0
              rw [hrd'] at this; exact this
            simp only [hpush] at hok
            have hP' : Function.update P r.toNat (P r.toNat ++ [y]) k = (done ++ [y]) ++ ys := by
              rw [Function.update_noteq (Ne.symm hne), hP]; simp
            rw [← hdone] at hok
            exact ih (done ++ [y]) _ objs _ res hP' hok z hz'
          · simp only [hr0, if_false] at hok
            have hP' : P k = (done ++ [y]) ++ ys := by rw [hP]; simp
            rw [← hdone] at hok
            exact ih (done ++ [y]) P _ _ res hP' hok z hz'

/-- When one iteration of the cell loop ends, the walk of every particle found in the cell
has ended. -/
theorem update_cell_ok_inv (pop0 : Population) (fuel : Nat) (k : Nat) (cellk : Cell)
    (hk : pop0.cells[k]? = some cellk) (P : Nat → List Particle) (objs : List Object)
    (res : Population × List Object)
    (hok : update_cell fuel (k : Int) (with_particles pop0 P) objs = .ok res) :
    ∀ y, y ∈ P k → ∃ r, relocate_fast pop0 y.x fuel (k : Int) = .ok r := by
  have hcell : cellAt (with_particles pop0 P) (k : Int) = .ok { cellk with particles := P k } := by
    rw [cellAt_with_particles, cellAt_nat pop0 k cellk hk]; simp
  simp only [update_cell, hcell] at hok
  cases hscan : scan_particles fuel (k : Int) (P k).length 0 (with_particles pop0 P) objs [] with
  | error e => rw [hscan] at hok; cases hok
  | ok res1 =>
    exact scan_particles_ok_inv pop0 fuel k cellk hk (P k) [] P objs [] res1 (by simp)
      (by simpa using hscan)

/-- When the cell loop ends, the walk of every original particle of the cells it visited has
ended. -/
theorem update_loop_ok_inv (pop0 : Population) (fuel : Nat) :
    ∀ (m k : Nat) (P : Nat → List Particle) (objs : List Object) (res : Population × List Object),
      k + m = pop0.cells.length →
      (∀ d, d < pop0.cells.length →
        (P d).Perm ((if k ≤ d then cell_particles pop0 d else []) ++ arrivals pop0 fuel d k)) →
      update_loop fuel m (k : Int) (with_particles pop0 P) objs = .ok res →
      ∀ c y, k ≤ c → y ∈ cell_particles pop0 c →
        ∃ r, relocate_fast pop0 y.x fuel (c : Int) = .ok r := by
  intro m
  induction m with
  | zero =>
    intro k P objs res hkm _ _ c y hkc hy
    rw [cell_particles_eq_nil pop0 c (by omega)] at hy
    cases hy
  | succ m ih =>
    intro k P objs res hkm hinv hok c y hkc hy
    have hklt : k < pop0.cells.length := by omega
    obtain ⟨cellk, hk⟩ : ∃ cellk, pop0.cells[k]? = some cellk :=
      ⟨pop0.cells[k], List.getElem?_eq_getElem hklt⟩
    simp only [update_loop] at hok
    cases hcellres : update_cell fuel (k : Int) (with_particles pop0 P) objs with
    | error e => rw [hcellres] at hok; cases hok
    | ok res1 =>
      have htermk := update_cell_ok_inv pop0 fuel k cellk hk P objs res1 hcellres
      rcases Nat.eq_or_lt_of_le hkc with heq | hlt
      · subst heq
        have hPk := hinv k hklt
        rw [if_pos (le_refl k)] at hPk
        exact htermk y (hPk.mem_iff.mpr (List.mem_append_left _ hy))
      · obtain ⟨P1, hcell, hinv'⟩ := update_cell_step pop0 fuel k hklt P objs hinv htermk
        rw [hcell] at hok
        have hcast : ((k : Int) + 1) = ((k + 1 : Nat) : Int) := by push_cast; rfl
        simp only [hcast] at hok
        exact ih (k + 1) P1 _ res (by omega) hinv' hok c y (by omega) hy

/-! ## The whole pass -/

theorem to_signed_small (n : Nat) (h : n < 2 ^ 63) : (to_signed n).toNat = n := by
  unfold to_signed
  have h1 : n % 2 ^ 64 = n := Nat.mod_eq_of_lt (by omega)
  rw [h1, if_pos h]
  simp

theorem cell_particles_with_particles (pop : Population) (P : Nat → List Particle) (d : Nat)
    (hd : d < pop.cells.length) : cell_particles (with_particles pop P) d = P d := by
  unfold cell_particles
  rw [with_particles_get, List.getElem?_eq_getElem hd]
  simp

/-- One pass of `update` on a store in which the walk of every particle ends: the pass ends,
every cell then holds exactly the particles whose walk ends in it, and every object has
received the charge of the particles that left through its boundary. -/
theorem update_spec (pop : Population) (fuel : Nat) (objs : List Object) (dt : ℚ)
    (hcons : pop.num_cells = pop.cells.length) (hsmall : pop.num_cells < 2 ^ 63)
    (hterm : ∀ c y, y ∈ cell_particles pop c → ∃ r, relocate_fast pop y.x fuel (c : Int) = .ok r) :
    ∃ P' : Nat → List Particle,
      update fuel pop objs dt =
        .ok (with_particles pop P',
             objs.map fun o => { o with charge := o.charge + exit_total pop fuel o.bnd_id,
                                        current := exit_total pop fuel o.bnd_id / dt }) ∧
      ∀ d, d < pop.cells.length → (P' d).Perm (arrivals pop fuel d pop.cells.length) := by
  obtain ⟨P', hloop, hfin⟩ := update_loop_spec pop fuel hterm pop.cells.length 0
    (cell_particles pop) (objs.map fun o => { o with current := 0 }) (by omega)
    (by
      intro d _
      simp [arrivals])
  refine ⟨P', ?_, hfin⟩
  have hself : with_particles pop (cell_particles pop) = pop := with_particles_self pop
  rw [hself] at hloop
  unfold update
  rw [to_signed_small _ hsmall, hcons]
  simp only [Nat.cast_zero] at hloop
  rw [hloop]
  simp only [Res.ok.injEq, Prod.mk.injEq, true_and, List.map_map]
  apply List.map_congr_left
  intro o _
  simp [exit_total, List.range_eq_range']

/-! ## Boundary tags and object ids -/

/-- For a tag that fits a `signed long int`, the test `(std::size_t)(-r) == bnd_id` of `update`
says that `r` is the negative tag `-bnd_id`. -/
theorem hits_ok_iff (b : Nat) (r : Int) (hr : r < 0 → -(2 : Int) ^ 63 ≤ r) :
    hits b (.ok r) = true ↔ r = -(b : Int) ∧ -(b : Int) < 0 := by
  unfold hits to_size_t
  simp only [Bool.and_eq_true, decide_eq_true_eq]
  constructor
  · rintro ⟨hneg, hb⟩
    have h1 := hr hneg
    have h2 : (-r) % 2 ^ 64 = -r := Int.emod_eq_of_lt (by omega) (by omega)
    rw [h2] at hb
    omega
  · rintro ⟨hrb, hb⟩
    have hneg : r < 0 := by omega
    have h1 := hr hneg
    have h2 : (-r) % 2 ^ 64 = -r := Int.emod_eq_of_lt (by omega) (by omega)
    rw [h2]
    omega

theorem hits_walk_iff (pop : Population) (hfit : adjacents_fit pop) (fuel : Nat) (b : Nat)
    (p : List ℚ) (c : Int) :
    hits b (relocate_fast pop p fuel c) = true ↔
      relocate_fast pop p fuel c = .ok (-(b : Int)) ∧ -(b : Int) < 0 := by
  cases hr : relocate_fast pop p fuel c with
  | error e => simp [hits]
  | ok r =>
    rw [hits_ok_iff b r]
    · simp
    · intro hneg
      obtain ⟨cell, hc, ha⟩ := relocate_fast_neg_mem pop p r hneg fuel c hr
      exact (hfit cell hc r ha).1

theorem exit_total_eq_tag_charge (pop : Population) (hfit : adjacents_fit pop) (fuel : Nat)
    (b : Nat) : exit_total pop fuel b = tag_charge pop fuel b := by
  unfold exit_total tag_charge exit_charge
  congr 1
  apply List.map_congr_left
  intro c _
  congr 2
  apply List.filter_congr
  intro y _
  rw [Bool.eq_iff_iff, hits_walk_iff pop hfit]
  simp

/-! ## Charge balance -/

theorem sum_filter_cons (pred : Particle → Bool) (y : Particle) (ys : List Particle) :
    (((y :: ys).filter pred).map fun z => z.q).sum =
      (if pred y = true then y.q else 0) + ((ys.filter pred).map fun z => z.q).sum := by
  by_cases h : pred y = true
  · simp [List.filter_cons, h]
  · simp [List.filter_cons, h]

theorem sum_map_sum_comm {α β : Type} (l1 : List α) (l2 : List β) (f : α → β → ℚ) :
    (l1.map fun a => (l2.map fun b => f a b).sum).sum =
      (l2.map fun b => (l1.map fun a => f a b).sum).sum := by
  induction l1 with
  | nil => simp
  | cons a l1 ih =>
    simp only [List.map_cons, List.sum_cons, ih]
    rw [← List.sum_map_add]

theorem sum_map_flatMap {α : Type} (l : List α) (f : α → List Particle) :
    (((l.flatMap f).map fun y => y.q).sum) = (l.map fun a => ((f a).map fun y => y.q).sum).sum := by
  induction l with
  | nil => simp
  | cons a l ih => simp [List.flatMap_cons, List.sum_append, ih]

/-- Among the cells `0, ..., n - 1` exactly the cell `r` is the one a walk with outcome `r`
ends in. -/
theorem sum_range_indicator (r : Int) (q : ℚ) :
    ∀ n : Nat, ((List.range n).map fun d : Nat => if r = (d : Int) then q else 0).sum =
      if 0 ≤ r ∧ r < (n : Int) then q else 0 := by
  intro n
  induction n with
  | zero =>
    have : ¬ (0 ≤ r ∧ r < ((0 : Nat) : Int)) := by omega
    rw [if_neg this]
    rfl
  | succ n ih =>
    rw [List.range_succ, List.map_append, List.sum_append, ih]
    simp only [List.map_cons, List.map_nil, List.sum_cons, List.sum_nil, add_zero]
    by_cases h1 : r = (n : Int)
    · have h2 : ¬ (0 ≤ r ∧ r < (n : Int)) := by omega
      have h3 : 0 ≤ r ∧ r < ((n + 1 : Nat) : Int) := by omega
      rw [if_neg h2, if_pos h1, if_pos h3, zero_add]
    · by_cases h2 : 0 ≤ r ∧ r < (n : Int)
      · have h3 : 0 ≤ r ∧ r < ((n + 1 : Nat) : Int) := by omega
        rw [if_pos h2, if_neg h1, if_pos h3, add_zero]
      · have h3 : ¬ (0 ≤ r ∧ r < ((n + 1 : Nat) : Int)) := by omega
        rw [if_neg h2, if_neg h1, if_neg h3, add_zero]

/-- With pairwise distinct boundary ids at most one object matches a tag. -/
theorem sum_objects_indicator (t : Nat) (q : ℚ) :
    ∀ objs : List Object, (objs.map fun o => o.bnd_id).Nodup →
      (objs.map fun o => if t = o.bnd_id then q else 0).sum =
        if ∃ o, o ∈ objs ∧ t = o.bnd_id then q else 0 := by
  intro objs
  induction objs with
  | nil => intro _; simp
  | cons o os ih =>
    intro hnd
    rw [List.map_cons, List.nodup_cons] at hnd
    obtain ⟨hnot, hnd'⟩ := hnd
    rw [List.map_cons, List.sum_cons, ih hnd']
    by_cases ho : t = o.bnd_id
    · have hnone : ¬ ∃ o', o' ∈ os ∧ t = o'.bnd_id := by
        rintro ⟨o', ho', ht⟩
        apply hnot
        rw [← ho, ht]
        exact List.mem_map.mpr ⟨o', ho', rfl⟩
      have hex : ∃ o', o' ∈ o :: os ∧ t = o'.bnd_id := ⟨o, List.mem_cons_self _ _, ho⟩
      rw [if_pos ho, if_neg hnone, if_pos hex, add_zero]
    · by_cases hex : ∃ o', o' ∈ os ∧ t = o'.bnd_id
      · have hex' : ∃ o', o' ∈ o :: os ∧ t = o'.bnd_id := by
          obtain ⟨o', ho', ht⟩ := hex
          exact ⟨o', List.mem_cons_of_mem _ ho', ht⟩
        rw [if_neg ho, if_pos hex, if_pos hex', zero_add]
      · have hex' : ¬ ∃ o', o' ∈ o :: os ∧ t = o'.bnd_id := by
          rintro ⟨o', ho', ht⟩
          rcases List.mem_cons.mp ho' with h | h
          · exact ho (h ▸ ht)
          · exact hex ⟨o', h, ht⟩
        rw [if_neg ho, if_neg hex, if_neg hex', zero_add]

/-- The charge of one particle is accounted exactly once: in the cell its walk ends in, on the
object whose boundary it leaves through, or as lost through an unmatched tag. -/
theorem particle_balance (pop : Population) (hfit : adjacents_fit pop) (fuel : Nat)
    (objs : List Object) (hnd : (objs.map fun o => o.bnd_id).Nodup) (c : Int) (y : Particle)
    (r : Int) (hr : relocate_fast pop y.x fuel c = .ok r) :
    y.q =
      ((List.range pop.cells.length).map fun d : Nat =>
          if relocate_fast pop y.x fuel c = .ok (d : Int) then y.q else 0).sum
      + (objs.map fun o => if hits o.bnd_id (relocate_fast pop y.x fuel c) = true then y.q else 0).sum
      + (if exits_unmatched objs (relocate_fast pop y.x fuel c) = true then y.q else 0) := by
  rw [hr]
  have h1 : (fun d : Nat => if (Res.ok r : Res Int) = .ok (d : Int) then y.q else 0)
      = (fun d : Nat => if r = (d : Int) then y.q else 0) := by
    funext d; simp
  rw [h1, sum_range_indicator]
  by_cases hneg : r < 0
  · -- the particle leaves the domain
    have hlow : -(2 : Int) ^ 63 ≤ r := by
      obtain ⟨cell, hc, ha⟩ := relocate_fast_neg_mem pop y.x r hneg fuel c hr
      exact (hfit cell hc r ha).1
    have hmatch : ∀ b : Nat, to_size_t (-r) = b ↔ -r = (b : Int) := by
      intro b
      have := hits_ok_iff b r (fun _ => hlow)
      simp only [hits, Bool.and_eq_true, decide_eq_true_eq] at this
      constructor
      · intro h; have := (this.mp ⟨hneg, h⟩).1; omega
      · intro h; exact (this.mpr ⟨by omega, by omega⟩).2
    have h2 : (fun o : Object => if hits o.bnd_id (.ok r) = true then y.q else 0)
        = (fun o : Object => if to_size_t (-r) = o.bnd_id then y.q else 0) := by
      funext o; simp [hits, hneg]
    rw [h2, sum_objects_indicator _ _ objs hnd, if_neg (by omega), zero_add]
    by_cases hex : ∃ o, o ∈ objs ∧ to_size_t (-r) = o.bnd_id
    · have hun : ¬ (exits_unmatched objs (.ok r) = true) := by
        obtain ⟨o, ho, ht⟩ := hex
        simp only [exits_unmatched, Bool.and_eq_true, decide_eq_true_eq, List.all_eq_true, not_and]
        intro _ hall
        exact hall o ho ((hmatch o.bnd_id).mp ht)
      rw [if_pos hex, if_neg hun, add_zero]
    · have hun : exits_unmatched objs (.ok r) = true := by
        simp only [exits_unmatched, Bool.and_eq_true, decide_eq_true_eq, List.all_eq_true]
        refine ⟨hneg, ?_⟩
        intro o ho hh
        exact hex ⟨o, ho, (hmatch o.bnd_id).mpr hh⟩
      rw [if_neg hex, if_pos hun, zero_add]
  · -- the walk ends in a cell of the table
    have hr0 : 0 ≤ r := by omega
    obtain ⟨cell, hcell⟩ := relocate_fast_in_range pop y.x r hr0 fuel c hr
    have hlt : r.toNat < pop.cells.length := by
      rcases Nat.lt_or_ge r.toNat pop.cells.length with h | h
      · exact h
      · rw [List.getElem?_eq_none h] at hcell; cases hcell
    have h2 : (fun o : Object => if hits o.bnd_id (.ok r) = true then y.q else 0)
        = (fun _ : Object => (0 : ℚ)) := by
      funext o; simp [hits, hneg]
    have hun : ¬ (exits_unmatched objs (.ok r) = true) := by
      simp [exits_unmatched, hneg]
    rw [h2, if_pos ⟨hr0, by omega⟩, if_neg hun]
    simp

/-- The charge held by a list of particles of one cell splits into the charge that goes to each
cell, the charge deposited on each object and the charge lost through unmatched tags. -/
theorem cell_balance (pop : Population) (hfit : adjacents_fit pop) (fuel : Nat)
    (objs : List Object) (hnd : (objs.map fun o => o.bnd_id).Nodup) (c : Int) :
    ∀ L : List Particle, (∀ y, y ∈ L → ∃ r, relocate_fast pop y.x fuel c = .ok r) →
      (L.map fun y => y.q).sum =
        ((List.range pop.cells.length).map fun d : Nat =>
            ((L.filter fun y => decide (relocate_fast pop y.x fuel c = .ok (d : Int))).map
              fun y => y.q).sum).sum
        + (objs.map fun o => exit_charge pop fuel o.bnd_id c L).sum
        + ((L.filter fun y => exits_unmatched objs (relocate_fast pop y.x fuel c)).map
            fun y => y.q).sum := by
  intro L
  induction L with
  | nil => intro _; simp [exit_charge]
  | cons y ys ih =>
    intro h
    obtain ⟨r, hr⟩ := h y (List.mem_cons_self y ys)
    have ih' := ih (fun z hz => h z (List.mem_cons_of_mem y hz))
    have hb := particle_balance pop hfit fuel objs hnd c y r hr
    simp only [sum_filter_cons, exit_charge_cons, List.sum_map_add, List.map_cons, List.sum_cons,
      decide_eq_true_eq]
    rw [ih']
    nth_rewrite 1 [hb]
    ring

/-! ## The update pass: claims

In the statements below `num_cells = cells.size()`, as the constructor of `Population`
establishes, and `num_cells < 2^63`, so that the cast of the loop bound to `signed long int`
is exact. -/

/-- A run of `update` on the store `store2` with time step 2: the particle at (1,1) moves from
cell 0 to cell 1 and stays there when cell 1 is scanned, the particles at (-1,-1) and (6,-1)
leave through tag -1 and are deposited on the object of boundary 1, and the particle at (1,5)
leaves through tag -2, which belongs to no object. -/
theorem update_store2_run :
    update 3 store2 objects2 2 =
      .ok (with_particles pop2 fun d =>
             if d = 0 then [{ x := [-1, 1], v := [0, 0], q := 2, m := 1 }]
             else [{ x := [1, 1], v := [0, 0], q := 5, m := 1 },
                   { x := [1, 1], v := [0, 0], q := 1, m := 1 }],
           [{ bnd_id := 1, charge := 17, current := 7 / 2, potential := 0 },
            { bnd_id := 3, charge := 20, current := 0, potential := 0 }]) ∧
    stored_charge store2 = 21 ∧ lost_charge store2 3 objects2 = 6 := by
  refine ⟨by decide!, by decide!, by decide!⟩

theorem walks_end_iff (pop : Population) (fuel : Nat) :
    walks_end pop fuel = true ↔
      ∀ c y, y ∈ cell_particles pop c → ∃ r, relocate_fast pop y.x fuel (c : Int) = .ok r := by
  unfold walks_end
  simp only [List.all_eq_true, List.mem_range]
  constructor
  · intro h c y hy
    rcases Nat.lt_or_ge c pop.cells.length with hc | hc
    · have := h c hc y hy
      cases hr : relocate_fast pop y.x fuel (c : Int) with
      | ok r => exact ⟨r, rfl⟩
      | error e => rw [hr] at this; cases this
    · rw [cell_particles_eq_nil pop c hc] at hy; cases hy
  · intro h c _ y hy
    obtain ⟨r, hr⟩ := h c y hy
    rw [hr]; rfl

/-- C6: on a store in which the walk of every particle ends, `update` ends and files every
particle under its terminal cell exactly once: afterwards the multiset of particles held by
each cell `d` is the multiset of pre-update particles, taken from every cell `c`, whose walk
from `c` ends in `d`.  Every particle still stored is such a particle (so a particle whose walk
ends in a negative tag is in no cell), and nothing is counted twice even when a particle is
pushed into a cell that the pass scans later. -/
theorem update_files_each_particle_once (pop : Population) (fuel : Nat) (objs : List Object)
    (dt : ℚ) (hcons : pop.num_cells = pop.cells.length) (hsmall : pop.num_cells < 2 ^ 63)
    (hterm : walks_end pop fuel = true) :
    ∃ pop' objs', update fuel pop objs dt = .ok (pop', objs') ∧
      pop'.cells.length = pop.cells.length ∧
      (∀ d, d < pop.cells.length →
        (↑(cell_particles pop' d) : Multiset Particle) = ↑(arrivals pop fuel d pop.cells.length)) ∧
      (∀ d y, y ∈ cell_particles pop' d →
        ∃ c, y ∈ cell_particles pop c ∧ relocate_fast pop y.x fuel (c : Int) = .ok (d : Int)) := by
  obtain ⟨P', hupd, hfin⟩ := update_spec pop fuel objs dt hcons hsmall
    ((walks_end_iff pop fuel).mp hterm)
  refine ⟨_, _, hupd, with_particles_length pop P', ?_, ?_⟩
  · intro d hd
    rw [cell_particles_with_particles pop P' d hd]
    exact Multiset.coe_eq_coe.mpr (hfin d hd)
  · intro d y hy
    rcases Nat.lt_or_ge d pop.cells.length with hd | hd
    · rw [cell_particles_with_particles pop P' d hd] at hy
      obtain ⟨c, _, hc1, hc2⟩ := (mem_arrivals pop fuel d _ y).mp ((hfin d hd).mem_iff.mp hy)
      exact ⟨c, hc1, hc2⟩
    · rw [cell_particles_eq_nil _ d (by rw [with_particles_length]; exact hd)] at hy
      cases hy

theorem update_files_each_particle_once_witness :
    ∃ pop' objs', update 3 store2 objects2 2 = .ok (pop', objs') ∧
      pop'.cells.length = store2.cells.length ∧
      (∀ d, d < store2.cells.length →
        (↑(cell_particles pop' d) : Multiset Particle) = ↑(arrivals store2 3 d store2.cells.length)) ∧
      (∀ d y, y ∈ cell_particles pop' d →
        ∃ c, y ∈ cell_particles store2 c ∧ relocate_fast store2 y.x 3 (c : Int) = .ok (d : Int)) :=
  update_files_each_particle_once store2 3 objects2 2 (by decide) (by decide) (by decide!)

/-- A pass of `update` that ends has ended the walk of every stored particle. -/
theorem update_ok_walks_end (pop : Population) (fuel : Nat) (objs : List Object) (dt : ℚ)
    (res : Population × List Object) (hcons : pop.num_cells = pop.cells.length)
    (hsmall : pop.num_cells < 2 ^ 63) (h : update fuel pop objs dt = .ok res) :
    walks_end pop fuel = true := by
  rw [walks_end_iff]
  intro c y hy
  unfold update at h
  rw [to_signed_small _ hsmall, hcons] at h
  cases hloop : update_loop fuel pop.cells.length 0 pop
      (objs.map fun object => { object with current := 0 }) with
  | error e => rw [hloop] at h; cases h
  | ok res1 =>
    have hself : with_particles pop (cell_particles pop) = pop := with_particles_self pop
    have hloop' : update_loop fuel pop.cells.length ((0 : Nat) : Int)
        (with_particles pop (cell_particles pop))
        (objs.map fun object => { object with current := 0 }) = .ok res1 := by
      rw [hself]; exact hloop
    have hinv : ∀ d, d < pop.cells.length →
        (cell_particles pop d).Perm
          ((if 0 ≤ d then cell_particles pop d else []) ++ arrivals pop fuel d 0) := by
      intro d _
      simp [arrivals]
    exact update_loop_ok_inv pop fuel pop.cells.length 0 (cell_particles pop) _ res1 (by omega)
      hinv hloop' c y (Nat.zero_le c) hy

/-- C7: `update` restores the store invariant.  Whatever cell each particle was filed under
before, after `update` has returned every particle stored in a cell `c` is located in `c` by
the relocation walk: `relocate_fast(x, c)` returns `c` in a single call, that is, the facet loop
finds no facet of `c` with a positive plane value at `x`.  The pass does return whenever the
walk of every stored particle ends. -/
theorem update_restores_store_invariant (pop : Population) (fuel : Nat) (objs : List Object)
    (dt : ℚ) (hcons : pop.num_cells = pop.cells.length) (hsmall : pop.num_cells < 2 ^ 63) :
    (walks_end pop fuel = true → ∃ res, update fuel pop objs dt = .ok res) ∧
    ∀ pop' objs', update fuel pop objs dt = .ok (pop', objs') →
      ∀ c y, y ∈ cell_particles pop' c →
        (∀ n : Nat, relocate_fast pop' y.x (n + 1) (c : Int) = .ok (c : Int)) ∧
        ∃ cell, pop'.cells[c]? = some cell ∧
          first_positive pop'.g_dim cell.facet_plane_coeffs y.x (pop'.g_dim + 1) 0 = .ok none := by
  constructor
  · intro hterm
    obtain ⟨P', hupd, _⟩ := update_spec pop fuel objs dt hcons hsmall
      ((walks_end_iff pop fuel).mp hterm)
    exact ⟨_, hupd⟩
  intro pop' objs' hret
  have hterm := update_ok_walks_end pop fuel objs dt _ hcons hsmall hret
  obtain ⟨P', hupd, hfin⟩ := update_spec pop fuel objs dt hcons hsmall
    ((walks_end_iff pop fuel).mp hterm)
  rw [hupd] at hret
  simp only [Res.ok.injEq, Prod.mk.injEq] at hret
  obtain ⟨hpop, -⟩ := hret
  subst hpop
  intro c y hy
  rcases Nat.lt_or_ge c pop.cells.length with hc | hc
  · rw [cell_particles_with_particles pop P' c hc] at hy
    obtain ⟨c0, _, _, hc2⟩ := (mem_arrivals pop fuel c _ y).mp ((hfin c hc).mem_iff.mp hy)
    have h1 : relocate_fast (with_particles pop P') y.x 1 (c : Int) = .ok (c : Int) := by
      rw [relocate_fast_with_particles]
      exact relocate_fast_fixed pop y.x (c : Int) (by omega) fuel (c0 : Int) hc2
    refine ⟨fun n => relocate_fast_mono_le _ _ _ _ 1 h1 (n + 1) (by omega), ?_⟩
    rw [relocate_fast] at h1
    cases hcell : cellAt (with_particles pop P') (c : Int) with
    | error e => rw [hcell] at h1; cases h1
    | ok cell =>
      rw [hcell] at h1
      simp only at h1
      refine ⟨cell, by simpa using ((cellAt_ok_iff _ _ _).mp hcell).2, ?_⟩
      cases hfp : first_positive (with_particles pop P').g_dim cell.facet_plane_coeffs y.x
          ((with_particles pop P').g_dim + 1) 0 with
      | error e => rw [hfp] at h1; cases h1
      | ok o =>
        cases o with
        | none => rfl
        | some i =>
          rw [hfp] at h1
          simp only at h1
          cases hadj : rd cell.facet_adjacents i with
          | error e => rw [hadj] at h1; cases h1
          | ok a =>
            rw [hadj] at h1
            simp only [relocate_fast] at h1
            by_cases ha : a ≥ 0
            · simp [ha] at h1
            · simp only [ha, if_false, Res.ok.injEq] at h1
              omega
  · rw [cell_particles_eq_nil _ c (by rw [with_particles_length]; exact hc)] at hy
    cases hy

theorem update_restores_store_invariant_witness :
    (walks_end store2 3 = true → ∃ res, update 3 store2 objects2 2 = .ok res) ∧
    ∀ pop' objs', update 3 store2 objects2 2 = .ok (pop', objs') →
      ∀ c y, y ∈ cell_particles pop' c →
        (∀ n : Nat, relocate_fast pop' y.x (n + 1) (c : Int) = .ok (c : Int)) ∧
        ∃ cell, pop'.cells[c]? = some cell ∧
          first_positive pop'.g_dim cell.facet_plane_coeffs y.x (pop'.g_dim + 1) 0 = .ok none :=
  update_restores_store_invariant store2 3 objects2 2 (by decide) (by decide)

/-- C8: for every object `o` of the vector and every `dt != 0`, in exact arithmetic, `update`
(on a store in which every walk ends) sets `o.charge` to its previous value plus `S` and
`o.current` to `S / dt`, where `S` is the sum of the charges of the pre-update particles whose
relocation result is the negative tag `-o.bnd_id`; the value `o.current` had before the call
has no influence on the outcome. -/
theorem update_object_charge_and_current (pop : Population) (fuel : Nat) (objs : List Object)
    (dt : ℚ) (hcons : pop.num_cells = pop.cells.length) (hsmall : pop.num_cells < 2 ^ 63)
    (hterm : walks_end pop fuel = true) (hfit : adjacents_fit pop) (hdt : dt ≠ 0) :
    (∃ pop' objs', update fuel pop objs dt = .ok (pop', objs') ∧
      objs'.length = objs.length ∧
      ∀ (i : Nat) (o : Object), objs[i]? = some o →
        ∃ o', objs'[i]? = some o' ∧ o'.bnd_id = o.bnd_id ∧
          o'.charge = o.charge + tag_charge pop fuel o.bnd_id ∧
          o'.current = tag_charge pop fuel o.bnd_id / dt ∧
          o'.current * dt = tag_charge pop fuel o.bnd_id) ∧
    (∀ f : Object → ℚ,
      update fuel pop (objs.map fun o => { o with current := f o }) dt =
        update fuel pop objs dt) := by
  obtain ⟨P', hupd, _⟩ := update_spec pop fuel objs dt hcons hsmall
    ((walks_end_iff pop fuel).mp hterm)
  constructor
  · refine ⟨_, _, hupd, by simp, ?_⟩
    intro i o hio
    refine ⟨{ o with charge := o.charge + exit_total pop fuel o.bnd_id,
                     current := exit_total pop fuel o.bnd_id / dt }, ?_, rfl, ?_, ?_, ?_⟩
    · rw [List.getElem?_map, hio]; rfl
    · simp only [exit_total_eq_tag_charge pop hfit]
    · simp only [exit_total_eq_tag_charge pop hfit]
    · simp only [exit_total_eq_tag_charge pop hfit]
      exact div_mul_cancel₀ _ hdt
  · intro f
    unfold update
    simp only [List.map_map]
    rfl

theorem update_object_charge_and_current_witness :
    (∃ pop' objs', update 3 store2 objects2 2 = .ok (pop', objs') ∧
      objs'.length = objects2.length ∧
      ∀ (i : Nat) (o : Object), objects2[i]? = some o →
        ∃ o', objs'[i]? = some o' ∧ o'.bnd_id = o.bnd_id ∧
          o'.charge = o.charge + tag_charge store2 3 o.bnd_id ∧
          o'.current = tag_charge store2 3 o.bnd_id / 2 ∧
          o'.current * 2 = tag_charge store2 3 o.bnd_id) ∧
    (∀ f : Object → ℚ,
      update 3 store2 (objects2.map fun o => { o with current := f o }) 2 =
        update 3 store2 objects2 2) :=
  update_object_charge_and_current store2 3 objects2 2 (by decide) (by decide) (by decide!)
    (by
      intro cell hc a ha
      simp [store2, with_particles, pop2] at hc
      rcases hc with rfl | rfl <;> simp at ha <;> rcases ha with rfl | rfl | rfl <;> decide)
    (by norm_num)

theorem exit_total_eq_zero (pop : Population) (fuel : Nat) (b : Nat)
    (h : ∀ c y, y ∈ cell_particles pop c → hits b (relocate_fast pop y.x fuel (c : Int)) = false) :
    exit_total pop fuel b = 0 := by
  unfold exit_total
  apply List.sum_eq_zero
  intro x hx
  obtain ⟨c, _, rfl⟩ := List.mem_map.mp hx
  unfold exit_charge
  rw [List.filter_eq_nil_iff.mpr]
  · simp
  · intro y hy
    simp [h c y hy]

/-- C9: on a store in which every walk ends, a particle whose relocation result is a negative
tag is removed from the store (after `update` every cell holds exactly the particles whose walk
ends in that cell), and an object `o` such that no exiting particle's tag equals `o.bnd_id` is
not touched: its charge is unchanged and, for `dt != 0`, its current is 0. -/
theorem update_unmatched_exit_not_accounted (pop : Population) (fuel : Nat)
    (objs : List Object) (dt : ℚ) (hcons : pop.num_cells = pop.cells.length)
    (hsmall : pop.num_cells < 2 ^ 63) (hterm : walks_end pop fuel = true)
    (hfit : adjacents_fit pop) :
    ∃ pop' objs', update fuel pop objs dt = .ok (pop', objs') ∧
      (∀ d, d < pop.cells.length →
        (↑(cell_particles pop' d) : Multiset Particle) = ↑(arrivals pop fuel d pop.cells.length)) ∧
      (∀ d y, y ∈ cell_particles pop' d → ∃ c, y ∈ cell_particles pop c ∧
        relocate_fast pop y.x fuel (c : Int) = .ok (d : Int)) ∧
      ∀ (i : Nat) (o : Object), objs[i]? = some o →
        (∀ c y r, y ∈ cell_particles pop c → relocate_fast pop y.x fuel (c : Int) = .ok r →
          r < 0 → -r ≠ (o.bnd_id : Int)) →
        ∃ o', objs'[i]? = some o' ∧ o'.charge = o.charge ∧ (dt ≠ 0 → o'.current = 0) := by
  obtain ⟨P', hupd, hfin⟩ := update_spec pop fuel objs dt hcons hsmall
    ((walks_end_iff pop fuel).mp hterm)
  refine ⟨_, _, hupd, ?_, ?_, ?_⟩
  · intro d hd
    rw [cell_particles_with_particles pop P' d hd]
    exact Multiset.coe_eq_coe.mpr (hfin d hd)
  · intro d y hy
    rcases Nat.lt_or_ge d pop.cells.length with hd | hd
    · rw [cell_particles_with_particles pop P' d hd] at hy
      obtain ⟨c, _, hc1, hc2⟩ := (mem_arrivals pop fuel d _ y).mp ((hfin d hd).mem_iff.mp hy)
      exact ⟨c, hc1, hc2⟩
    · rw [cell_particles_eq_nil _ d (by rw [with_particles_length]; exact hd)] at hy
      cases hy
  · intro i o hio hno
    have hzero : exit_total pop fuel o.bnd_id = 0 := by
      apply exit_total_eq_zero
      intro c y hy
      rw [Bool.eq_false_iff]
      intro hh
      obtain ⟨h1, h2⟩ := (hits_walk_iff pop hfit fuel o.bnd_id y.x (c : Int)).mp hh
      exact hno c y _ hy h1 h2 (by simp)
    refine ⟨{ o with charge := o.charge + exit_total pop fuel o.bnd_id,
                     current := exit_total pop fuel o.bnd_id / dt }, ?_, ?_, ?_⟩
    · rw [List.getElem?_map, hio]; rfl
    · simp [hzero]
    · intro _; simp [hzero]

theorem store2_adjacents_fit : adjacents_fit store2 := by
  intro cell hc a ha
  simp [store2, with_particles, pop2] at hc
  rcases hc with rfl | rfl <;> simp at ha <;> rcases ha with rfl | rfl | rfl <;> decide

theorem update_unmatched_exit_not_accounted_witness :
    ∃ pop' objs', update 3 store2 objects2 2 = .ok (pop', objs') ∧
      (∀ d, d < store2.cells.length →
        (↑(cell_particles pop' d) : Multiset Particle) = ↑(arrivals store2 3 d store2.cells.length)) ∧
      (∀ d y, y ∈ cell_particles pop' d → ∃ c, y ∈ cell_particles store2 c ∧
        relocate_fast store2 y.x 3 (c : Int) = .ok (d : Int)) ∧
      ∀ (i : Nat) (o : Object), objects2[i]? = some o →
        (∀ c y r, y ∈ cell_particles store2 c → relocate_fast store2 y.x 3 (c : Int) = .ok r →
          r < 0 → -r ≠ (o.bnd_id : Int)) →
        ∃ o', objs'[i]? = some o' ∧ o'.charge = o.charge ∧ ((2 : ℚ) ≠ 0 → o'.current = 0) :=
  update_unmatched_exit_not_accounted store2 3 objects2 2 (by decide) (by decide) (by decide!)
    store2_adjacents_fit

/-- C5 (as stated) fails: in the one-cell store `store1` the only particle sits at the point 0,
where the plane value of facet 0 (exterior tag -1) is 0 and that of facet 1 is -1.  `relocate`
reports the exit -1 for it, but `update` relocates with `relocate_fast`, which crosses a facet
only when its plane value is strictly positive: the particle is still in cell 0 after the pass,
and the store is unchanged. -/
theorem update_keeps_particle_on_exterior_facet :
    facet_proj 1 [0, -1, -1, 1] [0] 0 = .ok 0 ∧ facet_proj 1 [0, -1, -1, 1] [0] 1 = .ok (-1) ∧
    rd [(-1 : Int), -2] 0 = .ok (-1) ∧
    relocate store1 [0] 1 0 = .ok (-1) ∧
    update 1 store1 objects1 1 = .ok (store1, objects1) ∧
    cell_particles store1 0 = [{ x := [0], v := [0], q := 1, m := 1 }] := by
  refine ⟨by decide!, by decide!, by decide!, by decide!, by decide!, by decide!⟩

/-- C5 (amended): on a store in which every walk ends, a particle that lies exactly on a facet
of its cell shared with the exterior tag -1 (plane value 0 on that facet, negative on the
others) is kept by `update`: it is still stored in its cell afterwards.  When no particle of
the store leaves its cell, the charge of every object is unchanged. -/
theorem update_keeps_particle_on_facet (pop : Population) (fuel : Nat) (objs : List Object)
    (dt : ℚ) (hcons : pop.num_cells = pop.cells.length) (hsmall : pop.num_cells < 2 ^ 63)
    (hterm : walks_end pop fuel = true)
    (c : Nat) (cell : Cell) (y : Particle) (val : Nat → ℚ) (i0 : Nat)
    (hcell : pop.cells[c]? = some cell) (hy : y ∈ cell.particles)
    (hval : ∀ j, j ≤ pop.g_dim → facet_proj pop.g_dim cell.facet_plane_coeffs y.x j = .ok (val j))
    (hi0 : i0 ≤ pop.g_dim) (hzero : val i0 = 0)
    (hothers : ∀ j, j ≤ pop.g_dim → j ≠ i0 → val j < 0)
    (hadj : rd cell.facet_adjacents i0 = .ok (-1)) :
    ∃ pop' objs', update fuel pop objs dt = .ok (pop', objs') ∧
      y ∈ cell_particles pop' c ∧
      ((∀ c' y', y' ∈ cell_particles pop c' →
          relocate_fast pop y'.x fuel (c' : Int) = .ok (c' : Int)) →
        objs'.map (fun o => o.charge) = objs.map (fun o => o.charge)) := by
  have _ := hadj
  have _ := hi0
  obtain ⟨P', hupd, hfin⟩ := update_spec pop fuel objs dt hcons hsmall
    ((walks_end_iff pop fuel).mp hterm)
  have hclt : c < pop.cells.length := by
    rcases Nat.lt_or_ge c pop.cells.length with h | h
    · exact h
    · rw [List.getElem?_eq_none h] at hcell; cases hcell
  have hycp : y ∈ cell_particles pop c := by
    unfold cell_particles; rw [hcell]; exact hy
  -- the fast walk of `y` stays in `c`
  have hnone : first_positive pop.g_dim cell.facet_plane_coeffs y.x (pop.g_dim + 1) 0 = .ok none := by
    apply first_positive_none _ _ _ val
    · intro j _ hj; exact hval j (by omega)
    · intro j _ hj
      by_cases hji : j = i0
      · rw [hji, hzero]
      · exact le_of_lt (hothers j (by omega) hji)
  have hfuel : ∃ n, fuel = n + 1 := by
    obtain ⟨r, hr⟩ := (walks_end_iff pop fuel).mp hterm c y hycp
    cases fuel with
    | zero => simp [relocate_fast] at hr
    | succ n => exact ⟨n, rfl⟩
  obtain ⟨n, hn⟩ := hfuel
  have hstay : relocate_fast pop y.x fuel (c : Int) = .ok (c : Int) := by
    rw [hn]
    simp only [relocate_fast, cellAt_nat pop c cell hcell, hnone]
  refine ⟨_, _, hupd, ?_, ?_⟩
  · rw [cell_particles_with_particles pop P' c hclt]
    apply (hfin c hclt).mem_iff.mpr
    exact (mem_arrivals pop fuel c _ y).mpr ⟨c, hclt, hycp, hstay⟩
  · intro hall
    rw [List.map_map]
    apply List.map_congr_left
    intro o _
    have hz : exit_total pop fuel o.bnd_id = 0 := by
      apply exit_total_eq_zero
      intro c' y' hy'
      rw [hall c' y' hy']
      have : ¬ ((c' : Int) < 0) := by omega
      simp [hits, this]
    simp [hz]

theorem update_keeps_particle_on_facet_witness :
    ∃ pop' objs', update 1 store1 objects1 1 = .ok (pop', objs') ∧
      ({ x := [0], v := [0], q := 1, m := 1 } : Particle) ∈ cell_particles pop' 0 ∧
      ((∀ c' y', y' ∈ cell_particles store1 c' →
          relocate_fast store1 y'.x 1 (c' : Int) = .ok (c' : Int)) →
        objs'.map (fun o => o.charge) = objects1.map (fun o => o.charge)) :=
  update_keeps_particle_on_facet store1 1 objects1 1 (by decide) (by decide) (by decide!)
    0 { id := 0, neighbors := [], facet_adjacents := [-1, -2],
        facet_plane_coeffs := [0, -1, -1, 1],
        particles := [{ x := [0], v := [0], q := 1, m := 1 }] }
    { x := [0], v := [0], q := 1, m := 1 } (fun j => if j = 0 then 0 else -1) 0
    (by decide!) (by simp)
    (by
      intro j hj
      have hj1 : j ≤ 1 := hj
      interval_cases j <;> norm_num [store1, with_particles, pop1, facet_proj, dot_loop, rd])
    (by decide) (by norm_num)
    (by
      intro j hj hne
      have hj1 : j ≤ 1 := hj
      interval_cases j
      · exact absurd rfl hne
      · norm_num)
    (by decide!)

theorem stored_charge_range (pop : Population) :
    stored_charge pop =
      ((List.range pop.cells.length).map fun c : Nat =>
        ((cell_particles pop c).map fun y => y.q).sum).sum := by
  unfold stored_charge
  congr 1
  apply List.ext_getElem?
  intro i
  rw [List.getElem?_map, List.getElem?_map]
  rcases Nat.lt_or_ge i pop.cells.length with h | h
  · rw [List.getElem?_eq_getElem h, List.getElem?_eq_getElem (by simpa using h)]
    simp [cell_particles, List.getElem?_eq_getElem h]
  · rw [List.getElem?_eq_none h, List.getElem?_eq_none (by simpa using h)]
    rfl

/-- C10: charge conservation of one `update` pass, in exact arithmetic, for objects with
pairwise distinct `bnd_id` and `dt != 0` (on a store in which every walk ends): the sum of the
particle charges in the store before the pass equals the sum of the particle charges in the
store after it, plus the charge deposited on the objects (the sum over the objects of
`current * dt`, which is the total increase of object charge), plus the sum of the charges of
the particles that left through a tag matching no object. -/
theorem update_conserves_charge (pop : Population) (fuel : Nat) (objs : List Object) (dt : ℚ)
    (hcons : pop.num_cells = pop.cells.length) (hsmall : pop.num_cells < 2 ^ 63)
    (hterm : walks_end pop fuel = true) (hfit : adjacents_fit pop)
    (hnd : (objs.map fun o => o.bnd_id).Nodup) (hdt : dt ≠ 0) :
    ∃ pop' objs', update fuel pop objs dt = .ok (pop', objs') ∧
      stored_charge pop =
        stored_charge pop' + (objs'.map fun o => o.current * dt).sum + lost_charge pop fuel objs ∧
      (objs'.map fun o => o.current * dt).sum =
        (objs'.map fun o => o.charge).sum - (objs.map fun o => o.charge).sum := by
  have hterm' := (walks_end_iff pop fuel).mp hterm
  obtain ⟨P', hupd, hfin⟩ := update_spec pop fuel objs dt hcons hsmall hterm'
  refine ⟨_, _, hupd, ?_, ?_⟩
  · -- the store after the pass
    have hafter : stored_charge (with_particles pop P') =
        ((List.range pop.cells.length).map fun c : Nat =>
          ((List.range pop.cells.length).map fun d : Nat =>
            (((cell_particles pop c).filter fun y =>
                decide (relocate_fast pop y.x fuel (c : Int) = .ok (d : Int))).map
              fun y => y.q).sum).sum).sum := by
      rw [stored_charge_range, with_particles_length, sum_map_sum_comm]
      apply congrArg
      apply List.map_congr_left
      intro d hd
      have hd' : d < pop.cells.length := List.mem_range.mp hd
      rw [cell_particles_with_particles pop P' d hd', ((hfin d hd').map _).sum_eq]
      unfold arrivals
      rw [sum_map_flatMap]
    -- the deposits
    have hdep : ((objs.map fun o =>
          ({ o with charge := o.charge + exit_total pop fuel o.bnd_id,
                    current := exit_total pop fuel o.bnd_id / dt } : Object)).map
          fun o => o.current * dt).sum =
        ((List.range pop.cells.length).map fun c : Nat =>
          (objs.map fun o => exit_charge pop fuel o.bnd_id (c : Int) (cell_particles pop c)).sum).sum := by
      rw [List.map_map, sum_map_sum_comm]
      apply congrArg
      apply List.map_congr_left
      intro o _
      simp only [Function.comp, exit_total]
      exact div_mul_cancel₀ _ hdt
    rw [hafter, hdep, stored_charge_range, lost_charge, ← List.sum_map_add, ← List.sum_map_add]
    apply congrArg
    apply List.map_congr_left
    intro c _
    exact cell_balance pop hfit fuel objs hnd (c : Int) (cell_particles pop c) (hterm' c)
  · rw [List.map_map, List.map_map]
    have h1 : ((fun o : Object => o.current * dt) ∘ fun o : Object =>
          ({ o with charge := o.charge + exit_total pop fuel o.bnd_id,
                    current := exit_total pop fuel o.bnd_id / dt } : Object))
        = fun o : Object => exit_total pop fuel o.bnd_id := by
      funext o
      simp only [Function.comp]
      exact div_mul_cancel₀ _ hdt
    have h2 : ((fun o : Object => o.charge) ∘ fun o : Object =>
          ({ o with charge := o.charge + exit_total pop fuel o.bnd_id,
                    current := exit_total pop fuel o.bnd_id / dt } : Object))
        = fun o : Object => o.charge + exit_total pop fuel o.bnd_id := by
      funext o; rfl
    rw [h1, h2, List.sum_map_add]
    ring

theorem update_conserves_charge_witness :
    ∃ pop' objs', update 3 store2 objects2 2 = .ok (pop', objs') ∧
      stored_charge store2 =
        stored_charge pop' + (objs'.map fun o => o.current * 2).sum + lost_charge store2 3 objects2 ∧
      (objs'.map fun o => o.current * 2).sum =
        (objs'.map fun o => o.charge).sum - (objects2.map fun o => o.charge).sum :=
  update_conserves_charge store2 3 objects2 2 (by decide) (by decide) (by decide!)
    store2_adjacents_fit (by decide) (by norm_num)

/-! ## Compaction: claims -/

theorem split_at_slot (ps : List Particle) (i : Nat) (hi : i < ps.length) :
    ps = ps.take i ++ ps[i] :: ps.drop (i + 1) ∧ (ps.take i).length = i := by
  constructor
  · rw [← List.drop_eq_getElem_cons hi, List.take_append_drop]
  · rw [List.length_take]; omega

/-- C11: swap-remove of one slot.  For a cell holding `n` particles and a slot `i < n`,
overwriting slot `i` with the last particle and dropping the last slot succeeds and leaves
exactly `n - 1` particles, whose multiset is the original multiset minus the particle that was
at slot `i`; for three particles and `i = 1` the survivors are the original first and third. -/
theorem swap_remove_one_slot (ps : List Particle) (i : Nat) (hi : i < ps.length) :
    (∃ r, swap_remove ps i = .ok r ∧ r.length = ps.length - 1 ∧
      (↑r : Multiset Particle) = (↑ps : Multiset Particle).erase ps[i]) ∧
    (∀ a b c : Particle, swap_remove [a, b, c] 1 = .ok [a, c]) := by
  constructor
  · obtain ⟨hsplit, hlen⟩ := split_at_slot ps i hi
    obtain ⟨post', hsw, hperm⟩ := swap_remove_behind_front (ps.take i) ps[i] (ps.drop (i + 1))
    rw [hlen, ← hsplit] at hsw
    have hp : (ps[i] :: (ps.take i ++ post')).Perm ps := by
      have h1 : (ps[i] :: (ps.take i ++ post')).Perm (ps.take i ++ ps[i] :: ps.drop (i + 1)) :=
        (List.perm_middle.symm).trans (List.Perm.append_left _ (List.Perm.cons _ hperm))
      rw [← hsplit] at h1
      exact h1
    refine ⟨_, hsw, ?_, ?_⟩
    · have := hp.length_eq
      simp only [List.length_cons] at this
      omega
    · rw [← Multiset.coe_eq_coe.mpr hp, ← Multiset.cons_coe, Multiset.erase_cons_head]
  · intro a b c
    simp [swap_remove]

theorem swap_remove_one_slot_witness :
    (∃ r, swap_remove (cell_particles store2 0) 1 = .ok r ∧
      r.length = (cell_particles store2 0).length - 1 ∧
      (↑r : Multiset Particle) =
        (↑(cell_particles store2 0) : Multiset Particle).erase
          ((cell_particles store2 0).get ⟨1, by decide⟩)) ∧
    (∀ a b c : Particle, swap_remove [a, b, c] 1 = .ok [a, c]) :=
  swap_remove_one_slot (cell_particles store2 0) 1 (by decide)

theorem unmarked_split (pre1 pre2 : List Particle) (x : Particle) (td : List Nat)
    (hlt : ∀ j, j ∈ td → j < pre1.length) :
    unmarked (pre1 ++ x :: pre2) (td ++ [pre1.length]) = unmarked pre1 td ++ pre2 := by
  unfold unmarked
  have h0 : decide ((pre1.length, x).1 ∉ td ++ [pre1.length]) = false := by simp
  have h1 : (pre1.enum.filter fun jy => decide (jy.1 ∉ td ++ [pre1.length]))
      = pre1.enum.filter fun jy => decide (jy.1 ∉ td) := by
    apply List.filter_congr
    intro jy hjy
    have hlt' : jy.1 < 0 + pre1.length := List.fst_lt_add_of_mem_enumFrom hjy
    have hne : jy.1 ≠ pre1.length := by omega
    simp [hne]
  have h2 : ((pre2.enumFrom (pre1.length + 1)).filter
        fun jy => decide (jy.1 ∉ td ++ [pre1.length]))
      = pre2.enumFrom (pre1.length + 1) := by
    rw [List.filter_eq_self]
    intro jy hjy
    have hle : pre1.length + 1 ≤ jy.1 := List.le_fst_of_mem_enumFrom hjy
    have hne : jy.1 ≠ pre1.length := by omega
    have hnot : jy.1 ∉ td := fun hmem => by
      have := hlt jy.1 hmem
      omega
    simp [hne, hnot]
  rw [List.enum_append, List.filter_append, List.map_append, h1, List.enumFrom_cons,
    List.filter_cons, h0]
  simp only [Bool.false_eq_true, if_false]
  rw [h2, List.enumFrom_map_snd]

/-- The compaction loop on a strictly increasing `to_delete` whose slots all lie in the front
part `pre` of the vector: the loop ends, every step drops one particle, and the particles left
are the unmarked ones of `pre` and everything behind `pre`. -/
theorem erase_marked_sorted (td : List Nat) :
    td.Pairwise (· < ·) → ∀ pre post : List Particle, (∀ j, j ∈ td → j < pre.length) →
      ∃ r, erase_marked td td.length (pre ++ post) = .ok r ∧
        r.length + td.length = (pre ++ post).length ∧
        r.Perm (unmarked pre td ++ post) := by
  induction td using List.reverseRecOn with
  | nil =>
    intro _ pre post _
    refine ⟨pre ++ post, rfl, by simp, ?_⟩
    have : unmarked pre [] = pre := by
      unfold unmarked
      simp [List.enum_eq_enumFrom, List.enumFrom_map_snd]
    rw [this]
  | append_singleton td k ih =>
    intro hsorted pre post hlt
    rw [List.pairwise_append] at hsorted
    obtain ⟨hs1, -, hs3⟩ := hsorted
    have hk : k < pre.length := hlt k (by simp)
    obtain ⟨hsplit, hlen⟩ := split_at_slot pre k hk
    have hbelow : ∀ j, j ∈ td → j < (pre.take k).length := by
      intro j hj
      rw [hlen]
      exact hs3 j hj k (by simp)
    obtain ⟨post', hsw, hperm⟩ :=
      swap_remove_behind_front (pre.take k) pre[k] (pre.drop (k + 1) ++ post)
    obtain ⟨r, hr, hrlen, hrp⟩ := ih hs1 (pre.take k) post' hbelow
    have happ : pre ++ post = pre.take k ++ pre[k] :: (pre.drop (k + 1) ++ post) := by
      have h0 : (pre.take k ++ pre[k] :: pre.drop (k + 1)) ++ post = pre ++ post := by
        rw [← hsplit]
      exact h0.symm.trans (by rw [List.append_assoc, List.cons_append])
    refine ⟨r, ?_, ?_, ?_⟩
    · have hlen2 : (td ++ [k]).length = td.length + 1 := by simp
      have hrd : rd (td ++ [k]) td.length = .ok k := by
        rw [rd_eq_ok]; simp
      rw [hlen] at hsw
      rw [hlen2, erase_marked, hrd, happ]
      simp only [hsw]
      rw [erase_marked_reads_front _ _ _ _ (le_refl _)]
      exact hr
    · have h1 := hperm.length_eq
      rw [happ]
      simp only [List.length_append, List.length_cons, List.length_nil] at hrlen h1 ⊢
      omega
    · have hun : unmarked pre (td ++ [k]) = unmarked (pre.take k) td ++ pre.drop (k + 1) := by
        have := unmarked_split (pre.take k) (pre.drop (k + 1)) pre[k] td hbelow
        rw [hlen, ← hsplit] at this
        exact this
      rw [hun, List.append_assoc]
      exact hrp.trans (List.Perm.append_left _ hperm)

theorem dropLast_set_last {α : Type} (M : List α) (x : α) :
    (M.set (M.length - 1) x).dropLast = M.dropLast := by
  rw [List.dropLast_eq_take, List.dropLast_eq_take, List.length_set]
  apply List.ext_getElem?
  intro i
  by_cases hi : i < M.length - 1
  · rw [List.getElem?_take_of_lt hi, List.getElem?_take_of_lt hi, List.getElem?_set_ne (by omega)]
  · rw [List.getElem?_eq_none (by simp; omega), List.getElem?_eq_none (by simp; omega)]

/-- Where the step of `update` succeeds, the step of the deprecated `update` gives the same
list, provided the slot compared with `num_particles - 1` is then the last slot. -/
theorem deprecated_remove_eq (n : Nat) (L L' : List Particle) (p : Nat)
    (h : swap_remove L p = .ok L')
    (hlast : p = (n + (2 ^ 64 - 1)) % 2 ^ 64 → p + 1 = L.length) :
    deprecated_remove n L p = .ok L' := by
  unfold swap_remove at h
  cases hback : L.getLast? with
  | none => rw [hback] at h; cases h
  | some back =>
    rw [hback] at h
    simp only at h
    by_cases hp : p < L.length
    · rw [if_pos hp] at h
      simp only [Res.ok.injEq] at h
      unfold deprecated_remove
      by_cases hw : p = (n + (2 ^ 64 - 1)) % 2 ^ 64
      · rw [if_pos hw]
        have hpl : p = L.length - 1 := by have := hlast hw; omega
        cases L with
        | nil => simp at hp
        | cons a l =>
          simp only
          rw [← h, hpl, dropLast_set_last]
      · rw [if_neg hw, (rd_eq_ok L p L[p]).2 (List.getElem?_eq_getElem hp), hback]
        simp only
        rw [← h]
        have hl : L.length = (L.set p back).length := by rw [List.length_set]
        rw [hl, dropLast_set_last]
    · rw [if_neg hp] at h
      cases h

theorem wrap_pred (n : Nat) (h1 : 1 ≤ n) (hn : n < 2 ^ 64) :
    (n + (2 ^ 64 - 1)) % 2 ^ 64 = n - 1 := by
  norm_num at hn ⊢
  omega

theorem deprecated_erase_marked_eq (n : Nat) (td : List Nat) (hsorted : td.Pairwise (· < ·))
    (hlt : ∀ j, j ∈ td → j < n) (hn : n < 2 ^ 64) :
    ∀ (it : Nat) (L r : List Particle), it ≤ td.length → (it = td.length → L.length = n) →
      erase_marked td it L = .ok r → deprecated_erase_marked n td it L = .ok r := by
  intro it
  induction it with
  | zero => intro L r _ _ h; exact h
  | succ it ih =>
    intro L r hit hfull h
    rw [erase_marked] at h
    rw [deprecated_erase_marked]
    have hitlt : it < td.length := by omega
    have hrd : rd td it = .ok td[it] := (rd_eq_ok _ _ _).2 (List.getElem?_eq_getElem hitlt)
    rw [hrd] at h ⊢
    simp only at h ⊢
    cases hsw : swap_remove L td[it] with
    | error e => rw [hsw] at h; cases h
    | ok L' =>
      rw [hsw] at h
      simp only at h
      have hpn : td[it] < n := hlt _ (List.getElem_mem hitlt)
      have hwrap : (n + (2 ^ 64 - 1)) % 2 ^ 64 = n - 1 := wrap_pred n (by omega) hn
      have hlast : td[it] = (n + (2 ^ 64 - 1)) % 2 ^ 64 → td[it] + 1 = L.length := by
        intro hw
        rw [hwrap] at hw
        by_cases hend : it + 1 = td.length
        · rw [hfull hend]
          omega
        · have hnext : it + 1 < td.length := by omega
          have h1 := List.pairwise_iff_getElem.1 hsorted it (it + 1) hitlt hnext (by omega)
          have h2 : td[it + 1] < n := hlt _ (List.getElem_mem hnext)
          omega
      rw [deprecated_remove_eq n L L' td[it] hsw hlast]
      exact ih L' r (by omega) (fun e => by omega) h

/-- C12: batch compaction.  For a cell with `n` particles and a strictly increasing list
`to_delete` of slot indices below `n`, applying the swap-remove step to the indices of
`to_delete` in reverse order (the compaction loop of `update`) succeeds and leaves exactly
`n - |to_delete|` particles, namely, as a multiset, the particles whose original slot is not in
`to_delete`; the compaction loop of the deprecated `update` leaves the same list. -/
theorem erase_marked_keeps_unmarked (ps : List Particle) (to_delete : List Nat)
    (hsorted : to_delete.Pairwise (· < ·)) (hlt : ∀ j, j ∈ to_delete → j < ps.length) :
    ∃ r, erase_marked to_delete to_delete.length ps = .ok r ∧
      r.length = ps.length - to_delete.length ∧
      (↑r : Multiset Particle) = ↑(unmarked ps to_delete) ∧
      (ps.length < 2 ^ 64 →
        deprecated_erase_marked ps.length to_delete to_delete.length ps = .ok r) := by
  obtain ⟨r, hr, hlen, hperm⟩ := erase_marked_sorted to_delete hsorted ps [] hlt
  simp only [List.append_nil] at hr hlen hperm
  exact ⟨r, hr, by omega, Multiset.coe_eq_coe.mpr hperm, fun hn =>
    deprecated_erase_marked_eq ps.length to_delete hsorted hlt hn to_delete.length ps r
      (Nat.le_refl _) (fun _ => rfl) hr⟩

theorem erase_marked_keeps_unmarked_witness :
    ∃ r, erase_marked [0, 2, 3] [0, 2, 3].length (cell_particles store2 0) = .ok r ∧
      r.length = (cell_particles store2 0).length - [0, 2, 3].length ∧
      (↑r : Multiset Particle) = ↑(unmarked (cell_particles store2 0) [0, 2, 3]) ∧
      ((cell_particles store2 0).length < 2 ^ 64 →
        deprecated_erase_marked (cell_particles store2 0).length [0, 2, 3] [0, 2, 3].length
          (cell_particles store2 0) = .ok r) :=
  erase_marked_keeps_unmarked (cell_particles store2 0) [0, 2, 3] (by decide)
    (by decide)


/-! ## The localizer tables: what the loops build -/

theorem push_other_cells_eq (cell_id : Nat) :
    ∀ (cs : List Nat) (acc : List Int),
      push_other_cells cell_id cs acc =
        acc ++ (cs.filter fun c => decide (cell_id ≠ c)).map (fun c : Nat => (c : Int)) := by
  intro cs
  induction cs with
  | nil => intro acc; simp [push_other_cells]
  | cons c cs ih =>
    intro acc
    by_cases h : cell_id = c
    · rw [push_other_cells, if_neg (by simp [h]), ih, List.filter_cons, if_neg (by simp [h])]
    · rw [push_other_cells, if_pos h, ih, List.filter_cons, if_pos (by simp [h])]
      simp

theorem dot_product_loop_eq (f : FacetView) :
    ∀ (n j : Nat) (acc : ℚ),
      dot_product_loop f n j acc =
        acc + ∑ t in Finset.range n, f.midpoint (j + t) * f.normal (j + t) := by
  intro n
  induction n with
  | zero => intro j acc; simp [dot_product_loop]
  | succ n ih =>
    intro j acc
    rw [dot_product_loop, ih, Finset.sum_range_succ']
    have h : ∀ t, j + 1 + t = j + (t + 1) := fun t => by omega
    simp only [h, Nat.add_zero]
    ring

theorem push_normal_eq (f : FacetView) :
    ∀ (n j : Nat) (acc : List ℚ),
      push_normal f n j acc = acc ++ (List.range' j n).map f.normal := by
  intro n
  induction n with
  | zero => intro j acc; simp [push_normal]
  | succ n ih =>
    intro j acc
    rw [push_normal, ih, List.range'_succ]
    simp

theorem localize_facets_eq (g_dim cell_id : Nat) :
    ∀ (fs : List FacetView) (a : List Int) (c : List ℚ),
      localize_facets g_dim cell_id fs (a, c) =
        (a ++ fs.flatMap (adjacent_entries cell_id), c ++ fs.flatMap (coeff_block g_dim)) := by
  intro fs
  induction fs with
  | nil => intro a c; simp [localize_facets]
  | cons f fs ih =>
    intro a c
    rw [localize_facets]
    have h1 : (if f.facet_cells.length = 1 then
          push_other_cells cell_id f.facet_cells a ++ [boundary_entry f.bnd_value]
        else push_other_cells cell_id f.facet_cells a) = a ++ adjacent_entries cell_id f := by
      rw [push_other_cells_eq]
      unfold adjacent_entries
      split <;> simp
    have h2 : push_normal f g_dim 0 (c ++ [-(dot_product_loop f g_dim 0 0)]) =
        c ++ coeff_block g_dim f := by
      rw [push_normal_eq, dot_product_loop_eq]
      unfold coeff_block
      simp [List.range_eq_range']
    rw [h1, h2, ih]
    simp

theorem localized_tables (mesh : Nat → List FacetView) (g_dim : Nat) (c : Cell) :
    (localized mesh g_dim c).facet_adjacents = (mesh c.id).flatMap (adjacent_entries c.id) ∧
    (localized mesh g_dim c).facet_plane_coeffs = (mesh c.id).flatMap (coeff_block g_dim) ∧
    (localized mesh g_dim c).id = c.id ∧ (localized mesh g_dim c).neighbors = c.neighbors ∧
    (localized mesh g_dim c).particles = c.particles := by
  simp [localized, localize_facets_eq]

theorem init_localizer_loop_spec (mesh : Nat → List FacetView) (g_dim : Nat) :
    ∀ (n k : Nat) (cells : List Cell), ids_are_positions cells → k + n ≤ cells.length →
      ∃ r, init_localizer_loop mesh g_dim n k cells = .ok r ∧ r.length = cells.length ∧
        ∀ j, r[j]? = if k ≤ j ∧ j < k + n then (cells[j]?).map (localized mesh g_dim)
          else cells[j]? := by
  intro n
  induction n with
  | zero =>
    intro k cells _ _
    refine ⟨cells, by simp [init_localizer_loop], rfl, fun j => ?_⟩
    rw [if_neg (by omega)]
  | succ n ih =>
    intro k cells hid hk
    have hlt : k < cells.length := by omega
    have hk1 : cells[k]? = some cells[k] := List.getElem?_eq_getElem hlt
    have hidk : cells[k].id = k := hid k _ hk1
    have hrd : rd cells k = .ok cells[k] := (rd_eq_ok _ _ _).2 hk1
    have hset : ∀ j, (cells.set k (localized mesh g_dim cells[k]))[j]? =
        if j = k then some (localized mesh g_dim cells[k]) else cells[j]? := by
      intro j
      rw [List.getElem?_set]
      by_cases hjk : k = j
      · subst hjk; simp [hlt]
      · rw [if_neg hjk, if_neg (fun h => hjk h.symm)]
    have hid2 : ids_are_positions (cells.set k (localized mesh g_dim cells[k])) := by
      intro j c hc
      rw [hset] at hc
      by_cases hjk : j = k
      · rw [if_pos hjk] at hc
        cases hc
        rw [(localized_tables mesh g_dim cells[k]).2.2.1, hidk, hjk]
      · rw [if_neg hjk] at hc
        exact hid j c hc
    obtain ⟨r, hr, hlen, hget⟩ := ih (k + 1) (cells.set k (localized mesh g_dim cells[k])) hid2
      (by rw [List.length_set]; omega)
    refine ⟨r, ?_, by rw [hlen, List.length_set], fun j => ?_⟩
    · rw [init_localizer_loop, hrd]
      simp only [hidk, hrd]
      convert hr using 3
      simp [localized, hidk]
    · rw [hget, hset]
      by_cases hjk : j = k
      · subst hjk
        rw [if_neg (by omega), if_pos rfl, if_pos (by omega), hk1]
        rfl
      · rw [if_neg hjk]
        by_cases hin : k + 1 ≤ j ∧ j < k + 1 + n
        · rw [if_pos hin, if_pos (by omega)]
        · rw [if_neg hin, if_neg (by omega)]

/-- With every cell record at the position of its id, `init_localizer` completes and gives every
cell the tables of its own facets. -/
theorem init_localizer_eq (pop : Population) (mesh : Nat → List FacetView)
    (hid : ids_are_positions pop.cells) :
    init_localizer pop mesh =
      .ok { pop with cells := pop.cells.map (localized mesh pop.g_dim) } := by
  obtain ⟨r, hr, hlen, hget⟩ :=
    init_localizer_loop_spec mesh pop.g_dim pop.cells.length 0 pop.cells hid (by omega)
  have hrm : r = pop.cells.map (localized mesh pop.g_dim) := by
    apply List.ext_getElem?
    intro j
    rw [hget, List.getElem?_map]
    by_cases hj : j < pop.cells.length
    · rw [if_pos (by omega)]
    · rw [if_neg (by omega), List.getElem?_eq_none (by omega)]
      rfl
  unfold init_localizer
  rw [hr, hrm]


theorem push_mid_normal_eq (f : FacetView) :
    ∀ (n j : Nat) (mids normals : List ℚ),
      push_mid_normal f n j (mids, normals) =
        (mids ++ (List.range' j n).map f.midpoint, normals ++ (List.range' j n).map f.normal) := by
  intro n
  induction n with
  | zero => intro j mids normals; simp [push_mid_normal]
  | succ n ih =>
    intro j mids normals
    rw [push_mid_normal, ih, List.range'_succ]
    simp

theorem deprecated_localize_facets_eq (gdim cell_id : Nat) :
    ∀ (fs : List FacetView) (a : List Int) (mids normals : List ℚ),
      deprecated_localize_facets gdim cell_id fs (a, mids, normals) =
        (a ++ fs.flatMap (adjacent_entries cell_id),
         mids ++ fs.flatMap (fun f => (List.range gdim).map f.midpoint),
         normals ++ fs.flatMap (fun f => (List.range gdim).map f.normal)) := by
  intro fs
  induction fs with
  | nil => intro a mids normals; simp [deprecated_localize_facets]
  | cons f fs ih =>
    intro a mids normals
    rw [deprecated_localize_facets]
    have h1 : (if f.facet_cells.length = 1 then
          push_other_cells cell_id f.facet_cells a ++ [boundary_entry f.bnd_value]
        else push_other_cells cell_id f.facet_cells a) = a ++ adjacent_entries cell_id f := by
      rw [push_other_cells_eq]
      unfold adjacent_entries
      split <;> simp
    rw [h1, push_mid_normal_eq, ih]
    simp [List.range_eq_range']

/-- Reading a concatenation of blocks of equal length `m`: slot `i * m + t` is slot `t` of
block `i`. -/
theorem flatMap_block_get {α β : Type} (g : α → List β) (m : Nat) :
    ∀ (L : List α), (∀ f, f ∈ L → (g f).length = m) →
      (L.flatMap g).length = L.length * m ∧
      ∀ (i : Nat) (f : α) (t : Nat), L[i]? = some f → t < m →
        (L.flatMap g)[i * m + t]? = (g f)[t]? := by
  intro L
  induction L with
  | nil => intro _; simp
  | cons f0 L ih =>
    intro h
    have h0 : (g f0).length = m := h f0 (by simp)
    obtain ⟨ihlen, ihget⟩ := ih (fun f hf => h f (by simp [hf]))
    refine ⟨?_, ?_⟩
    · rw [List.flatMap_cons, List.length_append, ihlen, h0, List.length_cons]
      ring
    · intro i f t hi ht
      rw [List.flatMap_cons]
      cases i with
      | zero =>
        simp only [List.getElem?_cons_zero, Option.some.injEq] at hi
        subst hi
        rw [Nat.zero_mul, Nat.zero_add, List.getElem?_append_left (by omega)]
      | succ i =>
        rw [List.getElem?_cons_succ] at hi
        have he : (i + 1) * m + t = (g f0).length + (i * m + t) := by rw [h0]; ring
        rw [he, List.getElem?_append_right (by omega), Nat.add_sub_cancel_left]
        exact ihget i f t hi ht

theorem wrapped_product (t : Nat) (ht : t < 2 ^ 64) :
    (2 ^ 64 - 1) * t % 2 ^ 64 = if t = 0 then 0 else 2 ^ 64 - t := by
  cases t with
  | zero => simp
  | succ s =>
    rw [if_neg (by omega)]
    have h : (2 ^ 64 - 1) * (s + 1) = (2 ^ 64 - (s + 1)) + 2 ^ 64 * s := by
      norm_num at ht ⊢
      omega
    rw [h, Nat.add_mul_mod_self_left]
    exact Nat.mod_eq_of_lt (by norm_num)

theorem boundary_entry_eq (t : Nat) (ht : t ≤ 2 ^ 63) : boundary_entry t = -(t : Int) := by
  unfold boundary_entry to_signed
  rw [wrapped_product t (by norm_num at ht ⊢; omega)]
  by_cases h0 : t = 0
  · subst h0; simp
  · rw [if_neg h0]
    norm_num at ht ⊢
    split <;> omega

theorem boundary_entry_neg_iff (t : Nat) (ht : t < 2 ^ 64) :
    boundary_entry t < 0 ↔ 1 ≤ t ∧ t ≤ 2 ^ 63 := by
  unfold boundary_entry to_signed
  rw [wrapped_product t ht]
  by_cases h0 : t = 0
  · subst h0; simp
  · rw [if_neg h0]
    norm_num at ht ⊢
    split <;> omega


theorem init_localizer_cells (pop : Population) (mesh : Nat → List FacetView)
    (hid : ids_are_positions pop.cells) :
    ∃ pop', init_localizer pop mesh = .ok pop' ∧ pop'.g_dim = pop.g_dim ∧
      pop'.cells.length = pop.cells.length ∧
      ∀ (k : Nat) (cell : Cell), pop'.cells[k]? = some cell →
        k < pop.cells.length ∧ cell.id = k ∧
        cell.facet_adjacents = (mesh k).flatMap (adjacent_entries k) ∧
        cell.facet_plane_coeffs = (mesh k).flatMap (coeff_block pop.g_dim) := by
  refine ⟨_, init_localizer_eq pop mesh hid, rfl, by simp, ?_⟩
  intro k cell hc
  simp only [List.getElem?_map, Option.map_eq_some'] at hc
  obtain ⟨c, hc0, rfl⟩ := hc
  have hk : c.id = k := hid k c hc0
  obtain ⟨h1, h2, -, -, -⟩ := localized_tables mesh pop.g_dim c
  rw [hk] at h1 h2
  refine ⟨?_, ?_, h1, h2⟩
  · by_contra hlt
    rw [List.getElem?_eq_none (by omega)] at hc0
    cases hc0
  · rw [(localized_tables mesh pop.g_dim c).2.2.1, hk]

/-- A facet of cell `k` with one or two distinct adjacent cells, `k` among them, is `[k]`,
`[k, d]` or `[d, k]` with `d ≠ k`. -/
theorem facet_cells_shape (k : Nat) (cs : List Nat)
    (hlen : cs.length = 1 ∨ cs.length = 2) (hmem : k ∈ cs) (hnd : cs.Nodup) :
    cs = [k] ∨ ∃ d, d ≠ k ∧ (cs = [k, d] ∨ cs = [d, k]) := by
  rcases cs with _ | ⟨a, _ | ⟨b, _ | ⟨c, l⟩⟩⟩
  · simp at hmem
  · simp at hmem
    left; rw [hmem]
  · right
    simp at hmem hnd
    rcases hmem with h | h
    · exact ⟨b, by omega, Or.inl (by rw [h])⟩
    · exact ⟨a, by omega, Or.inr (by rw [h])⟩
  · simp at hlen

theorem adjacent_entries_boundary (k : Nat) (f : FacetView) (h : f.facet_cells = [k]) :
    adjacent_entries k f = [boundary_entry f.bnd_value] := by
  simp [adjacent_entries, h]

theorem adjacent_entries_interior (k d : Nat) (f : FacetView) (hd : d ≠ k)
    (h : f.facet_cells = [k, d] ∨ f.facet_cells = [d, k]) :
    adjacent_entries k f = [(d : Int)] := by
  have hd2 : ¬ k = d := fun e => hd e.symm
  rcases h with h | h <;> simp [adjacent_entries, h, hd2]

/-- C13: for a mesh in which every facet of every cell has one or two adjacent cells (distinct,
the cell itself among them), `init_localizer` completes and gives each cell a `facet_adjacents`
list with exactly one entry per facet, in facet order: entry `i` is the id of the other cell
sharing facet `i`, or, when facet `i` has only this cell, the wrapped product
`(2^64 - 1) * t mod 2^64` read back as a signed value, which is `-t` for every tag `t < 2^63`.
The deprecated `init_localizer` builds the same list. -/
theorem init_localizer_adjacency_entries (pop : Population) (mesh : Nat → List FacetView)
    (hid : ids_are_positions pop.cells)
    (hmesh : ∀ k, k < pop.cells.length → ∀ f, f ∈ mesh k →
      (f.facet_cells.length = 1 ∨ f.facet_cells.length = 2) ∧ k ∈ f.facet_cells ∧
        f.facet_cells.Nodup) :
    ∃ pop', init_localizer pop mesh = .ok pop' ∧ pop'.cells.length = pop.cells.length ∧
      ∀ (k : Nat) (cell : Cell), pop'.cells[k]? = some cell →
        cell.facet_adjacents.length = (mesh k).length ∧
        cell.facet_adjacents =
          (deprecated_localize_facets pop.g_dim k (mesh k) ([], [], [])).1 ∧
        ∀ (i : Nat) (f : FacetView), (mesh k)[i]? = some f →
          (∀ d, d ∈ f.facet_cells → d ≠ k → cell.facet_adjacents[i]? = some (d : Int)) ∧
          (f.facet_cells.length = 1 →
            cell.facet_adjacents[i]? =
              some (to_signed ((2 ^ 64 - 1) * f.bnd_value % 2 ^ 64)) ∧
            (f.bnd_value < 2 ^ 63 → cell.facet_adjacents[i]? = some (-(f.bnd_value : Int)))) := by
  obtain ⟨pop', hinit, -, hlen, hcells⟩ := init_localizer_cells pop mesh hid
  refine ⟨pop', hinit, hlen, ?_⟩
  intro k cell hc
  obtain ⟨hk, -, hadj, -⟩ := hcells k cell hc
  have hshape : ∀ f, f ∈ mesh k →
      f.facet_cells = [k] ∨ ∃ d, d ≠ k ∧ (f.facet_cells = [k, d] ∨ f.facet_cells = [d, k]) :=
    fun f hf => facet_cells_shape k _ (hmesh k hk f hf).1 (hmesh k hk f hf).2.1 (hmesh k hk f hf).2.2
  have hone : ∀ f, f ∈ mesh k → (adjacent_entries k f).length = 1 := by
    intro f hf
    rcases hshape f hf with h | ⟨d, hd, h⟩
    · rw [adjacent_entries_boundary k f h]; rfl
    · rw [adjacent_entries_interior k d f hd h]; rfl
  obtain ⟨hl, hget⟩ := flatMap_block_get (adjacent_entries k) 1 (mesh k) hone
  refine ⟨by rw [hadj, hl, Nat.mul_one], ?_, ?_⟩
  · rw [hadj, deprecated_localize_facets_eq]
    simp
  · intro i f hf
    have hfm : f ∈ mesh k := List.mem_iff_getElem?.2 ⟨i, hf⟩
    have hi : cell.facet_adjacents[i]? = (adjacent_entries k f)[0]? := by
      have h := hget i f 0 hf (by omega)
      rw [Nat.mul_one, Nat.add_zero] at h
      rw [hadj, h]
    refine ⟨?_, ?_⟩
    · intro d hd hdk
      rcases hshape f hfm with h | ⟨e, he, h⟩
      · rw [h] at hd
        simp at hd
        exact absurd hd hdk
      · have hde : d = e := by
          rcases h with h | h <;> rw [h] at hd <;> simp at hd <;> omega
        rw [hi, hde, adjacent_entries_interior k e f he h]
        rfl
    · intro h1
      have hb : f.facet_cells = [k] := by
        rcases hshape f hfm with h | ⟨e, -, h⟩
        · exact h
        · rcases h with h | h <;> rw [h] at h1 <;> simp at h1
      rw [hi, adjacent_entries_boundary k f hb]
      refine ⟨rfl, fun ht => ?_⟩
      rw [← boundary_entry_eq f.bnd_value (by omega)]
      rfl

theorem pop2_bare_ids : ids_are_positions pop2_bare.cells := by
  intro k c h
  match k with
  | 0 => simp [pop2_bare] at h; rw [← h]
  | 1 => simp [pop2_bare] at h; rw [← h]
  | k + 2 => simp [pop2_bare] at h

theorem pop2_mesh_facets (k : Nat) (hk : k < pop2_bare.cells.length) (f : FacetView)
    (hf : f ∈ pop2_mesh k) :
    (f.facet_cells.length = 1 ∨ f.facet_cells.length = 2) ∧ k ∈ f.facet_cells ∧
      f.facet_cells.Nodup := by
  have hk2 : k < 2 := hk
  interval_cases k
  · simp only [pop2_mesh, if_true, List.mem_cons, List.mem_singleton, List.not_mem_nil,
      or_false] at hf
    rcases hf with rfl | rfl | rfl <;> simp
  · simp only [pop2_mesh, if_neg (show ¬ (1 = 0) by decide), List.mem_cons, List.mem_singleton,
      List.not_mem_nil, or_false] at hf
    rcases hf with rfl | rfl | rfl <;> simp

theorem init_localizer_adjacency_entries_witness :
    ∃ pop', init_localizer pop2_bare pop2_mesh = .ok pop' ∧
      pop'.cells.length = pop2_bare.cells.length ∧
      ∀ (k : Nat) (cell : Cell), pop'.cells[k]? = some cell →
        cell.facet_adjacents.length = (pop2_mesh k).length ∧
        cell.facet_adjacents =
          (deprecated_localize_facets pop2_bare.g_dim k (pop2_mesh k) ([], [], [])).1 ∧
        ∀ (i : Nat) (f : FacetView), (pop2_mesh k)[i]? = some f →
          (∀ d, d ∈ f.facet_cells → d ≠ k → cell.facet_adjacents[i]? = some (d : Int)) ∧
          (f.facet_cells.length = 1 →
            cell.facet_adjacents[i]? =
              some (to_signed ((2 ^ 64 - 1) * f.bnd_value % 2 ^ 64)) ∧
            (f.bnd_value < 2 ^ 63 → cell.facet_adjacents[i]? = some (-(f.bnd_value : Int)))) :=
  init_localizer_adjacency_entries pop2_bare pop2_mesh pop2_bare_ids pop2_mesh_facets


/-- C14 (counterexample): on the one-cell interval mesh whose left end point carries the
boundary tag 0, `init_localizer` writes the entry 0 for that boundary facet, which is not
strictly negative; the relocation walk then reads it as cell 0 and, for a point left of the
interval, re-enters cell 0 until the recursion depth is used up. -/
theorem init_localizer_tag_zero_entry :
    init_localizer pop1_bare (interval_mesh 0 2) = .ok pop1_tag_zero ∧
    (interval_mesh 0 2 0)[0]?.map (fun f => f.facet_cells) = some [0] ∧
    pop1_tag_zero.cells.map (fun c => c.facet_adjacents[0]?) = [some 0] ∧
    relocate pop1_tag_zero [-1/2] 8 0 = .error .outOfFuel := by
  refine ⟨by decide!, by decide, by decide, by decide!⟩

/-- C14 (amended): for a mesh in which every facet has one or two adjacent cells, the entry
`init_localizer` writes for a boundary facet with tag `t` is strictly negative when
`1 ≤ t ≤ 2^63`; it is 0 when `t = 0` and strictly positive when `2^63 < t < 2^64`. -/
theorem init_localizer_boundary_entry_sign (pop : Population) (mesh : Nat → List FacetView)
    (hid : ids_are_positions pop.cells)
    (hmesh : ∀ k, k < pop.cells.length → ∀ f, f ∈ mesh k →
      (f.facet_cells.length = 1 ∨ f.facet_cells.length = 2) ∧ k ∈ f.facet_cells ∧
        f.facet_cells.Nodup) :
    ∃ pop', init_localizer pop mesh = .ok pop' ∧
      ∀ (k : Nat) (cell : Cell), pop'.cells[k]? = some cell →
        ∀ (i : Nat) (f : FacetView), (mesh k)[i]? = some f → f.facet_cells.length = 1 →
          ∃ e : Int, cell.facet_adjacents[i]? = some e ∧
            (1 ≤ f.bnd_value → f.bnd_value ≤ 2 ^ 63 → e < 0) ∧
            (f.bnd_value = 0 → e = 0) ∧
            (2 ^ 63 < f.bnd_value → f.bnd_value < 2 ^ 64 → 0 < e) := by
  obtain ⟨pop', hinit, -, hlen, hcells⟩ := init_localizer_cells pop mesh hid
  refine ⟨pop', hinit, ?_⟩
  intro k cell hc i f hf h1
  obtain ⟨hk, -, hadj, -⟩ := hcells k cell hc
  have hshape : ∀ f, f ∈ mesh k →
      f.facet_cells = [k] ∨ ∃ d, d ≠ k ∧ (f.facet_cells = [k, d] ∨ f.facet_cells = [d, k]) :=
    fun f hf => facet_cells_shape k _ (hmesh k hk f hf).1 (hmesh k hk f hf).2.1 (hmesh k hk f hf).2.2
  have hone : ∀ f, f ∈ mesh k → (adjacent_entries k f).length = 1 := by
    intro f hf
    rcases hshape f hf with h | ⟨d, hd, h⟩
    · rw [adjacent_entries_boundary k f h]; rfl
    · rw [adjacent_entries_interior k d f hd h]; rfl
  obtain ⟨-, hget⟩ := flatMap_block_get (adjacent_entries k) 1 (mesh k) hone
  have hfm : f ∈ mesh k := List.mem_iff_getElem?.2 ⟨i, hf⟩
  have hb : f.facet_cells = [k] := by
    rcases hshape f hfm with h | ⟨e, -, h⟩
    · exact h
    · rcases h with h | h <;> rw [h] at h1 <;> simp at h1
  have hi : cell.facet_adjacents[i]? = some (boundary_entry f.bnd_value) := by
    have h := hget i f 0 hf (by omega)
    rw [Nat.mul_one, Nat.add_zero] at h
    rw [hadj, h, adjacent_entries_boundary k f hb]
    rfl
  refine ⟨_, hi, ?_, ?_, ?_⟩
  · intro ha hb2
    exact (boundary_entry_neg_iff _ (by norm_num at hb2 ⊢; omega)).2 ⟨ha, hb2⟩
  · intro h0
    rw [h0]
    decide
  · intro ha hb2
    have hn := (boundary_entry_neg_iff _ hb2).not.2 (by omega)
    have ht0 : f.bnd_value ≠ 0 := by
      intro h0
      rw [h0] at ha
      simp at ha
    have hz : boundary_entry f.bnd_value ≠ 0 := by
      unfold boundary_entry to_signed
      rw [wrapped_product _ hb2, if_neg ht0]
      norm_num at ha hb2 ⊢
      split <;> omega
    omega

theorem init_localizer_boundary_entry_sign_witness :
    ∃ pop', init_localizer pop2_bare pop2_mesh = .ok pop' ∧
      ∀ (k : Nat) (cell : Cell), pop'.cells[k]? = some cell →
        ∀ (i : Nat) (f : FacetView), (pop2_mesh k)[i]? = some f → f.facet_cells.length = 1 →
          ∃ e : Int, cell.facet_adjacents[i]? = some e ∧
            (1 ≤ f.bnd_value → f.bnd_value ≤ 2 ^ 63 → e < 0) ∧
            (f.bnd_value = 0 → e = 0) ∧
            (2 ^ 63 < f.bnd_value → f.bnd_value < 2 ^ 64 → 0 < e) :=
  init_localizer_boundary_entry_sign pop2_bare pop2_mesh pop2_bare_ids pop2_mesh_facets


/-! ## The coefficient blocks -/

theorem deprecated_proj_loop_eq (gdim : Nat) (mids normals p : List ℚ) (i : Nat) :
    ∀ (n j : Nat) (proj : ℚ), j + n ≤ p.length → i * gdim + j + n ≤ mids.length →
      i * gdim + j + n ≤ normals.length →
      deprecated_proj_loop gdim mids normals p i n j proj =
        .ok (proj + ∑ t in Finset.range n,
          (p.getD (j + t) 0 - mids.getD (i * gdim + (j + t)) 0) *
            normals.getD (i * gdim + (j + t)) 0) := by
  intro n
  induction n with
  | zero => intro j proj _ _ _; simp [deprecated_proj_loop]
  | succ n ih =>
    intro j proj hp hm hn
    rw [deprecated_proj_loop, rd_of_lt p j 0 (by omega), rd_of_lt mids _ 0 (by omega),
      rd_of_lt normals _ 0 (by omega)]
    simp only
    rw [ih (j + 1) _ (by omega) (by omega) (by omega), Finset.sum_range_succ']
    congr 1
    have h1 : ∀ t, j + 1 + t = j + (t + 1) := by intro t; omega
    simp only [h1, Nat.add_zero]
    ring

theorem coeff_block_length (g_dim : Nat) (f : FacetView) :
    (coeff_block g_dim f).length = g_dim + 1 := by
  simp [coeff_block]

theorem coeff_block_get (g_dim : Nat) (f : FacetView) :
    (coeff_block g_dim f)[0]? = some (-(∑ j in Finset.range g_dim, f.midpoint j * f.normal j)) ∧
    ∀ j, j < g_dim → (coeff_block g_dim f)[1 + j]? = some (f.normal j) := by
  refine ⟨by simp [coeff_block], fun j hj => ?_⟩
  rw [Nat.add_comm]
  simp [coeff_block, List.getElem?_range hj]

theorem getD_of_get {α : Type} (v : List α) (i : Nat) (a d : α) (h : v[i]? = some a) :
    v.getD i d = a := by
  rw [List.getD_eq_getElem?_getD, h]
  rfl

/-- C15: for every cell `k`, facet `i` and point `x`, in exact arithmetic: the coefficient block
`init_localizer` stores for facet `i` starts at index `i * (g_dim + 1)` with the offset
`-(mid_i · n_i)` followed by the `g_dim` components of `n_i`, and the plane value `relocate`
computes from it is `offset + sum_j n_ij * x_j = sum_j n_ij * (x_j - mid_ij)`, which is also the
projection the deprecated `relocate` computes from `facet_mids` and `facet_normals`. -/
theorem coefficient_block_plane_value (pop : Population) (mesh : Nat → List FacetView)
    (hid : ids_are_positions pop.cells) (k : Nat) (hk : k < pop.cells.length)
    (i : Nat) (f : FacetView) (hf : (mesh k)[i]? = some f) (x : List ℚ)
    (hx : pop.g_dim ≤ x.length) :
    ∃ pop' cell, init_localizer pop mesh = .ok pop' ∧ pop'.cells[k]? = some cell ∧
      cell.facet_plane_coeffs[i * (pop.g_dim + 1)]? =
        some (-(∑ j in Finset.range pop.g_dim, f.midpoint j * f.normal j)) ∧
      (∀ j, j < pop.g_dim →
        cell.facet_plane_coeffs[i * (pop.g_dim + 1) + 1 + j]? = some (f.normal j)) ∧
      facet_proj pop'.g_dim cell.facet_plane_coeffs x i =
        .ok (-(∑ j in Finset.range pop.g_dim, f.midpoint j * f.normal j) +
          ∑ j in Finset.range pop.g_dim, f.normal j * x.getD j 0) ∧
      -(∑ j in Finset.range pop.g_dim, f.midpoint j * f.normal j) +
          ∑ j in Finset.range pop.g_dim, f.normal j * x.getD j 0 =
        ∑ j in Finset.range pop.g_dim, f.normal j * (x.getD j 0 - f.midpoint j) ∧
      deprecated_proj pop.g_dim
          (deprecated_localize_facets pop.g_dim k (mesh k) ([], [], [])).2.1
          (deprecated_localize_facets pop.g_dim k (mesh k) ([], [], [])).2.2 x i =
        .ok (∑ j in Finset.range pop.g_dim, f.normal j * (x.getD j 0 - f.midpoint j)) := by
  obtain ⟨pop', hinit, hg, hlen, hcells⟩ := init_localizer_cells pop mesh hid
  have hk2 : k < pop'.cells.length := by omega
  obtain ⟨-, -, -, hco⟩ := hcells k _ (List.getElem?_eq_getElem hk2)
  obtain ⟨hl, hget⟩ := flatMap_block_get (coeff_block pop.g_dim) (pop.g_dim + 1) (mesh k)
    (fun f _ => coeff_block_length pop.g_dim f)
  obtain ⟨hb0, hbj⟩ := coeff_block_get pop.g_dim f
  have hi : i < (mesh k).length := by
    by_contra hlt
    rw [List.getElem?_eq_none (by omega)] at hf
    cases hf
  have h0 : (pop'.cells[k]).facet_plane_coeffs[i * (pop.g_dim + 1)]? =
      some (-(∑ j in Finset.range pop.g_dim, f.midpoint j * f.normal j)) := by
    have h := hget i f 0 hf (by omega)
    rw [Nat.add_zero] at h
    rw [hco, h, hb0]
  have hj : ∀ j, j < pop.g_dim →
      (pop'.cells[k]).facet_plane_coeffs[i * (pop.g_dim + 1) + 1 + j]? = some (f.normal j) := by
    intro j hjlt
    have h := hget i f (1 + j) hf (by omega)
    rw [hco, Nat.add_assoc, h, hbj j hjlt]
  have hsum : -(∑ j in Finset.range pop.g_dim, f.midpoint j * f.normal j) +
      ∑ j in Finset.range pop.g_dim, f.normal j * x.getD j 0 =
      ∑ j in Finset.range pop.g_dim, f.normal j * (x.getD j 0 - f.midpoint j) := by
    rw [← Finset.sum_neg_distrib, ← Finset.sum_add_distrib]
    exact Finset.sum_congr rfl (fun j _ => by ring)
  refine ⟨pop', pop'.cells[k], hinit, List.getElem?_eq_getElem hk2, h0, hj, ?_, hsum, ?_⟩
  · rw [hg, facet_proj_eq pop.g_dim _ x i ?_ hx]
    · rw [getD_of_get _ _ _ 0 h0]
      congr 2
      exact Finset.sum_congr rfl (fun j hjm => by
        rw [getD_of_get _ _ _ 0 (hj j (Finset.mem_range.1 hjm))])
    · rw [hco, hl]
      exact Nat.mul_le_mul_right _ hi
  · have hm := flatMap_block_get (fun f : FacetView => (List.range pop.g_dim).map f.midpoint)
      pop.g_dim (mesh k) (fun f _ => by simp)
    have hn := flatMap_block_get (fun f : FacetView => (List.range pop.g_dim).map f.normal)
      pop.g_dim (mesh k) (fun f _ => by simp)
    have hle : (i + 1) * pop.g_dim ≤ (mesh k).length * pop.g_dim :=
      Nat.mul_le_mul_right _ hi
    have he : (i + 1) * pop.g_dim = i * pop.g_dim + pop.g_dim := by ring
    unfold deprecated_proj
    rw [deprecated_localize_facets_eq]
    simp only [List.nil_append]
    rw [deprecated_proj_loop_eq _ _ _ _ _ _ _ _ (by omega) (by rw [hm.1]; omega)
      (by rw [hn.1]; omega)]
    rw [zero_add]
    congr 1
    refine Finset.sum_congr rfl (fun j hjm => ?_)
    have hjlt : j < pop.g_dim := Finset.mem_range.1 hjm
    have hmid : ((mesh k).flatMap fun f : FacetView =>
        (List.range pop.g_dim).map f.midpoint).getD (i * pop.g_dim + j) 0 = f.midpoint j :=
      getD_of_get _ _ _ 0 (by rw [hm.2 i f j hf hjlt]; simp [List.getElem?_range hjlt])
    have hnor : ((mesh k).flatMap fun f : FacetView =>
        (List.range pop.g_dim).map f.normal).getD (i * pop.g_dim + j) 0 = f.normal j :=
      getD_of_get _ _ _ 0 (by rw [hn.2 i f j hf hjlt]; simp [List.getElem?_range hjlt])
    rw [Nat.zero_add, hmid, hnor]
    ring

theorem coefficient_block_plane_value_witness :
    ∃ pop' cell, init_localizer pop2_bare pop2_mesh = .ok pop' ∧ pop'.cells[0]? = some cell ∧
      cell.facet_plane_coeffs[2 * (pop2_bare.g_dim + 1)]? =
        some (-(∑ j in Finset.range pop2_bare.g_dim,
          (if j = 0 then (-3/2 : ℚ) else 2) * (if j = 0 then (-4/5 : ℚ) else 3/5))) ∧
      (∀ j, j < pop2_bare.g_dim →
        cell.facet_plane_coeffs[2 * (pop2_bare.g_dim + 1) + 1 + j]? =
          some (if j = 0 then (-4/5 : ℚ) else 3/5)) ∧
      facet_proj pop'.g_dim cell.facet_plane_coeffs [1, 1] 2 =
        .ok (-(∑ j in Finset.range pop2_bare.g_dim,
            (if j = 0 then (-3/2 : ℚ) else 2) * (if j = 0 then (-4/5 : ℚ) else 3/5)) +
          ∑ j in Finset.range pop2_bare.g_dim,
            (if j = 0 then (-4/5 : ℚ) else 3/5) * [(1 : ℚ), 1].getD j 0) ∧
      -(∑ j in Finset.range pop2_bare.g_dim,
            (if j = 0 then (-3/2 : ℚ) else 2) * (if j = 0 then (-4/5 : ℚ) else 3/5)) +
          ∑ j in Finset.range pop2_bare.g_dim,
            (if j = 0 then (-4/5 : ℚ) else 3/5) * [(1 : ℚ), 1].getD j 0 =
        ∑ j in Finset.range pop2_bare.g_dim,
          (if j = 0 then (-4/5 : ℚ) else 3/5) *
            ([(1 : ℚ), 1].getD j 0 - (if j = 0 then (-3/2 : ℚ) else 2)) ∧
      deprecated_proj pop2_bare.g_dim
          (deprecated_localize_facets pop2_bare.g_dim 0 (pop2_mesh 0) ([], [], [])).2.1
          (deprecated_localize_facets pop2_bare.g_dim 0 (pop2_mesh 0) ([], [], [])).2.2
          [1, 1] 2 =
        .ok (∑ j in Finset.range pop2_bare.g_dim,
          (if j = 0 then (-4/5 : ℚ) else 3/5) *
            ([(1 : ℚ), 1].getD j 0 - (if j = 0 then (-3/2 : ℚ) else 2))) :=
  coefficient_block_plane_value pop2_bare pop2_mesh pop2_bare_ids 0 (by decide) 2
    { facet_cells := [0], bnd_value := 1,
      midpoint := fun j => if j = 0 then -3/2 else 2,
      normal := fun j => if j = 0 then -4/5 else 3/5 }
    (by simp [pop2_mesh]) [1, 1] (by decide)


/-! ## Facets with no or with more than two adjacent cells -/

/-- C16 (counterexample): `init_localizer` completes and produces tables on a mesh where the
facet 0 of every cell has three adjacent cells, and on a mesh where facet 1 of the cell has no
adjacent cell; the adjacency lists then hold three entries, respectively one entry, for two
facets. -/
theorem init_localizer_accepts_malformed_facets :
    init_localizer star_pop star_mesh = .ok
      { g_dim := 1, num_cells := 3,
        cells := [{ id := 0, neighbors := [1, 2], facet_adjacents := [1, 2, -1],
                    facet_plane_coeffs := [0, -1, -1, 1], particles := [] },
                  { id := 1, neighbors := [0, 2], facet_adjacents := [0, 2, -1],
                    facet_plane_coeffs := [0, -1, -1, 1], particles := [] },
                  { id := 2, neighbors := [0, 1], facet_adjacents := [0, 1, -1],
                    facet_plane_coeffs := [0, -1, -1, 1], particles := [] }] } ∧
    (star_mesh 0).map (fun f => f.facet_cells.length) = [3, 1] ∧
    init_localizer pop1_bare loose_mesh = .ok
      { g_dim := 1, num_cells := 1,
        cells := [{ id := 0, neighbors := [], facet_adjacents := [-1],
                    facet_plane_coeffs := [0, -1, -1, 1], particles := [] }] } ∧
    (loose_mesh 0).map (fun f => f.facet_cells.length) = [1, 0] := by
  refine ⟨by decide!, by decide, by decide!, by decide⟩

/-- C16 (amended): `init_localizer` has no error path for the number of cells adjacent to a
facet: for every mesh (with every cell record stored at its id) it completes and writes both
tables of every cell; a facet with no adjacent cell contributes no `facet_adjacents` entry and
a facet with two or more adjacent cells contributes one entry for every adjacent cell other than
the cell itself, while the coefficient table always has one block per facet. -/
theorem init_localizer_never_stops (pop : Population) (mesh : Nat → List FacetView)
    (hid : ids_are_positions pop.cells) :
    ∃ pop', init_localizer pop mesh = .ok pop' ∧ pop'.cells.length = pop.cells.length ∧
      ∀ (k : Nat) (cell : Cell), pop'.cells[k]? = some cell →
        cell.facet_adjacents = (mesh k).flatMap (adjacent_entries k) ∧
        cell.facet_plane_coeffs.length = (mesh k).length * (pop.g_dim + 1) ∧
        ∀ f, f ∈ mesh k →
          (f.facet_cells.length = 0 → adjacent_entries k f = []) ∧
          (2 ≤ f.facet_cells.length → adjacent_entries k f =
            (f.facet_cells.filter fun c => decide (k ≠ c)).map (fun c : Nat => (c : Int))) := by
  obtain ⟨pop', hinit, -, hlen, hcells⟩ := init_localizer_cells pop mesh hid
  refine ⟨pop', hinit, hlen, ?_⟩
  intro k cell hc
  obtain ⟨-, -, hadj, hco⟩ := hcells k cell hc
  refine ⟨hadj, ?_, ?_⟩
  · rw [hco]
    exact (flatMap_block_get (coeff_block pop.g_dim) (pop.g_dim + 1) (mesh k)
      (fun f _ => coeff_block_length pop.g_dim f)).1
  · intro f _
    refine ⟨fun h0 => ?_, fun h2 => ?_⟩
    · have hnil : f.facet_cells = [] := List.length_eq_zero.1 h0
      simp [adjacent_entries, hnil]
    · unfold adjacent_entries
      rw [if_neg (by omega), List.append_nil]

theorem star_pop_ids : ids_are_positions star_pop.cells := by
  intro k c h
  match k with
  | 0 => simp [star_pop] at h; rw [← h]
  | 1 => simp [star_pop] at h; rw [← h]
  | 2 => simp [star_pop] at h; rw [← h]
  | k + 3 => simp [star_pop] at h

theorem init_localizer_never_stops_witness :
    ∃ pop', init_localizer star_pop star_mesh = .ok pop' ∧
      pop'.cells.length = star_pop.cells.length ∧
      ∀ (k : Nat) (cell : Cell), pop'.cells[k]? = some cell →
        cell.facet_adjacents = (star_mesh k).flatMap (adjacent_entries k) ∧
        cell.facet_plane_coeffs.length = (star_mesh k).length * (star_pop.g_dim + 1) ∧
        ∀ f, f ∈ star_mesh k →
          (f.facet_cells.length = 0 → adjacent_entries k f = []) ∧
          (2 ≤ f.facet_cells.length → adjacent_entries k f =
            (f.facet_cells.filter fun c => decide (k ≠ c)).map (fun c : Nat => (c : Int))) :=
  init_localizer_never_stops star_pop star_mesh star_pop_ids


/-! ## The depth of the exact walk -/

/-- A call of `relocate` is one hop followed, when the hop says so, by the nested call. -/
theorem relocate_succ (pop : Population) (p : List ℚ) (fuel : Nat) (c : Int) :
    relocate pop p (fuel + 1) c =
      match relocate_hop pop p c with
      | .error e => .error e
      | .ok (v, true) => relocate pop p fuel v
      | .ok (v, false) => .ok v := by
  rw [relocate]
  unfold relocate_hop
  cases cellAt pop c with
  | error e => rfl
  | ok cell =>
    simp only
    by_cases hdim : 4 < pop.g_dim + 1
    · simp only [hdim, if_true]
    · simp only [hdim, if_false]
      cases fill_proj pop.g_dim cell.facet_plane_coeffs p (pop.g_dim + 1) 0 with
      | error e => rfl
      | ok L =>
        cases L with
        | nil => rfl
        | cons proj0 rest =>
          simp only
          by_cases hneg : (argmax_loop rest 1 (proj0, 0)).1 < 0
          · simp only [hneg, if_true]
          · simp only [hneg, if_false]
            cases rd cell.facet_adjacents (argmax_loop rest 1 (proj0, 0)).2 with
            | error e => rfl
            | ok a =>
              simp only
              by_cases ha : a ≥ 0
              · simp only [ha, if_true, decide_True]
              · simp only [ha, if_false, decide_False]

/-- A hop that returns its value returns the start cell or a negative adjacency entry of it; a
hop that recurses passes on a non-negative adjacency entry. -/
theorem relocate_hop_value (pop : Population) (p : List ℚ) (c v : Int) (b : Bool)
    (h : relocate_hop pop p c = .ok (v, b)) :
    (b = true → 0 ≤ v) ∧
    (b = false → (v = c ∧ 0 ≤ c) ∨
      (v < 0 ∧ ∃ cell, cell ∈ pop.cells ∧ v ∈ cell.facet_adjacents)) := by
  unfold relocate_hop at h
  cases hcell : cellAt pop c with
  | error e => rw [hcell] at h; cases h
  | ok cell =>
    rw [hcell] at h
    simp only at h
    obtain ⟨hc0, hcm⟩ := (cellAt_ok_iff pop c cell).1 hcell
    by_cases hdim : 4 < pop.g_dim + 1
    · simp only [hdim, if_true] at h
      cases h
    · simp only [hdim, if_false] at h
      cases hfill : fill_proj pop.g_dim cell.facet_plane_coeffs p (pop.g_dim + 1) 0 with
      | error e => rw [hfill] at h; cases h
      | ok L =>
        rw [hfill] at h
        cases L with
        | nil => cases h
        | cons proj0 rest =>
          simp only at h
          by_cases hneg : (argmax_loop rest 1 (proj0, 0)).1 < 0
          · simp only [hneg, if_true, Res.ok.injEq, Prod.mk.injEq] at h
            obtain ⟨hv, hb⟩ := h
            subst hv hb
            exact ⟨fun hb => (by cases hb), fun _ => Or.inl ⟨rfl, hc0⟩⟩
          · simp only [hneg, if_false] at h
            cases hadj : rd cell.facet_adjacents (argmax_loop rest 1 (proj0, 0)).2 with
            | error e => rw [hadj] at h; cases h
            | ok a =>
              rw [hadj] at h
              simp only [Res.ok.injEq, Prod.mk.injEq] at h
              obtain ⟨hv, hb⟩ := h
              subst hv
              have hmem : a ∈ cell.facet_adjacents :=
                List.mem_iff_getElem?.2 ⟨_, (rd_eq_ok _ _ _).1 hadj⟩
              refine ⟨fun hbt => ?_, fun hbf => Or.inr ⟨?_, cell, List.mem_iff_getElem?.2 ⟨_, hcm⟩, hmem⟩⟩
              · rw [hbt] at hb
                exact of_decide_eq_true hb
              · rw [hbf] at hb
                have := of_decide_eq_false hb
                omega

/-- A hop that returns the start cell does so again from that cell. -/
theorem relocate_hop_stay (pop : Population) (p : List ℚ) (c v : Int)
    (h : relocate_hop pop p c = .ok (v, false)) (hv : 0 ≤ v) : v = c := by
  rcases (relocate_hop_value pop p c v false h).2 rfl with ⟨h1, -⟩ | ⟨h1, -⟩
  · exact h1
  · omega

theorem relocate_mono (pop : Population) (p : List ℚ) (r : Int) :
    ∀ (fuel : Nat) (c : Int), relocate pop p fuel c = .ok r →
      relocate pop p (fuel + 1) c = .ok r := by
  intro fuel
  induction fuel with
  | zero => intro c h; simp [relocate] at h
  | succ fuel ih =>
    intro c h
    rw [relocate_succ] at h ⊢
    cases hhop : relocate_hop pop p c with
    | error e => rw [hhop] at h; cases h
    | ok vb =>
      obtain ⟨v, b⟩ := vb
      rw [hhop] at h
      cases b with
      | true => exact ih v h
      | false => exact h

theorem relocate_mono_le (pop : Population) (p : List ℚ) (r : Int) (c : Int) (fuel : Nat)
    (h : relocate pop p fuel c = .ok r) :
    ∀ fuel', fuel ≤ fuel' → relocate pop p fuel' c = .ok r := by
  intro fuel' hle
  obtain ⟨d, rfl⟩ := Nat.exists_eq_add_of_le hle
  induction d with
  | zero => exact h
  | succ d ih => exact relocate_mono pop p r _ c (ih (by omega))

/-- The value a walk returns is returned by a hop that does not recurse. -/
theorem relocate_last_hop (pop : Population) (p : List ℚ) (r : Int) :
    ∀ (fuel : Nat) (c : Int), relocate pop p fuel c = .ok r →
      ∃ d, relocate_hop pop p d = .ok (r, false) := by
  intro fuel
  induction fuel with
  | zero => intro c h; simp [relocate] at h
  | succ fuel ih =>
    intro c h
    rw [relocate_succ] at h
    cases hhop : relocate_hop pop p c with
    | error e => rw [hhop] at h; cases h
    | ok vb =>
      obtain ⟨v, b⟩ := vb
      rw [hhop] at h
      cases b with
      | true => exact ih v h
      | false =>
        simp only [Res.ok.injEq] at h
        subst h
        exact ⟨c, hhop⟩


/-- C17 (counterexample): in the two-cell mesh `pop2` the point (0, 1) lies on the facet shared
by the cells 0 and 1, where the largest plane value is 0 in both cells; each call of `relocate`
hands the point to the other cell, so the walk from cell 0 uses up every recursion depth and
no bound or error stops it. -/
theorem relocate_recurses_forever_on_shared_facet :
    relocate_hop pop2 [0, 1] 0 = .ok (1, true) ∧
    relocate_hop pop2 [0, 1] 1 = .ok (0, true) ∧
    recurses_forever pop2 [0, 1] 0 := by
  have h0 : relocate_hop pop2 [0, 1] 0 = .ok (1, true) := by decide!
  have h1 : relocate_hop pop2 [0, 1] 1 = .ok (0, true) := by decide!
  have hboth : ∀ fuel : Nat, relocate pop2 [0, 1] fuel 0 = .error .outOfFuel ∧
      relocate pop2 [0, 1] fuel 1 = .error .outOfFuel := by
    intro fuel
    induction fuel with
    | zero => exact ⟨rfl, rfl⟩
    | succ fuel ih =>
      refine ⟨?_, ?_⟩
      · rw [relocate_succ, h0]
        exact ih.2
      · rw [relocate_succ, h1]
        exact ih.1
  exact ⟨h0, h1, fun fuel => (hboth fuel).1⟩

/-- C17 (amended): `relocate` has no hop bound and no error for a long walk: for every localizer
table, point and start cell, a walk that returns `r` within some recursion depth returns the
same `r` within every larger depth; a returned `r ≥ 0` is a cell in which one further call
returns `r` at once (all its plane values are strictly negative), and a returned `r < 0` is an
adjacency entry of a cell of the table, never a clamped value. -/
theorem relocate_returns_final_value (pop : Population) (p : List ℚ) (c : Int) (fuel : Nat)
    (r : Int) (h : relocate pop p fuel c = .ok r) :
    (∀ fuel', fuel ≤ fuel' → relocate pop p fuel' c = .ok r) ∧
    (0 ≤ r → relocate pop p 1 r = .ok r) ∧
    (r < 0 → ∃ cell, cell ∈ pop.cells ∧ r ∈ cell.facet_adjacents) := by
  obtain ⟨d, hd⟩ := relocate_last_hop pop p r fuel c h
  refine ⟨relocate_mono_le pop p r c fuel h, fun hr => ?_, fun hr => ?_⟩
  · have hrd : r = d := relocate_hop_stay pop p d r hd hr
    rw [relocate_succ, hrd]
    rw [hrd] at hd
    rw [hd]
  · rcases (relocate_hop_value pop p d r false hd).2 rfl with ⟨h1, h2⟩ | ⟨-, h1⟩
    · omega
    · exact h1

theorem relocate_returns_final_value_witness :
    (∀ fuel', 2 ≤ fuel' → relocate pop2 [6, -1] fuel' 0 = .ok 1) ∧
    ((0 : Int) ≤ 1 → relocate pop2 [6, -1] 1 1 = .ok 1) ∧
    ((1 : Int) < 0 → ∃ cell, cell ∈ pop2.cells ∧ 1 ∈ cell.facet_adjacents) :=
  relocate_returns_final_value pop2 [6, -1] 0 2 1 (by decide!)


/-! ## The particle counters: claims -/

theorem num_of_particles_loop_eq :
    ∀ (cells : List Cell) (n : Nat), n < 2 ^ 64 →
      num_of_particles_loop cells n =
        (n + (cells.flatMap fun cell => cell.particles).length) % 2 ^ 64 := by
  intro cells
  induction cells with
  | nil =>
    intro n hn
    simp only [num_of_particles_loop, List.flatMap_nil, List.length_nil, Nat.add_zero]
    exact (Nat.mod_eq_of_lt hn).symm
  | cons cell cells ih =>
    intro n _
    rw [num_of_particles_loop, ih _ (Nat.mod_lt _ (by norm_num)), List.flatMap_cons,
      List.length_append, Nat.mod_add_mod]
    congr 1
    ring

theorem count_positives_eq :
    ∀ (ps : List Particle) (n : Nat), n < 2 ^ 64 →
      count_positives ps n < 2 ^ 64 ∧
      count_positives ps n = (n + (ps.filter fun y => decide (y.q > 0)).length) % 2 ^ 64 := by
  intro ps
  induction ps with
  | nil =>
    intro n hn
    simp only [count_positives, List.filter_nil, List.length_nil, Nat.add_zero]
    exact ⟨hn, (Nat.mod_eq_of_lt hn).symm⟩
  | cons y ps ih =>
    intro n hn
    rw [count_positives]
    by_cases hq : y.q > 0
    · rw [if_pos hq]
      obtain ⟨h1, h2⟩ := ih ((n + 1) % 2 ^ 64) (Nat.mod_lt _ (by norm_num))
      refine ⟨h1, ?_⟩
      rw [h2, List.filter_cons, if_pos (by simp [hq]), List.length_cons, Nat.mod_add_mod]
      congr 1
      ring
    · rw [if_neg hq]
      obtain ⟨h1, h2⟩ := ih n hn
      refine ⟨h1, ?_⟩
      rw [h2, List.filter_cons, if_neg (by simp [hq])]

theorem count_negatives_eq :
    ∀ (ps : List Particle) (n : Nat), n < 2 ^ 64 →
      count_negatives ps n < 2 ^ 64 ∧
      count_negatives ps n = (n + (ps.filter fun y => decide (y.q < 0)).length) % 2 ^ 64 := by
  intro ps
  induction ps with
  | nil =>
    intro n hn
    simp only [count_negatives, List.filter_nil, List.length_nil, Nat.add_zero]
    exact ⟨hn, (Nat.mod_eq_of_lt hn).symm⟩
  | cons y ps ih =>
    intro n hn
    rw [count_negatives]
    by_cases hq : y.q < 0
    · rw [if_pos hq]
      obtain ⟨h1, h2⟩ := ih ((n + 1) % 2 ^ 64) (Nat.mod_lt _ (by norm_num))
      refine ⟨h1, ?_⟩
      rw [h2, List.filter_cons, if_pos (by simp [hq]), List.length_cons, Nat.mod_add_mod]
      congr 1
      ring
    · rw [if_neg hq]
      obtain ⟨h1, h2⟩ := ih n hn
      refine ⟨h1, ?_⟩
      rw [h2, List.filter_cons, if_neg (by simp [hq])]

theorem num_of_positives_loop_eq :
    ∀ (cells : List Cell) (n : Nat), n < 2 ^ 64 →
      num_of_positives_loop cells n =
        (n + ((cells.flatMap fun cell => cell.particles).filter
          fun y => decide (y.q > 0)).length) % 2 ^ 64 := by
  intro cells
  induction cells with
  | nil =>
    intro n hn
    simp only [num_of_positives_loop, List.flatMap_nil, List.filter_nil, List.length_nil,
      Nat.add_zero]
    exact (Nat.mod_eq_of_lt hn).symm
  | cons cell cells ih =>
    intro n hn
    obtain ⟨h1, h2⟩ := count_positives_eq cell.particles n hn
    rw [num_of_positives_loop, ih _ h1, h2, List.flatMap_cons, List.filter_append,
      List.length_append, Nat.mod_add_mod]
    congr 1
    ring

theorem num_of_negatives_loop_eq :
    ∀ (cells : List Cell) (n : Nat), n < 2 ^ 64 →
      num_of_negatives_loop cells n =
        (n + ((cells.flatMap fun cell => cell.particles).filter
          fun y => decide (y.q < 0)).length) % 2 ^ 64 := by
  intro cells
  induction cells with
  | nil =>
    intro n hn
    simp only [num_of_negatives_loop, List.flatMap_nil, List.filter_nil, List.length_nil,
      Nat.add_zero]
    exact (Nat.mod_eq_of_lt hn).symm
  | cons cell cells ih =>
    intro n hn
    obtain ⟨h1, h2⟩ := count_negatives_eq cell.particles n hn
    rw [num_of_negatives_loop, ih _ h1, h2, List.flatMap_cons, List.filter_append,
      List.length_append, Nat.mod_add_mod]
    congr 1
    ring

/-- Every particle is positive, negative or neutral, and only one of these. -/
theorem sign_classes (ps : List Particle) :
    (ps.filter fun y => decide (y.q > 0)).length + (ps.filter fun y => decide (y.q < 0)).length +
      (ps.filter fun y => decide (y.q = 0)).length = ps.length := by
  induction ps with
  | nil => rfl
  | cons y ps ih =>
    have hcases : (decide (y.q > 0) = false ∧ decide (y.q < 0) = true ∧ decide (y.q = 0) = false) ∨
        (decide (y.q > 0) = false ∧ decide (y.q < 0) = false ∧ decide (y.q = 0) = true) ∨
        (decide (y.q > 0) = true ∧ decide (y.q < 0) = false ∧ decide (y.q = 0) = false) := by
      rcases lt_trichotomy y.q 0 with h | h | h
      · exact Or.inl ⟨decide_eq_false (not_lt.2 (le_of_lt h)), decide_eq_true h,
          decide_eq_false (ne_of_lt h)⟩
      · exact Or.inr (Or.inl ⟨decide_eq_false (by rw [h]; exact lt_irrefl 0),
          decide_eq_false (by rw [h]; exact lt_irrefl 0), decide_eq_true h⟩)
      · exact Or.inr (Or.inr ⟨decide_eq_true h, decide_eq_false (not_lt.2 (le_of_lt h)),
          decide_eq_false (ne_of_gt h)⟩)
    rcases hcases with ⟨d1, d2, d3⟩ | ⟨d1, d2, d3⟩ | ⟨d1, d2, d3⟩ <;>
    · simp only [List.filter_cons, d1, d2, d3, if_true, Bool.false_eq_true, if_false,
        List.length_cons]
      omega

theorem length_stored_particles (pop : Population) :
    (stored_particles pop).length = (pop.cells.map fun cell => cell.particles.length).sum := by
  unfold stored_particles
  induction pop.cells with
  | nil => rfl
  | cons cell cells ih => simp [List.flatMap_cons, ih]

/-- C18: for every store whose particle count fits a `std::size_t`, `num_of_particles()` is the
sum of the cell sequence lengths, `num_of_positives()` is the number of stored particles with
`q > 0` and `num_of_negatives()` the number with `q < 0`, so the two together with the number
of particles with `q = 0` add up to `num_of_particles()`. -/
theorem particle_counters (pop : Population)
    (hfit : (pop.cells.map fun cell => cell.particles.length).sum < 2 ^ 64) :
    num_of_particles pop = (pop.cells.map fun cell => cell.particles.length).sum ∧
    num_of_positives pop = ((stored_particles pop).filter fun y => decide (y.q > 0)).length ∧
    num_of_negatives pop = ((stored_particles pop).filter fun y => decide (y.q < 0)).length ∧
    num_of_positives pop + num_of_negatives pop +
      ((stored_particles pop).filter fun y => decide (y.q = 0)).length = num_of_particles pop := by
  have hlen := length_stored_particles pop
  have hcls := sign_classes (stored_particles pop)
  have h1 : num_of_particles pop = (stored_particles pop).length := by
    unfold num_of_particles stored_particles
    rw [num_of_particles_loop_eq _ 0 (by norm_num), Nat.zero_add]
    exact Nat.mod_eq_of_lt (by rw [← stored_particles, hlen]; exact hfit)
  have h2 : num_of_positives pop =
      ((stored_particles pop).filter fun y => decide (y.q > 0)).length := by
    unfold num_of_positives
    rw [num_of_positives_loop_eq _ 0 (by norm_num), Nat.zero_add]
    exact Nat.mod_eq_of_lt (by rw [← stored_particles]; omega)
  have h3 : num_of_negatives pop =
      ((stored_particles pop).filter fun y => decide (y.q < 0)).length := by
    unfold num_of_negatives
    rw [num_of_negatives_loop_eq _ 0 (by norm_num), Nat.zero_add]
    exact Nat.mod_eq_of_lt (by rw [← stored_particles]; omega)
  refine ⟨by rw [h1, hlen], h2, h3, ?_⟩
  rw [h1, h2, h3]
  exact hcls

theorem particle_counters_witness :
    num_of_particles store3 = (store3.cells.map fun cell => cell.particles.length).sum ∧
    num_of_positives store3 =
      ((stored_particles store3).filter fun y => decide (y.q > 0)).length ∧
    num_of_negatives store3 =
      ((stored_particles store3).filter fun y => decide (y.q < 0)).length ∧
    num_of_positives store3 + num_of_negatives store3 +
      ((stored_particles store3).filter fun y => decide (y.q = 0)).length =
        num_of_particles store3 :=
  particle_counters store3 (by decide)


/-! ## The object potentials: claims -/

theorem potential_sum_eq (row : Nat → ℚ) :
    ∀ (objects : List Object) (j : Nat) (acc : ℚ),
      potential_sum row objects j acc =
        acc + ∑ t in Finset.range objects.length,
          row (j + t) * (objects.map fun o => o.charge).getD t 0 := by
  intro objects
  induction objects with
  | nil => intro j acc; simp [potential_sum]
  | cons o objects ih =>
    intro j acc
    rw [potential_sum, ih, List.length_cons, Finset.sum_range_succ']
    have h : ∀ t, j + 1 + t = j + (t + 1) := fun t => by omega
    simp only [h, List.map_cons, List.getD_cons_succ, List.getD_cons_zero, Nat.add_zero]
    ring

theorem set_potentials_eq (inv_capacity : Nat → Nat → ℚ) (all : List Object) :
    ∀ (objects : List Object) (i : Nat),
      (set_potentials inv_capacity all objects i).map (fun o => o.potential) =
          (List.range' i objects.length).map
            (fun i => potential_sum (inv_capacity i) all 0 0) ∧
      (set_potentials inv_capacity all objects i).map (fun o => (o.bnd_id, o.charge, o.current)) =
          objects.map (fun o => (o.bnd_id, o.charge, o.current)) := by
  intro objects
  induction objects with
  | nil => intro i; simp [set_potentials]
  | cons o objects ih =>
    intro i
    obtain ⟨h1, h2⟩ := ih (i + 1)
    rw [set_potentials, List.map_cons, List.map_cons, h1, h2, List.length_cons,
      List.range'_succ]
    simp

/-- C19: the object potential update gives, for `N` objects with inverse-capacitance matrix
`C^-1` and charges `q`, the potentials `potential_i = sum_j C^-1[i][j] * q_j` for every `i`,
and leaves ids, charges and currents as they are; for the matrix `[[1,0],[0,1]]` and the
charges (5, 0) the potentials are (5, 0). -/
theorem object_potentials_are_matrix_product (objects : List Object)
    (inv_capacity : Nat → Nat → ℚ) :
    (compute_object_potentials objects inv_capacity).map (fun o => o.potential) =
      (List.range objects.length).map (fun i =>
        ∑ j in Finset.range objects.length,
          inv_capacity i j * (objects.map fun o => o.charge).getD j 0) ∧
    (compute_object_potentials objects inv_capacity).map
        (fun o => (o.bnd_id, o.charge, o.current)) =
      objects.map (fun o => (o.bnd_id, o.charge, o.current)) ∧
    (∀ a b : Object,
      (compute_object_potentials [{ a with charge := 5 }, { b with charge := 0 }]
        (matrix_of_rows [[1, 0], [0, 1]])).map (fun o => o.potential) = [5, 0]) := by
  obtain ⟨h1, h2⟩ := set_potentials_eq inv_capacity objects objects 0
  have hsum : ∀ i, potential_sum (inv_capacity i) objects 0 0 =
      ∑ j in Finset.range objects.length,
        inv_capacity i j * (objects.map fun o => o.charge).getD j 0 := by
    intro i
    rw [potential_sum_eq, zero_add]
    exact Finset.sum_congr rfl (fun j _ => by rw [Nat.zero_add])
  refine ⟨?_, h2, ?_⟩
  · unfold compute_object_potentials
    rw [h1, List.range_eq_range']
    exact List.map_congr_left (fun i _ => hsum i)
  · intro a b
    simp [compute_object_potentials, set_potentials, potential_sum, matrix_of_rows]


/-! ## The neighbour lists: claims -/

theorem push_other_ids_eq (cell_id : Nat) :
    ∀ (cs : List Nat) (acc : List Nat),
      push_other_ids cell_id cs acc = acc ++ cs.filter fun c => decide (cell_id ≠ c) := by
  intro cs
  induction cs with
  | nil => intro acc; simp [push_other_ids]
  | cons c cs ih =>
    intro acc
    by_cases h : cell_id = c
    · rw [push_other_ids, if_neg (by simp [h]), ih, List.filter_cons, if_neg (by simp [h])]
    · rw [push_other_ids, if_pos h, ih, List.filter_cons, if_pos (by simp [h])]
      simp

theorem collect_neighbors_eq (cell_id : Nat) :
    ∀ (vcs : List (List Nat)) (acc : List Nat),
      collect_neighbors cell_id vcs acc =
        acc ++ vcs.flatMap fun vc => vc.filter fun c => decide (cell_id ≠ c) := by
  intro vcs
  induction vcs with
  | nil => intro acc; simp [collect_neighbors]
  | cons vc vcs ih =>
    intro acc
    rw [collect_neighbors, ih, push_other_ids_eq, List.flatMap_cons, List.append_assoc]

theorem mem_collect_neighbors (cell_id : Nat) (vcs : List (List Nat)) (d : Nat) :
    d ∈ collect_neighbors cell_id vcs [] ↔ d ≠ cell_id ∧ ∃ vc, vc ∈ vcs ∧ d ∈ vc := by
  rw [collect_neighbors_eq, List.nil_append, List.mem_flatMap]
  constructor
  · rintro ⟨vc, hvc, hd⟩
    rw [List.mem_filter] at hd
    exact ⟨fun e => of_decide_eq_true hd.2 e.symm, vc, hvc, hd.1⟩
  · rintro ⟨hne, vc, hvc, hd⟩
    exact ⟨vc, hvc, List.mem_filter.2 ⟨hd, decide_eq_true (fun e => hne e.symm)⟩⟩

theorem mem_unique_from (d : Nat) :
    ∀ (l : List Nat) (a : Nat), d ∈ a :: unique_from a l ↔ d ∈ a :: l := by
  intro l
  induction l with
  | nil => intro a; simp [unique_from]
  | cons b l ih =>
    intro a
    rw [unique_from]
    by_cases hab : a = b
    · rw [if_pos hab, ih a, ← hab]
      simp
    · rw [if_neg hab]
      have h := ih b
      simp only [List.mem_cons] at h ⊢
      rw [h]

theorem mem_std_unique (d : Nat) (l : List Nat) : d ∈ std_unique l ↔ d ∈ l := by
  cases l with
  | nil => simp [std_unique]
  | cons a l => rw [std_unique]; exact mem_unique_from d l a

/-- Behind `std::unique` a sorted list is strictly increasing. -/
theorem unique_from_increasing :
    ∀ (l : List Nat) (a : Nat), (a :: l).Sorted (· ≤ ·) →
      (a :: unique_from a l).Pairwise (· < ·) := by
  intro l
  induction l with
  | nil => intro a _; simp [unique_from]
  | cons b l ih =>
    intro a hs
    obtain ⟨ha, hbl⟩ := List.pairwise_cons.1 hs
    obtain ⟨hb, hl⟩ := List.pairwise_cons.1 hbl
    have hab : a ≤ b := ha b (by simp)
    rw [unique_from]
    by_cases he : a = b
    · rw [if_pos he]
      exact ih a (List.pairwise_cons.2 ⟨fun x hx => ha x (List.mem_cons_of_mem _ hx), hl⟩)
    · rw [if_neg he]
      refine List.Pairwise.cons (fun x hx => ?_) (ih b hbl)
      have hx2 : x ∈ b :: l := (mem_unique_from x l b).1 hx
      have hbx : b ≤ x := by
        rcases List.mem_cons.1 hx2 with h | h
        · rw [h]
        · exact hb x h
      omega

theorem std_unique_increasing (l : List Nat) (hs : l.Sorted (· ≤ ·)) :
    (std_unique l).Pairwise (· < ·) := by
  cases l with
  | nil => simp [std_unique]
  | cons a l => rw [std_unique]; exact unique_from_increasing l a hs

theorem build_neighbors_spec (cell_id : Nat) (vcs : List (List Nat)) :
    (∀ d, d ∈ build_neighbors cell_id vcs ↔ d ≠ cell_id ∧ ∃ vc, vc ∈ vcs ∧ d ∈ vc) ∧
    (build_neighbors cell_id vcs).Pairwise (· < ·) := by
  refine ⟨fun d => ?_, ?_⟩
  · unfold build_neighbors
    rw [mem_std_unique, List.mem_insertionSort, mem_collect_neighbors]
  · exact std_unique_increasing _ (List.sorted_insertionSort (· ≤ ·) _)

theorem construct_cells_eq (vertex_cells : Nat → List (List Nat)) :
    ∀ (n k : Nat) (cells : List Cell),
      construct_cells vertex_cells n k cells =
        cells ++ (List.range' k n).map fun cell_id =>
          { id := cell_id, neighbors := build_neighbors cell_id (vertex_cells cell_id),
            facet_adjacents := [], facet_plane_coeffs := [], particles := [] } := by
  intro n
  induction n with
  | zero => intro k cells; simp [construct_cells]
  | succ n ih =>
    intro k cells
    rw [construct_cells, ih, List.range'_succ]
    simp

/-- C20: the constructor completes, and for every cell the neighbour list it builds contains
exactly the ids of the other cells around the vertices of the cell: it never contains the
cell's own id, it is strictly increasing and hence contains no id twice. -/
theorem constructor_neighbors (g_dim num_cells : Nat) (vertex_cells : Nat → List (List Nat))
    (mesh : Nat → List FacetView) :
    ∃ pop, construct g_dim num_cells vertex_cells mesh = .ok pop ∧
      pop.cells.length = num_cells ∧
      ∀ (k : Nat) (cell : Cell), pop.cells[k]? = some cell →
        cell.id = k ∧
        (∀ d, d ∈ cell.neighbors ↔ d ≠ k ∧ ∃ vc, vc ∈ vertex_cells k ∧ d ∈ vc) ∧
        k ∉ cell.neighbors ∧ cell.neighbors.Pairwise (· < ·) ∧ cell.neighbors.Nodup := by
  have hcells := construct_cells_eq vertex_cells num_cells 0 []
  rw [List.nil_append] at hcells
  have hget : ∀ (k : Nat) (c : Cell),
      (construct_cells vertex_cells num_cells 0 [])[k]? = some c →
        k < num_cells ∧ c.id = k ∧ c.neighbors = build_neighbors k (vertex_cells k) := by
    intro k c hc
    rw [hcells, List.getElem?_map] at hc
    by_cases hk : k < num_cells
    · rw [List.getElem?_range' 0 1 hk] at hc
      simp only [Option.map_some', Option.some.injEq] at hc
      rw [← hc]
      simp [hk]
    · rw [List.getElem?_eq_none (by simp; omega)] at hc
      cases hc
  have hid : ids_are_positions (construct_cells vertex_cells num_cells 0 []) :=
    fun k c hc => (hget k c hc).2.1
  refine ⟨_, init_localizer_eq _ mesh hid, ?_, ?_⟩
  · simp [hcells]
  · intro k cell hc
    simp only [List.getElem?_map, Option.map_eq_some'] at hc
    obtain ⟨c, hc0, rfl⟩ := hc
    obtain ⟨-, hck, hcn⟩ := hget k c hc0
    obtain ⟨-, -, h3, h4, -⟩ := localized_tables mesh g_dim c
    obtain ⟨hmem, hinc⟩ := build_neighbors_spec k (vertex_cells k)
    rw [h3, h4, hck, hcn]
    refine ⟨rfl, hmem, fun hk => ((hmem k).1 hk).1 rfl, hinc, ?_⟩
    exact hinc.imp (fun h => Nat.ne_of_lt h)


/-! ## The fast walk: which facet it crosses -/

/-- Where the facet loop of `relocate_fast` finds nothing, no evaluated plane value is strictly
positive. -/
theorem first_positive_none_values (g_dim : Nat) (coeffs p : List ℚ) :
    ∀ (n i : Nat), first_positive g_dim coeffs p n i = .ok none →
      ∀ j v, i ≤ j → j < i + n → facet_proj g_dim coeffs p j = .ok v → v ≤ 0 := by
  intro n
  induction n with
  | zero => intro i _ j v h1 h2; omega
  | succ n ih =>
    intro i h j v h1 h2 hv
    rw [first_positive] at h
    cases hi : facet_proj g_dim coeffs p i with
    | error e => rw [hi] at h; cases h
    | ok proj =>
      rw [hi] at h
      simp only at h
      by_cases hpos : proj > 0
      · rw [if_pos hpos] at h; cases h
      · rw [if_neg hpos] at h
        rcases Nat.eq_or_lt_of_le h1 with heq | hlt
        · subst heq
          rw [hi] at hv
          cases hv
          exact not_lt.1 hpos
        · exact ih (i + 1) h j v (by omega) (by omega) hv

/-- A call of `relocate_fast` that returns its start cell found no positive plane value. -/
theorem relocate_fast_returns_start (pop : Population) (p : List ℚ) (c : Int) (cell : Cell)
    (hcell : cellAt pop c = .ok cell) (fuel : Nat) (h : relocate_fast pop p fuel c = .ok c) :
    first_positive pop.g_dim cell.facet_plane_coeffs p (pop.g_dim + 1) 0 = .ok none := by
  have hc0 : 0 ≤ c := ((cellAt_ok_iff pop c cell).1 hcell).1
  have h1 := relocate_fast_fixed pop p c hc0 fuel c h
  rw [relocate_fast, hcell] at h1
  simp only at h1
  cases hfp : first_positive pop.g_dim cell.facet_plane_coeffs p (pop.g_dim + 1) 0 with
  | error e => rw [hfp] at h1; cases h1
  | ok o =>
    rw [hfp] at h1
    cases o with
    | none => rfl
    | some i =>
      simp only at h1
      cases hadj : rd cell.facet_adjacents i with
      | error e => rw [hadj] at h1; cases h1
      | ok a =>
        rw [hadj] at h1
        simp only at h1
        by_cases ha : a ≥ 0
        · simp only [ha, if_true, relocate_fast] at h1
          cases h1
        · simp only [ha, if_false, Res.ok.injEq] at h1
          omega

/-- C21: for every point `p` and in-range cell `c`, `relocate_fast(p, c)` returns `c` exactly
when no facet plane value of `c` at `p` is strictly positive; otherwise it crosses the
lowest-indexed facet `istar` whose plane value is strictly positive, returning
`relocate_fast(p, a)` when the adjacency entry `a` of that facet is `>= 0` and `a` itself when
`a` is negative; only the plane values of the facets up to `istar` are evaluated. -/
theorem relocate_fast_crosses_first_positive (pop : Population) (p : List ℚ) (c : Int)
    (cell : Cell) (val : Nat → ℚ) (hcell : cellAt pop c = .ok cell) :
    ((∀ j, j ≤ pop.g_dim → facet_proj pop.g_dim cell.facet_plane_coeffs p j = .ok (val j)) →
      ((∀ j, j ≤ pop.g_dim → val j ≤ 0) → ∀ fuel, relocate_fast pop p (fuel + 1) c = .ok c) ∧
      (∀ fuel, relocate_fast pop p fuel c = .ok c → ∀ j, j ≤ pop.g_dim → val j ≤ 0)) ∧
    (∀ (istar : Nat) (a : Int), istar ≤ pop.g_dim →
      (∀ j, j ≤ istar → facet_proj pop.g_dim cell.facet_plane_coeffs p j = .ok (val j)) →
      0 < val istar → (∀ j, j < istar → val j ≤ 0) →
      rd cell.facet_adjacents istar = .ok a →
      ∀ fuel, (a ≥ 0 → relocate_fast pop p (fuel + 1) c = relocate_fast pop p fuel a) ∧
        (a < 0 → relocate_fast pop p (fuel + 1) c = .ok a)) := by
  refine ⟨fun hval => ⟨fun hle fuel => ?_, fun fuel h j hj => ?_⟩, ?_⟩
  · have hnone := first_positive_none pop.g_dim cell.facet_plane_coeffs p val (pop.g_dim + 1) 0
      (fun j _ hj => hval j (by omega)) (fun j _ hj => hle j (by omega))
    simp only [relocate_fast, hcell, hnone]
  · have hnone := relocate_fast_returns_start pop p c cell hcell fuel h
    exact first_positive_none_values pop.g_dim cell.facet_plane_coeffs p (pop.g_dim + 1) 0 hnone
      j (val j) (Nat.zero_le j) (by omega) (hval j hj)
  · intro istar a histar hval hpos hbefore hadj fuel
    have hsome := first_positive_some pop.g_dim cell.facet_plane_coeffs p val istar
      (pop.g_dim + 1) 0 (fun j _ hj => hval j hj) (Nat.zero_le _) (by omega) hpos
      (fun j _ hj => hbefore j hj)
    refine ⟨fun ha => ?_, fun ha => ?_⟩
    · simp only [relocate_fast, hcell, hsome, hadj, ha, if_true]
    · have hna : ¬ a ≥ 0 := by omega
      simp only [relocate_fast, hcell, hsome, hadj, hna, if_false]

theorem relocate_fast_crosses_first_positive_witness :
    ((∀ j, j ≤ pop2.g_dim →
        facet_proj pop2.g_dim [0, 0, -1, 0, 1, 0, -12/5, -4/5, 3/5] [6, -1] j =
          .ok (if j = 0 then 1 else if j = 1 then 6 else -39/5)) →
      ((∀ j, j ≤ pop2.g_dim → (if j = 0 then (1 : ℚ) else if j = 1 then 6 else -39/5) ≤ 0) →
        ∀ fuel, relocate_fast pop2 [6, -1] (fuel + 1) 0 = .ok 0) ∧
      (∀ fuel, relocate_fast pop2 [6, -1] fuel 0 = .ok 0 →
        ∀ j, j ≤ pop2.g_dim → (if j = 0 then (1 : ℚ) else if j = 1 then 6 else -39/5) ≤ 0)) ∧
    (∀ (istar : Nat) (a : Int), istar ≤ pop2.g_dim →
      (∀ j, j ≤ istar →
        facet_proj pop2.g_dim [0, 0, -1, 0, 1, 0, -12/5, -4/5, 3/5] [6, -1] j =
          .ok (if j = 0 then 1 else if j = 1 then 6 else -39/5)) →
      0 < (if istar = 0 then (1 : ℚ) else if istar = 1 then 6 else -39/5) →
      (∀ j, j < istar → (if j = 0 then (1 : ℚ) else if j = 1 then 6 else -39/5) ≤ 0) →
      rd [(-1 : Int), 1, -1] istar = .ok a →
      ∀ fuel, (a ≥ 0 → relocate_fast pop2 [6, -1] (fuel + 1) 0 = relocate_fast pop2 [6, -1] fuel a) ∧
        (a < 0 → relocate_fast pop2 [6, -1] (fuel + 1) 0 = .ok a)) :=
  relocate_fast_crosses_first_positive pop2 [6, -1] 0
    { id := 0, neighbors := [1], facet_adjacents := [-1, 1, -1],
      facet_plane_coeffs := [0, 0, -1, 0, 1, 0, -12/5, -4/5, 3/5], particles := [] }
    (fun j => if j = 0 then 1 else if j = 1 then 6 else -39/5) (by decide!)


/-! ## The cell the exact walk returns -/

/-- A hop that returns a cell found every plane value of that cell strictly negative. -/
theorem relocate_hop_stay_values (pop : Population) (p : List ℚ) (c v : Int)
    (h : relocate_hop pop p c = .ok (v, false)) (hv : 0 ≤ v) :
    ∃ cell, cellAt pop c = .ok cell ∧
      ∀ j, j ≤ pop.g_dim →
        ∃ x, facet_proj pop.g_dim cell.facet_plane_coeffs p j = .ok x ∧ x < 0 := by
  unfold relocate_hop at h
  cases hcell : cellAt pop c with
  | error e => rw [hcell] at h; cases h
  | ok cell =>
    rw [hcell] at h
    simp only at h
    refine ⟨cell, rfl, ?_⟩
    by_cases hdim : 4 < pop.g_dim + 1
    · simp only [hdim, if_true] at h
      cases h
    · simp only [hdim, if_false] at h
      cases hfill : fill_proj pop.g_dim cell.facet_plane_coeffs p (pop.g_dim + 1) 0 with
      | error e => rw [hfill] at h; cases h
      | ok L =>
        rw [hfill] at h
        cases L with
        | nil => cases h
        | cons proj0 rest =>
          simp only at h
          obtain ⟨-, hget⟩ := fill_proj_inv pop.g_dim cell.facet_plane_coeffs p (pop.g_dim + 1) 0
            (proj0 :: rest) hfill
          obtain ⟨-, hmax, -⟩ := argmax_loop_spec proj0 rest
          by_cases hneg : (argmax_loop rest 1 (proj0, 0)).1 < 0
          · intro j hj
            obtain ⟨x, hx, hproj⟩ := hget j (by omega)
            rw [Nat.zero_add] at hproj
            exact ⟨x, hproj, lt_of_le_of_lt (hmax j x hx) hneg⟩
          · simp only [hneg, if_false] at h
            cases hadj : rd cell.facet_adjacents (argmax_loop rest 1 (proj0, 0)).2 with
            | error e => rw [hadj] at h; cases h
            | ok a =>
              rw [hadj] at h
              simp only [Res.ok.injEq, Prod.mk.injEq] at h
              obtain ⟨hav, hb⟩ := h
              have := of_decide_eq_false hb
              omega

/-- C22: the cell returned by `relocate` is a fixed point: for every point `p` and start cell
`c`, if `relocate(p, c)` returns a value `d >= 0` then `d` is a cell of the table, every facet
plane value of cell `d` at `p` is strictly negative and `relocate(p, d)` returns `d`. -/
theorem relocate_result_is_fixed_point (pop : Population) (p : List ℚ) (c d : Int) (fuel : Nat)
    (h : relocate pop p fuel c = .ok d) (hd : 0 ≤ d) :
    (∃ cell, cellAt pop d = .ok cell ∧
      ∀ j, j ≤ pop.g_dim →
        ∃ x, facet_proj pop.g_dim cell.facet_plane_coeffs p j = .ok x ∧ x < 0) ∧
    ∀ fuel', relocate pop p (fuel' + 1) d = .ok d := by
  obtain ⟨e, he⟩ := relocate_last_hop pop p d fuel c h
  have hde : d = e := relocate_hop_stay pop p e d he hd
  rw [← hde] at he
  refine ⟨relocate_hop_stay_values pop p d d he hd, fun fuel' => ?_⟩
  rw [relocate_succ, he]

theorem relocate_result_is_fixed_point_witness :
    (∃ cell, cellAt pop2 1 = .ok cell ∧
      ∀ j, j ≤ pop2.g_dim →
        ∃ x, facet_proj pop2.g_dim cell.facet_plane_coeffs [1, 1] j = .ok x ∧ x < 0) ∧
    ∀ fuel', relocate pop2 [1, 1] (fuel' + 1) 1 = .ok 1 :=
  relocate_result_is_fixed_point pop2 [1, 1] 0 1 2 (by decide!) (by decide)


/-! ## The exact walk with a hop counter: claims -/

theorem to_int_of_fits (z : Int) (h1 : -(2 : Int) ^ 31 ≤ z) (h2 : z < 2 ^ 31) : to_int z = z := by
  unfold to_int
  norm_num at h1 h2 ⊢
  omega

/-- A call of `relocate_stat` is one hop of `relocate`, a count of the crossing, and the nested
call when the hop says so. -/
theorem relocate_stat_succ (pop : Population) (p : List ℚ) (fuel : Nat) (c k : Int) :
    relocate_stat pop p (fuel + 1) c k =
      match relocate_hop pop p c with
      | .error e => .error e
      | .ok (v, true) => relocate_stat pop p fuel v (to_int (k + 1))
      | .ok (v, false) => .ok (v, if v < 0 then to_int (k + 1) else k) := by
  rw [relocate_stat]
  unfold relocate_hop
  cases hcell : cellAt pop c with
  | error e => rfl
  | ok cell =>
    have hc0 : ¬ c < 0 := not_lt.2 ((cellAt_ok_iff pop c cell).1 hcell).1
    simp only
    by_cases hdim : 4 < pop.g_dim + 1
    · simp only [hdim, if_true]
    · simp only [hdim, if_false]
      cases fill_proj pop.g_dim cell.facet_plane_coeffs p (pop.g_dim + 1) 0 with
      | error e => rfl
      | ok L =>
        cases L with
        | nil => rfl
        | cons proj0 rest =>
          simp only
          by_cases hneg : (argmax_loop rest 1 (proj0, 0)).1 < 0
          · simp only [hneg, if_true, hc0, if_false]
          · simp only [hneg, if_false]
            cases rd cell.facet_adjacents (argmax_loop rest 1 (proj0, 0)).2 with
            | error e => rfl
            | ok a =>
              simp only
              by_cases ha : a ≥ 0
              · simp only [ha, if_true, decide_True]
              · have ha2 : a < 0 := by omega
                simp only [ha, if_false, decide_False, ha2, if_true]

theorem relocate_stat_counts (pop : Population) (p : List ℚ) (r : Int) :
    ∀ (fuel : Nat) (c k : Int), relocate pop p fuel c = .ok r → -(2 : Int) ^ 31 ≤ k →
      k + (facets_crossed pop p fuel c : Int) < 2 ^ 31 →
      relocate_stat pop p fuel c k = .ok (r, k + (facets_crossed pop p fuel c : Int)) := by
  intro fuel
  induction fuel with
  | zero => intro c k h; simp [relocate] at h
  | succ fuel ih =>
    intro c k h hk hfit
    rw [relocate_succ] at h
    rw [relocate_stat_succ]
    rw [facets_crossed] at hfit ⊢
    cases hhop : relocate_hop pop p c with
    | error e => rw [hhop] at h; cases h
    | ok vb =>
      obtain ⟨v, b⟩ := vb
      rw [hhop] at h
      simp only [hhop] at hfit ⊢
      cases b with
      | true =>
        simp only at h hfit ⊢
        have hk1 : to_int (k + 1) = k + 1 :=
          to_int_of_fits _ (by omega) (by push_cast at hfit; omega)
        rw [hk1, ih v (k + 1) h (by omega) (by push_cast at hfit ⊢; omega)]
        push_cast
        rw [show k + 1 + (facets_crossed pop p fuel v : Int) =
          k + (1 + (facets_crossed pop p fuel v : Int)) by ring]
      | false =>
        simp only [Res.ok.injEq] at h
        subst h
        simp only at hfit ⊢
        by_cases hv : v < 0
        · simp only [hv, if_true, Nat.cast_one] at hfit ⊢
          rw [to_int_of_fits _ (by omega) hfit]
        · simp only [hv, if_false, Nat.cast_zero, add_zero]

/-- C23: `relocate_stat` is `relocate` with a hop counter: for every point `p`, start cell `c`
and initial counter `k` on which the walk ends (within the range of the `int` counter),
`relocate_stat(p, c, crossings)` returns the value `relocate(p, c)` returns and leaves
`crossings = k +` the number of facets crossed on the walk, the final crossing into a boundary
included. -/
theorem relocate_stat_is_relocate_with_counter (pop : Population) (p : List ℚ) (fuel : Nat)
    (c k r : Int) (h : relocate pop p fuel c = .ok r) (hk : -(2 : Int) ^ 31 ≤ k)
    (hfit : k + (facets_crossed pop p fuel c : Int) < 2 ^ 31) :
    relocate_stat pop p fuel c k = .ok (r, k + (facets_crossed pop p fuel c : Int)) :=
  relocate_stat_counts pop p r fuel c k h hk hfit

theorem relocate_stat_is_relocate_with_counter_witness :
    relocate_stat pop2 [6, -1] 2 0 5 = .ok (1, 5 + (facets_crossed pop2 [6, -1] 2 0 : Int)) :=
  relocate_stat_is_relocate_with_counter pop2 [6, -1] 2 0 5 1 (by decide!) (by decide)
    (by decide!)


/-! ## Array accesses of the walks -/

/-- The facet loop of `relocate_fast` reads no coefficient out of range when every plane value
can be evaluated, and the facet it reports is one of the facets it was asked to scan. -/
theorem first_positive_total (g_dim : Nat) (coeffs p : List ℚ) :
    ∀ (n i : Nat), (∀ j, i ≤ j → j < i + n → ∃ v, facet_proj g_dim coeffs p j = .ok v) →
      ∃ o, first_positive g_dim coeffs p n i = .ok o ∧ ∀ k, o = some k → i ≤ k ∧ k < i + n := by
  intro n
  induction n with
  | zero => intro i _; exact ⟨none, rfl, fun k hk => by cases hk⟩
  | succ n ih =>
    intro i hval
    obtain ⟨v, hv⟩ := hval i (le_refl i) (by omega)
    rw [first_positive, hv]
    simp only
    by_cases hpos : v > 0
    · rw [if_pos hpos]
      refine ⟨some i, rfl, fun k hk => ?_⟩
      cases hk
      omega
    · rw [if_neg hpos]
      obtain ⟨o, ho, hk⟩ := ih (i + 1) (fun j h1 h2 => hval j (by omega) (by omega))
      exact ⟨o, ho, fun k hko => by have := hk k hko; omega⟩

/-- Under the size conditions of the tables, one call of `relocate` from an in-range cell reads
nothing out of range and passes on an in-range cell. -/
theorem relocate_hop_in_range (pop : Population) (p : List ℚ) (c : Int)
    (hdim : pop.g_dim ≤ 3) (hc0 : 0 ≤ c) (hc : c < (pop.cells.length : Int))
    (htab : ∀ cell, cell ∈ pop.cells →
      cell.facet_adjacents.length = pop.g_dim + 1 ∧
      cell.facet_plane_coeffs.length = (pop.g_dim + 1) ^ 2 ∧
      ∀ a, a ∈ cell.facet_adjacents → 0 ≤ a → a < (pop.cells.length : Int))
    (hp : pop.g_dim ≤ p.length) :
    ∃ v b, relocate_hop pop p c = .ok (v, b) ∧
      (b = true → 0 ≤ v ∧ v < (pop.cells.length : Int)) := by
  have hlt : c.toNat < pop.cells.length := by omega
  have hcell : cellAt pop c = .ok pop.cells[c.toNat] :=
    (cellAt_ok_iff pop c _).2 ⟨hc0, List.getElem?_eq_getElem hlt⟩
  obtain ⟨hadjlen, hcolen, hadj⟩ := htab _ (List.getElem_mem hlt)
  have hval : ∀ j, j ≤ pop.g_dim →
      facet_proj pop.g_dim (pop.cells[c.toNat]).facet_plane_coeffs p j =
        .ok ((pop.cells[c.toNat]).facet_plane_coeffs.getD (j * (pop.g_dim + 1)) 0 +
          ∑ t in Finset.range pop.g_dim,
            (pop.cells[c.toNat]).facet_plane_coeffs.getD (j * (pop.g_dim + 1) + 1 + t) 0 *
              p.getD t 0) := by
    intro j hj
    apply facet_proj_eq _ _ _ _ _ hp
    rw [hcolen, pow_two]
    exact Nat.mul_le_mul_right _ (by omega)
  have hfill := fill_proj_val pop.g_dim _ p _ hval
  unfold relocate_hop
  rw [hcell]
  simp only
  rw [if_neg (by omega), hfill]
  simp only
  obtain ⟨hget, -, -⟩ := argmax_loop_spec
    ((pop.cells[c.toNat]).facet_plane_coeffs.getD (0 * (pop.g_dim + 1)) 0 +
      ∑ t in Finset.range pop.g_dim,
        (pop.cells[c.toNat]).facet_plane_coeffs.getD (0 * (pop.g_dim + 1) + 1 + t) 0 *
          p.getD t 0)
    ((List.range' 1 pop.g_dim).map fun j =>
      (pop.cells[c.toNat]).facet_plane_coeffs.getD (j * (pop.g_dim + 1)) 0 +
        ∑ t in Finset.range pop.g_dim,
          (pop.cells[c.toNat]).facet_plane_coeffs.getD (j * (pop.g_dim + 1) + 1 + t) 0 *
            p.getD t 0)
  have hidx := (proj_buffer_get pop.g_dim _ _ _ hget).1
  revert hidx
  generalize argmax_loop _ 1 _ = am
  obtain ⟨mx, ix⟩ := am
  intro hidx
  simp only at hidx ⊢
  by_cases hneg : mx < 0
  · rw [if_pos hneg]
    exact ⟨_, _, rfl, fun hb => (by cases hb)⟩
  · rw [if_neg hneg]
    have hix : ix < (pop.cells[c.toNat]).facet_adjacents.length := by rw [hadjlen]; omega
    rw [(rd_eq_ok _ _ _).2 (List.getElem?_eq_getElem hix)]
    simp only
    refine ⟨_, _, rfl, fun hb => ?_⟩
    have hnonneg := of_decide_eq_true hb
    exact ⟨hnonneg, hadj _ (List.getElem_mem hix) hnonneg⟩


theorem relocate_in_range (pop : Population) (p : List ℚ)
    (hdim : pop.g_dim ≤ 3)
    (htab : ∀ cell, cell ∈ pop.cells →
      cell.facet_adjacents.length = pop.g_dim + 1 ∧
      cell.facet_plane_coeffs.length = (pop.g_dim + 1) ^ 2 ∧
      ∀ a, a ∈ cell.facet_adjacents → 0 ≤ a → a < (pop.cells.length : Int))
    (hp : pop.g_dim ≤ p.length) :
    ∀ (fuel : Nat) (c : Int), 0 ≤ c → c < (pop.cells.length : Int) →
      relocate pop p fuel c ≠ .error .outOfRange := by
  intro fuel
  induction fuel with
  | zero => intro c _ _ h; simp [relocate] at h
  | succ fuel ih =>
    intro c hc0 hc
    obtain ⟨v, b, hhop, hv⟩ := relocate_hop_in_range pop p c hdim hc0 hc htab hp
    rw [relocate_succ, hhop]
    cases b with
    | true => exact ih v (hv rfl).1 (hv rfl).2
    | false => intro h; cases h

theorem relocate_fast_in_table (pop : Population) (p : List ℚ)
    (htab : ∀ cell, cell ∈ pop.cells →
      cell.facet_adjacents.length = pop.g_dim + 1 ∧
      cell.facet_plane_coeffs.length = (pop.g_dim + 1) ^ 2 ∧
      ∀ a, a ∈ cell.facet_adjacents → 0 ≤ a → a < (pop.cells.length : Int))
    (hp : pop.g_dim ≤ p.length) :
    ∀ (fuel : Nat) (c : Int), 0 ≤ c → c < (pop.cells.length : Int) →
      relocate_fast pop p fuel c ≠ .error .outOfRange := by
  intro fuel
  induction fuel with
  | zero => intro c _ _ h; simp [relocate_fast] at h
  | succ fuel ih =>
    intro c hc0 hc
    have hlt : c.toNat < pop.cells.length := by omega
    have hcell : cellAt pop c = .ok pop.cells[c.toNat] :=
      (cellAt_ok_iff pop c _).2 ⟨hc0, List.getElem?_eq_getElem hlt⟩
    obtain ⟨hadjlen, hcolen, hadj⟩ := htab _ (List.getElem_mem hlt)
    obtain ⟨o, ho, hk⟩ := first_positive_total pop.g_dim
      (pop.cells[c.toNat]).facet_plane_coeffs p (pop.g_dim + 1) 0
      (fun j _ hj => ⟨_, facet_proj_eq _ _ _ j (by
        rw [hcolen, pow_two]
        exact Nat.mul_le_mul_right _ (by omega)) hp⟩)
    rw [relocate_fast, hcell]
    simp only
    rw [ho]
    cases o with
    | none => intro h; cases h
    | some i =>
      simp only
      have hi : i < (pop.cells[c.toNat]).facet_adjacents.length := by
        rw [hadjlen]
        have := (hk i rfl).2
        omega
      rw [(rd_eq_ok _ _ _).2 (List.getElem?_eq_getElem hi)]
      simp only
      by_cases ha : (pop.cells[c.toNat]).facet_adjacents[i] ≥ 0
      · rw [if_pos ha]
        exact ih _ ha (hadj _ (List.getElem_mem hi) ha)
      · rw [if_neg ha]
        intro h; cases h

/-- C24: under the precondition that `g_dim <= 3`, `0 <= c < num_cells`, every cell has
`g_dim + 1` adjacency entries and `(g_dim + 1)^2` plane coefficients, and every non-negative
adjacency entry is below `num_cells` (for a point with `g_dim` coordinates), every array access
performed by `relocate` and `relocate_fast` along the whole walk (cells, `facet_plane_coeffs`,
`facet_adjacents` and the 4-slot `proj` buffer) is in range, whatever depth `fuel` the walk
reaches. -/
theorem walks_access_in_range (pop : Population) (p : List ℚ) (c : Int)
    (hdim : pop.g_dim ≤ 3) (hnum : pop.num_cells = pop.cells.length)
    (hc0 : 0 ≤ c) (hc : c < (pop.num_cells : Int))
    (htab : ∀ cell, cell ∈ pop.cells →
      cell.facet_adjacents.length = pop.g_dim + 1 ∧
      cell.facet_plane_coeffs.length = (pop.g_dim + 1) ^ 2 ∧
      ∀ a, a ∈ cell.facet_adjacents → 0 ≤ a → a < (pop.num_cells : Int))
    (hp : pop.g_dim ≤ p.length) (fuel : Nat) :
    relocate pop p fuel c ≠ .error .outOfRange ∧
      relocate_fast pop p fuel c ≠ .error .outOfRange := by
  rw [hnum] at hc htab
  exact ⟨relocate_in_range pop p hdim htab hp fuel c hc0 hc,
    relocate_fast_in_table pop p htab hp fuel c hc0 hc⟩

theorem pop2_tables_fit (cell : Cell) (h : cell ∈ pop2.cells) :
    cell.facet_adjacents.length = pop2.g_dim + 1 ∧
    cell.facet_plane_coeffs.length = (pop2.g_dim + 1) ^ 2 ∧
    ∀ a, a ∈ cell.facet_adjacents → 0 ≤ a → a < (pop2.num_cells : Int) := by
  simp only [pop2, List.mem_cons, List.mem_singleton, List.not_mem_nil, or_false] at h
  rcases h with rfl | rfl
  · refine ⟨rfl, rfl, fun a ha h0 => ?_⟩
    simp only [List.mem_cons, List.mem_singleton, List.not_mem_nil, or_false] at ha
    rcases ha with rfl | rfl | rfl <;> simp [pop2] at h0 ⊢
  · refine ⟨rfl, rfl, fun a ha h0 => ?_⟩
    simp only [List.mem_cons, List.mem_singleton, List.not_mem_nil, or_false] at ha
    rcases ha with rfl | rfl | rfl <;> simp [pop2] at h0 ⊢

theorem walks_access_in_range_witness :
    relocate pop2 [0, 1] 9 0 ≠ .error .outOfRange ∧
      relocate_fast pop2 [0, 1] 9 0 ≠ .error .outOfRange :=
  walks_access_in_range pop2 [0, 1] 0 (by decide) (by decide) (by decide) (by decide)
    pop2_tables_fit (by decide) 9


/-! ## Adding particles: claims -/

/-- C25: what `add_particles` does for a point outside the mesh.  On the one-cell interval mesh
the point 2 is outside, `locate` reports -1, the `std::size_t cell_id` holds `2^64 - 1`, the
test `cell_id >= 0` succeeds and `cells[cell_id]` is read out of range, for both overloads; the
particle is not skipped.  A point inside the mesh is stored in its cell. -/
theorem add_particles_outside_point_not_skipped :
    locate_interval [2] = -1 ∧
    to_size_t (locate_interval [2]) = 2 ^ 64 - 1 ∧
    add_particles pop1 locate_interval [2] [0] 1 1 = .error .outOfRange ∧
    add_particle_list locate_interval [{ x := [2], v := [0], q := 1, m := 1 }] pop1 =
      .error .outOfRange ∧
    add_particles pop1 locate_interval [1/2] [0] 1 1 =
      .ok (with_particles pop1 fun _ => [{ x := [1/2], v := [0], q := 1, m := 1 }]) := by
  refine ⟨by decide!, by decide!, by decide!, by decide!, by decide!⟩


/-! ## What an update pass leaves alone -/

/-- C26: `update` only moves and removes particles.  Whenever a pass returns (as it does when
the walk of every stored particle ends), the cells keep their localizer tables, every particle
in the store afterwards is, field for field, a particle that was in the store before, and every
object keeps its `potential` and `bnd_id`. -/
theorem update_only_moves_and_removes (pop : Population) (fuel : Nat) (objs : List Object)
    (dt : ℚ) (hcons : pop.num_cells = pop.cells.length) (hsmall : pop.num_cells < 2 ^ 63) :
    (walks_end pop fuel = true → ∃ res, update fuel pop objs dt = .ok res) ∧
    ∀ pop' objs', update fuel pop objs dt = .ok (pop', objs') →
      (∃ P' : Nat → List Particle, pop' = with_particles pop P') ∧
      (∀ d y, y ∈ cell_particles pop' d → ∃ c, y ∈ cell_particles pop c) ∧
      objs'.length = objs.length ∧
      ∀ (i : Nat) (o : Object), objs[i]? = some o →
        ∃ o', objs'[i]? = some o' ∧ o'.potential = o.potential ∧ o'.bnd_id = o.bnd_id := by
  constructor
  · intro hterm
    obtain ⟨P', hupd, _⟩ := update_spec pop fuel objs dt hcons hsmall
      ((walks_end_iff pop fuel).mp hterm)
    exact ⟨_, hupd⟩
  intro pop' objs' hret
  have hterm := update_ok_walks_end pop fuel objs dt _ hcons hsmall hret
  obtain ⟨P', hupd, hfin⟩ := update_spec pop fuel objs dt hcons hsmall
    ((walks_end_iff pop fuel).mp hterm)
  rw [hupd] at hret
  simp only [Res.ok.injEq, Prod.mk.injEq] at hret
  obtain ⟨hpop, hobjs⟩ := hret
  subst hpop hobjs
  refine ⟨⟨P', rfl⟩, ?_, by simp, ?_⟩
  · intro d y hy
    rcases Nat.lt_or_ge d pop.cells.length with hd | hd
    · rw [cell_particles_with_particles pop P' d hd] at hy
      obtain ⟨c, _, hc1, _⟩ := (mem_arrivals pop fuel d _ y).mp ((hfin d hd).mem_iff.mp hy)
      exact ⟨c, hc1⟩
    · rw [cell_particles_eq_nil _ d (by rw [with_particles_length]; exact hd)] at hy
      cases hy
  · intro i o hio
    refine ⟨{ o with charge := o.charge + exit_total pop fuel o.bnd_id,
                     current := exit_total pop fuel o.bnd_id / dt }, ?_, rfl, rfl⟩
    rw [List.getElem?_map, hio]
    rfl

theorem update_only_moves_and_removes_witness :
    (walks_end store2 3 = true → ∃ res, update 3 store2 objects2 2 = .ok res) ∧
    ∀ pop' objs', update 3 store2 objects2 2 = .ok (pop', objs') →
      (∃ P' : Nat → List Particle, pop' = with_particles store2 P') ∧
      (∀ d y, y ∈ cell_particles pop' d → ∃ c, y ∈ cell_particles store2 c) ∧
      objs'.length = objects2.length ∧
      ∀ (i : Nat) (o : Object), objects2[i]? = some o →
        ∃ o', objs'[i]? = some o' ∧ o'.potential = o.potential ∧ o'.bnd_id = o.bnd_id :=
  update_only_moves_and_removes store2 3 objects2 2 (by decide) (by decide)


/-! ## A second update pass -/

/-- In a store where the walk of every particle ends in the cell the particle is stored in, the
particles that reach cell `d` from the cells below `k` are the particles of `d` itself. -/
theorem arrivals_of_settled (pop : Population) (fuel : Nat) (d : Nat)
    (hstay : ∀ c y, y ∈ cell_particles pop c →
      relocate_fast pop y.x fuel (c : Int) = .ok (c : Int)) :
    ∀ k, arrivals pop fuel d k = if d < k then cell_particles pop d else [] := by
  intro k
  induction k with
  | zero => simp [arrivals]
  | succ k ih =>
    rw [arrivals_succ, ih]
    by_cases hdk : d = k
    · subst hdk
      rw [if_neg (Nat.lt_irrefl d), if_pos (Nat.lt_succ_self d), List.nil_append,
        List.filter_eq_self]
      intro y hy
      exact decide_eq_true (hstay d y hy)
    · have hnone : (cell_particles pop k).filter
          (fun y => decide (relocate_fast pop y.x fuel (k : Int) = .ok (d : Int))) = [] := by
        rw [List.filter_eq_nil_iff]
        intro y hy hdec
        have h1 := of_decide_eq_true hdec
        rw [hstay k y hy] at h1
        simp only [Res.ok.injEq, Nat.cast_inj] at h1
        exact hdk h1.symm
      rw [hnone, List.append_nil]
      by_cases hlt : d < k
      · rw [if_pos hlt, if_pos (by omega)]
      · rw [if_neg hlt, if_neg (by omega)]

/-- C27: running `update` a second time without moving any particle in between (on a store in
which every walk ends, `dt != 0`) changes nothing persistent: the second pass returns, every
cell holds the same multiset of particles and every object the same charge as after the first
pass, and every object's current is 0. -/
theorem update_twice_changes_nothing (pop : Population) (fuel : Nat) (objs : List Object)
    (dt : ℚ) (hcons : pop.num_cells = pop.cells.length) (hsmall : pop.num_cells < 2 ^ 63)
    (hdt : dt ≠ 0) :
    (walks_end pop fuel = true → ∃ res, update fuel pop objs dt = .ok res) ∧
    ∀ pop' objs', update fuel pop objs dt = .ok (pop', objs') →
      ∃ pop'' objs'', update fuel pop' objs' dt = .ok (pop'', objs'') ∧
        (∀ d, (↑(cell_particles pop'' d) : Multiset Particle) = ↑(cell_particles pop' d)) ∧
        (objs''.map fun o => o.charge) = (objs'.map fun o => o.charge) ∧
        (∀ o, o ∈ objs'' → o.current = 0) ∧
        (∀ o, o ∈ objs'' → o.current * dt = 0) := by
  constructor
  · intro hterm
    obtain ⟨P', hupd, _⟩ := update_spec pop fuel objs dt hcons hsmall
      ((walks_end_iff pop fuel).mp hterm)
    exact ⟨_, hupd⟩
  intro pop' objs' hret
  have hterm := update_ok_walks_end pop fuel objs dt _ hcons hsmall hret
  obtain ⟨P', hupd, hfin⟩ := update_spec pop fuel objs dt hcons hsmall
    ((walks_end_iff pop fuel).mp hterm)
  rw [hupd] at hret
  simp only [Res.ok.injEq, Prod.mk.injEq] at hret
  obtain ⟨hpop, hobjs⟩ := hret
  subst hpop
  have hlen : (with_particles pop P').cells.length = pop.cells.length :=
    with_particles_length pop P'
  have hstay : ∀ c y, y ∈ cell_particles (with_particles pop P') c →
      relocate_fast (with_particles pop P') y.x fuel (c : Int) = .ok (c : Int) := by
    intro c y hy
    rcases Nat.lt_or_ge c pop.cells.length with hc | hc
    · rw [cell_particles_with_particles pop P' c hc] at hy
      obtain ⟨c0, _, _, hc2⟩ := (mem_arrivals pop fuel c _ y).mp ((hfin c hc).mem_iff.mp hy)
      rw [relocate_fast_with_particles]
      exact relocate_fast_stays pop y.x fuel (c0 : Int) (c : Int) (by omega) hc2
    · rw [cell_particles_eq_nil _ c (by rw [hlen]; exact hc)] at hy
      cases hy
  obtain ⟨P'', hupd2, hfin2⟩ := update_spec (with_particles pop P') fuel objs' dt
    (by rw [with_particles_num_cells, hlen]; exact hcons)
    (by rw [with_particles_num_cells]; exact hsmall)
    (fun c y hy => ⟨_, hstay c y hy⟩)
  have hzero : ∀ b, exit_total (with_particles pop P') fuel b = 0 := by
    intro b
    apply exit_total_eq_zero
    intro c y hy
    rw [hstay c y hy]
    simp [hits]
  refine ⟨_, _, hupd2, ?_, ?_, ?_, ?_⟩
  · intro d
    rcases Nat.lt_or_ge d pop.cells.length with hd | hd
    · rw [cell_particles_with_particles _ P'' d (by rw [hlen]; exact hd)]
      have h := hfin2 d (by rw [hlen]; exact hd)
      rw [arrivals_of_settled _ fuel d hstay, if_pos (by rw [hlen]; exact hd)] at h
      exact Multiset.coe_eq_coe.mpr h
    · rw [cell_particles_eq_nil _ d (by rw [with_particles_length, hlen]; exact hd),
        cell_particles_eq_nil _ d (by rw [hlen]; exact hd)]
  · rw [List.map_map]
    apply List.map_congr_left
    intro o _
    simp [hzero]
  · intro o ho
    obtain ⟨o0, _, rfl⟩ := List.mem_map.mp ho
    simp [hzero]
  · intro o ho
    obtain ⟨o0, _, rfl⟩ := List.mem_map.mp ho
    have := hdt
    simp [hzero]

theorem update_twice_changes_nothing_witness :
    (walks_end store2 3 = true → ∃ res, update 3 store2 objects2 2 = .ok res) ∧
    ∀ pop' objs', update 3 store2 objects2 2 = .ok (pop', objs') →
      ∃ pop'' objs'', update 3 pop' objs' 2 = .ok (pop'', objs'') ∧
        (∀ d, (↑(cell_particles pop'' d) : Multiset Particle) = ↑(cell_particles pop' d)) ∧
        (objs''.map fun o => o.charge) = (objs'.map fun o => o.charge) ∧
        (∀ o, o ∈ objs'' → o.current = 0) ∧
        (∀ o, o ∈ objs'' → o.current * 2 = 0) :=
  update_twice_changes_nothing store2 3 objects2 2 (by decide) (by decide) (by decide)


/-! ## The speed statistics: Welford's recurrence -/

theorem sum_squares_eq {K : Type} [Field K] (v : List ℚ) :
    ∀ (n i : Nat) (acc : K),
      sum_squares v n i acc =
        acc + ∑ t in Finset.range n, ((v.getD (i + t) 0 : ℚ) : K) ^ 2 := by
  intro n
  induction n with
  | zero => intro i acc; simp [sum_squares]
  | succ n ih =>
    intro i acc
    rw [sum_squares, ih, Finset.sum_range_succ']
    have h : ∀ t, i + 1 + t = i + (t + 1) := fun t => by omega
    simp only [h, Nat.add_zero]
    ring

theorem speed_eq {K : Type} [Field K] (sqrt : K → K) (g_dim : Nat) (y : Particle) :
    sqrt (sum_squares y.v g_dim 0 0) = speed sqrt g_dim y := by
  unfold speed
  rw [sum_squares_eq, zero_add]
  simp only [Nat.zero_add]

/-- One step of Welford's recurrence keeps the invariant. -/
theorem welford_inv_step {K : Type} [Field K] [CharZero K] (xs : List K) (c : Nat)
    (old a b v : K) (h : welford_inv xs c old a b) (hfit : xs.length + 1 < 2 ^ 64) :
    welford_inv (xs ++ [v]) ((c + 1) % 2 ^ 64)
      (if (c + 1) % 2 ^ 64 = 1 then v else old + (v - old) / (((c + 1) % 2 ^ 64 : Nat) : K))
      (if (c + 1) % 2 ^ 64 = 1 then v else old + (v - old) / (((c + 1) % 2 ^ 64 : Nat) : K))
      (if (c + 1) % 2 ^ 64 = 1 then 0
        else b + (v - old) *
          (v - (old + (v - old) / (((c + 1) % 2 ^ 64 : Nat) : K)))) := by
  obtain ⟨hc, hinv⟩ := h
  have hmod : (c + 1) % 2 ^ 64 = xs.length + 1 := by
    rw [hc]
    exact Nat.mod_eq_of_lt hfit
  rw [hmod]
  refine ⟨by simp, fun _ => ?_⟩
  by_cases hxs : xs = []
  · subst hxs
    simp
  · obtain ⟨hold, hsum, hb⟩ := hinv hxs
    have hlen : xs.length ≠ 0 := fun h0 => hxs (List.length_eq_zero.1 h0)
    have hne1 : ¬ (xs.length + 1 = 1) := by omega
    have hk : ((xs.length : K)) + 1 ≠ 0 := by
      have : ((xs.length + 1 : Nat) : K) ≠ 0 := Nat.cast_ne_zero.2 (by omega)
      simpa using this
    rw [if_neg hne1, if_neg hne1]
    refine ⟨rfl, ?_, ?_⟩
    · rw [List.length_append, List.sum_append, ← hsum, hold]
      simp only [List.length_singleton, List.sum_singleton, Nat.cast_add, Nat.cast_one]
      generalize (xs.length : K) = n at hk
      field_simp
      ring
    · rw [hb, hold, List.map_append, List.sum_append, List.length_append]
      simp only [List.length_singleton, List.map_cons, List.map_nil, List.sum_singleton,
        Nat.cast_add, Nat.cast_one]
      generalize (xs.length : K) = n at hk
      generalize (xs.map fun x => x ^ 2).sum = S
      field_simp
      ring

/-- With the mean in hand, the sum of the squared deviations is the sum of squares minus the
number of values times the squared mean. -/
theorem sum_sq_dev {K : Type} [Field K] (xs : List K) (a : K)
    (ha : a * (xs.length : K) = xs.sum) :
    (xs.map fun x => (x - a) ^ 2).sum = (xs.map fun x => x ^ 2).sum - (xs.length : K) * a ^ 2 := by
  have hgen : ∀ ys : List K, (ys.map fun x => (x - a) ^ 2).sum =
      (ys.map fun x => x ^ 2).sum - 2 * a * ys.sum + (ys.length : K) * a ^ 2 := by
    intro ys
    induction ys with
    | nil => simp
    | cons y ys ih =>
      simp only [List.map_cons, List.sum_cons, List.length_cons, Nat.cast_add, Nat.cast_one, ih]
      ring
  rw [hgen, ← ha]
  ring


/-- Visiting one particle keeps Welford's invariant for both species: the speed of the particle
joins the values of its species. -/
theorem visit_inv {K : Type} [Field K] [CharZero K] (sqrt : K → K) (g_dim : Nat)
    (st : StatState K) (y : Particle) (xs ys : List K)
    (hneg : welford_inv xs st.m st.m_e_old st.stats0 st.stats1)
    (hpos : welford_inv ys st.n st.m_i_old st.stats2 st.stats3)
    (hx : xs.length + 1 < 2 ^ 64) (hy : ys.length + 1 < 2 ^ 64) :
    welford_inv (xs ++ if y.q < 0 then [speed sqrt g_dim y] else [])
      (visit sqrt g_dim st y).m (visit sqrt g_dim st y).m_e_old
      (visit sqrt g_dim st y).stats0 (visit sqrt g_dim st y).stats1 ∧
    welford_inv (ys ++ if y.q > 0 then [speed sqrt g_dim y] else [])
      (visit sqrt g_dim st y).n (visit sqrt g_dim st y).m_i_old
      (visit sqrt g_dim st y).stats2 (visit sqrt g_dim st y).stats3 := by
  have hn := welford_inv_step xs st.m st.m_e_old st.stats0 st.stats1 (speed sqrt g_dim y) hneg hx
  have hp := welford_inv_step ys st.n st.m_i_old st.stats2 st.stats3 (speed sqrt g_dim y) hpos hy
  unfold visit
  simp only [speed_eq sqrt g_dim y]
  by_cases hq1 : y.q < 0
  · have hq2 : ¬ y.q > 0 := not_lt.2 (le_of_lt hq1)
    simp only [hq1, hq2, if_true, if_false, List.append_nil]
    by_cases h1 : (st.m + 1) % 2 ^ 64 = 1
    · simp only [h1, if_true] at hn ⊢
      exact ⟨hn, hpos⟩
    · simp only [h1, if_false] at hn ⊢
      exact ⟨hn, hpos⟩
  · by_cases hq2 : y.q > 0
    · simp only [hq1, hq2, if_true, if_false, List.append_nil]
      by_cases h1 : (st.n + 1) % 2 ^ 64 = 1
      · simp only [h1, if_true] at hp ⊢
        exact ⟨hneg, hp⟩
      · simp only [h1, if_false] at hp ⊢
        exact ⟨hneg, hp⟩
    · simp only [hq1, hq2, if_false, List.append_nil]
      exact ⟨hneg, hpos⟩

theorem visit_particles_inv {K : Type} [Field K] [CharZero K] (sqrt : K → K) (g_dim : Nat) :
    ∀ (L : List Particle) (st : StatState K) (xs ys : List K),
      welford_inv xs st.m st.m_e_old st.stats0 st.stats1 →
      welford_inv ys st.n st.m_i_old st.stats2 st.stats3 →
      xs.length + L.length < 2 ^ 64 → ys.length + L.length < 2 ^ 64 →
      welford_inv (xs ++ (L.filter fun y => decide (y.q < 0)).map (speed sqrt g_dim))
        (visit_particles sqrt g_dim L st).m (visit_particles sqrt g_dim L st).m_e_old
        (visit_particles sqrt g_dim L st).stats0 (visit_particles sqrt g_dim L st).stats1 ∧
      welford_inv (ys ++ (L.filter fun y => decide (y.q > 0)).map (speed sqrt g_dim))
        (visit_particles sqrt g_dim L st).n (visit_particles sqrt g_dim L st).m_i_old
        (visit_particles sqrt g_dim L st).stats2 (visit_particles sqrt g_dim L st).stats3 := by
  intro L
  induction L with
  | nil => intro st xs ys hneg hpos _ _; simpa [visit_particles] using ⟨hneg, hpos⟩
  | cons y L ih =>
    intro st xs ys hneg hpos hx hy
    simp only [List.length_cons] at hx hy
    obtain ⟨h1, h2⟩ := visit_inv sqrt g_dim st y xs ys hneg hpos (by omega) (by omega)
    have hlx : (xs ++ if y.q < 0 then [speed sqrt g_dim y] else []).length ≤ xs.length + 1 := by
      split <;> simp
    have hly : (ys ++ if y.q > 0 then [speed sqrt g_dim y] else []).length ≤ ys.length + 1 := by
      split <;> simp
    obtain ⟨h3, h4⟩ := ih (visit sqrt g_dim st y) _ _ h1 h2 (by omega) (by omega)
    rw [visit_particles]
    have e1 : xs ++ ((y :: L).filter fun y => decide (y.q < 0)).map (speed sqrt g_dim) =
        (xs ++ if y.q < 0 then [speed sqrt g_dim y] else []) ++
          (L.filter fun y => decide (y.q < 0)).map (speed sqrt g_dim) := by
      by_cases hq : y.q < 0 <;> simp [List.filter_cons, hq]
    have e2 : ys ++ ((y :: L).filter fun y => decide (y.q > 0)).map (speed sqrt g_dim) =
        (ys ++ if y.q > 0 then [speed sqrt g_dim y] else []) ++
          (L.filter fun y => decide (y.q > 0)).map (speed sqrt g_dim) := by
      by_cases hq : y.q > 0 <;> simp [List.filter_cons, hq]
    rw [e1, e2]
    exact ⟨h3, h4⟩

theorem visit_cells_eq {K : Type} [Field K] (sqrt : K → K) (g_dim : Nat) :
    ∀ (cells : List Cell) (st : StatState K),
      visit_cells sqrt g_dim cells st =
        visit_particles sqrt g_dim (cells.flatMap fun cell => cell.particles) st := by
  have happ : ∀ (L1 L2 : List Particle) (st : StatState K),
      visit_particles sqrt g_dim (L1 ++ L2) st =
        visit_particles sqrt g_dim L2 (visit_particles sqrt g_dim L1 st) := by
    intro L1
    induction L1 with
    | nil => intro L2 st; rfl
    | cons y L1 ih =>
      intro L2 st
      rw [List.cons_append, visit_particles, visit_particles, ih]
  intro cells
  induction cells with
  | nil => intro st; rfl
  | cons cell cells ih =>
    intro st
    rw [visit_cells, ih, List.flatMap_cons, happ]

/-- The state after the two loops of `statistics` satisfies Welford's invariant for the speeds of
the negative and of the positive particles of the store. -/
theorem statistics_loops_inv {K : Type} [Field K] [CharZero K] (sqrt : K → K)
    (pop : Population) (s0 s1 s2 s3 : K) (hfit : (stored_particles pop).length < 2 ^ 64) :
    welford_inv (negative_speeds sqrt pop)
      (statistics_loops sqrt pop s0 s1 s2 s3).m (statistics_loops sqrt pop s0 s1 s2 s3).m_e_old
      (statistics_loops sqrt pop s0 s1 s2 s3).stats0
      (statistics_loops sqrt pop s0 s1 s2 s3).stats1 ∧
    welford_inv (positive_speeds sqrt pop)
      (statistics_loops sqrt pop s0 s1 s2 s3).n (statistics_loops sqrt pop s0 s1 s2 s3).m_i_old
      (statistics_loops sqrt pop s0 s1 s2 s3).stats2
      (statistics_loops sqrt pop s0 s1 s2 s3).stats3 := by
  unfold statistics_loops
  rw [visit_cells_eq]
  have h := visit_particles_inv sqrt pop.g_dim (stored_particles pop)
    { m := 0, n := 0, m_e_old := 0, m_i_old := 0,
      stats0 := s0, stats1 := s1, stats2 := s2, stats3 := s3 } [] []
    ⟨rfl, fun h => absurd rfl h⟩ ⟨rfl, fun h => absurd rfl h⟩
    (by simpa using hfit) (by simpa using hfit)
  simpa [negative_speeds, positive_speeds, stored_particles] using h


theorem statistics_slots {K : Type} [Field K] (sqrt : K → K) (pop : Population)
    (s0 s1 s2 s3 : K) :
    (statistics sqrt pop s0 s1 s2 s3).stats0 = (statistics_loops sqrt pop s0 s1 s2 s3).stats0 ∧
    (statistics sqrt pop s0 s1 s2 s3).stats2 = (statistics_loops sqrt pop s0 s1 s2 s3).stats2 ∧
    (statistics sqrt pop s0 s1 s2 s3).stats1 =
      (if (statistics_loops sqrt pop s0 s1 s2 s3).m > 0 then
        sqrt ((statistics_loops sqrt pop s0 s1 s2 s3).stats1 /
          (((statistics_loops sqrt pop s0 s1 s2 s3).m - 1 : Nat) : K))
       else (statistics_loops sqrt pop s0 s1 s2 s3).stats1) ∧
    (statistics sqrt pop s0 s1 s2 s3).stats3 =
      (if (statistics_loops sqrt pop s0 s1 s2 s3).n > 0 then
        sqrt ((statistics_loops sqrt pop s0 s1 s2 s3).stats3 /
          (((statistics_loops sqrt pop s0 s1 s2 s3).n - 1 : Nat) : K))
       else (statistics_loops sqrt pop s0 s1 s2 s3).stats3) := by
  unfold statistics
  generalize statistics_loops sqrt pop s0 s1 s2 s3 = st
  by_cases hm : st.m > 0 <;> by_cases hn : st.n > 0 <;> simp [hm, hn]

/-- From Welford's invariant for at least two values: the mean slot is the mean and the
deviation slot divided by the counter minus one is the sample variance. -/
theorem welford_inv_result {K : Type} [Field K] [CharZero K] (xs : List K) (c : Nat)
    (old a b : K) (h : welford_inv xs c old a b) (h2 : 2 ≤ xs.length) :
    c > 0 ∧ a = mean xs ∧ b / ((c - 1 : Nat) : K) = sample_variance xs := by
  obtain ⟨hc, hinv⟩ := h
  have hne : xs ≠ [] := by
    intro h0
    rw [h0] at h2
    simp at h2
  obtain ⟨-, hsum, hb⟩ := hinv hne
  have hlen : (xs.length : K) ≠ 0 := Nat.cast_ne_zero.2 (by omega)
  have ha : a = mean xs := by
    unfold mean
    rw [← hsum]
    field_simp
  refine ⟨by omega, ha, ?_⟩
  unfold sample_variance
  rw [← ha, sum_sq_dev xs a hsum, hb, hc, Nat.cast_sub (by omega), Nat.cast_one]

theorem mean_perm {K : Type} [Field K] (xs ys : List K) (h : xs.Perm ys) : mean xs = mean ys := by
  unfold mean
  rw [h.sum_eq, h.length_eq]

theorem sample_variance_perm {K : Type} [Field K] (xs ys : List K) (h : xs.Perm ys) :
    sample_variance xs = sample_variance ys := by
  unfold sample_variance
  rw [mean_perm xs ys h, (h.map fun x => (x - mean ys) ^ 2).sum_eq, h.length_eq]

/-- C28: `statistics` implements Welford's algorithm exactly.  In exact arithmetic (any field
`K` of characteristic zero, such as the reals, with whatever square root `sqrt`), for a store
with `m >= 2` particles of negative charge whose speeds are `s_1..s_m`, `stats[0]` is the
arithmetic mean of the `s_k` and `stats[1]` is `sqrt(sum_k (s_k - mean)^2 / (m - 1))`; the same
holds for the positively charged particles in `stats[2]` and `stats[3]`; and the four values
are the same for every store that holds the same particles in another order. -/
theorem statistics_is_welford {K : Type} [Field K] [CharZero K] (sqrt : K → K)
    (pop : Population) (s0 s1 s2 s3 : K) (hfit : (stored_particles pop).length < 2 ^ 64) :
    (2 ≤ (negative_speeds sqrt pop).length →
      (statistics sqrt pop s0 s1 s2 s3).stats0 = mean (negative_speeds sqrt pop) ∧
      (statistics sqrt pop s0 s1 s2 s3).stats1 =
        sqrt (sample_variance (negative_speeds sqrt pop))) ∧
    (2 ≤ (positive_speeds sqrt pop).length →
      (statistics sqrt pop s0 s1 s2 s3).stats2 = mean (positive_speeds sqrt pop) ∧
      (statistics sqrt pop s0 s1 s2 s3).stats3 =
        sqrt (sample_variance (positive_speeds sqrt pop))) ∧
    (∀ pop' : Population, pop'.g_dim = pop.g_dim →
      (stored_particles pop').Perm (stored_particles pop) →
      (2 ≤ (negative_speeds sqrt pop).length →
        (statistics sqrt pop' s0 s1 s2 s3).stats0 = (statistics sqrt pop s0 s1 s2 s3).stats0 ∧
        (statistics sqrt pop' s0 s1 s2 s3).stats1 = (statistics sqrt pop s0 s1 s2 s3).stats1) ∧
      (2 ≤ (positive_speeds sqrt pop).length →
        (statistics sqrt pop' s0 s1 s2 s3).stats2 = (statistics sqrt pop s0 s1 s2 s3).stats2 ∧
        (statistics sqrt pop' s0 s1 s2 s3).stats3 = (statistics sqrt pop s0 s1 s2 s3).stats3)) := by
  have hmain : ∀ q : Population, (stored_particles q).length < 2 ^ 64 →
      (2 ≤ (negative_speeds sqrt q).length →
        (statistics sqrt q s0 s1 s2 s3).stats0 = mean (negative_speeds sqrt q) ∧
        (statistics sqrt q s0 s1 s2 s3).stats1 =
          sqrt (sample_variance (negative_speeds sqrt q))) ∧
      (2 ≤ (positive_speeds sqrt q).length →
        (statistics sqrt q s0 s1 s2 s3).stats2 = mean (positive_speeds sqrt q) ∧
        (statistics sqrt q s0 s1 s2 s3).stats3 =
          sqrt (sample_variance (positive_speeds sqrt q))) := by
    intro q hq
    obtain ⟨hneg, hpos⟩ := statistics_loops_inv sqrt q s0 s1 s2 s3 hq
    obtain ⟨e0, e2, e1, e3⟩ := statistics_slots sqrt q s0 s1 s2 s3
    refine ⟨fun h2 => ?_, fun h2 => ?_⟩
    · obtain ⟨hc, ha, hb⟩ := welford_inv_result _ _ _ _ _ hneg h2
      refine ⟨by rw [e0, ha], ?_⟩
      rw [e1, if_pos hc, hb]
    · obtain ⟨hc, ha, hb⟩ := welford_inv_result _ _ _ _ _ hpos h2
      refine ⟨by rw [e2, ha], ?_⟩
      rw [e3, if_pos hc, hb]
  obtain ⟨h1, h2⟩ := hmain pop hfit
  refine ⟨h1, h2, ?_⟩
  intro pop' hg hperm
  have hneg : (negative_speeds sqrt pop').Perm (negative_speeds sqrt pop) := by
    unfold negative_speeds
    rw [hg]
    exact (hperm.filter _).map _
  have hpos : (positive_speeds sqrt pop').Perm (positive_speeds sqrt pop) := by
    unfold positive_speeds
    rw [hg]
    exact (hperm.filter _).map _
  obtain ⟨h1', h2'⟩ := hmain pop' (by rw [hperm.length_eq]; exact hfit)
  refine ⟨fun hl => ?_, fun hl => ?_⟩
  · obtain ⟨a1, a2⟩ := h1 hl
    obtain ⟨b1, b2⟩ := h1' (by rw [hneg.length_eq]; exact hl)
    rw [a1, a2, b1, b2, mean_perm _ _ hneg, sample_variance_perm _ _ hneg]
    exact ⟨rfl, rfl⟩
  · obtain ⟨a1, a2⟩ := h2 hl
    obtain ⟨b1, b2⟩ := h2' (by rw [hpos.length_eq]; exact hl)
    rw [a1, a2, b1, b2, mean_perm _ _ hpos, sample_variance_perm _ _ hpos]
    exact ⟨rfl, rfl⟩


theorem statistics_is_welford_witness :
    (2 ≤ (negative_speeds sqrt_table store4).length →
      (statistics sqrt_table store4 0 0 0 0).stats0 = mean (negative_speeds sqrt_table store4) ∧
      (statistics sqrt_table store4 0 0 0 0).stats1 =
        sqrt_table (sample_variance (negative_speeds sqrt_table store4))) ∧
    (2 ≤ (positive_speeds sqrt_table store4).length →
      (statistics sqrt_table store4 0 0 0 0).stats2 = mean (positive_speeds sqrt_table store4) ∧
      (statistics sqrt_table store4 0 0 0 0).stats3 =
        sqrt_table (sample_variance (positive_speeds sqrt_table store4))) ∧
    (∀ pop' : Population, pop'.g_dim = store4.g_dim →
      (stored_particles pop').Perm (stored_particles store4) →
      (2 ≤ (negative_speeds sqrt_table store4).length →
        (statistics sqrt_table pop' 0 0 0 0).stats0 =
          (statistics sqrt_table store4 0 0 0 0).stats0 ∧
        (statistics sqrt_table pop' 0 0 0 0).stats1 =
          (statistics sqrt_table store4 0 0 0 0).stats1) ∧
      (2 ≤ (positive_speeds sqrt_table store4).length →
        (statistics sqrt_table pop' 0 0 0 0).stats2 =
          (statistics sqrt_table store4 0 0 0 0).stats2 ∧
        (statistics sqrt_table pop' 0 0 0 0).stats3 =
          (statistics sqrt_table store4 0 0 0 0).stats3)) :=
  statistics_is_welford sqrt_table store4 0 0 0 0 (by decide!)

/-! ## The final division of the speed statistics -/

/-- C29: the final division of `statistics` on a store holding exactly one particle, of negative
charge: after the loops `m = 1`, so the guard `m > 0` holds and `stats[1] / (m - 1)` is executed
with the divisor `m - 1 = 0`.  With two negative particles the divisor is 1. -/
theorem statistics_divides_by_zero_for_one_particle :
    (statistics_loops sqrt_table store5 0 0 0 0).m = 1 ∧
    decide ((statistics_loops sqrt_table store5 0 0 0 0).m > 0) = true ∧
    (((statistics_loops sqrt_table store5 0 0 0 0).m - 1 : Nat) : ℚ) = 0 ∧
    divides_by_zero (statistics_loops sqrt_table store5 0 0 0 0) = true ∧
    divides_by_zero (statistics_loops sqrt_table store4 0 0 0 0) = false := by
  refine ⟨by decide!, by decide!, by decide!, by decide!, by decide!⟩


/-! ## Saving and loading particles: claims -/

/-- C30: the deprecated `load_file` on the file the deprecated `save_file` writes for a store
holding one particle (position 1/2, velocity 3, charge 1, mass 2): the file has one line of
`2 * gdim + 2 = 4` numbers, and `load_file` calls `add_particles` after each of the four numbers,
so four particles are added, three of them with the fields not read yet (velocity 0, and
whatever values `q` and `m` held, here 7 and 9); the ASCII branch of the current `load_file`
adds the saved particle back once. -/
theorem deprecated_load_file_adds_after_every_number :
    deprecated_save_file store6 = .ok [[1/2, 3, 1, 2]] ∧
    deprecated_load_file pop1 locate_interval [[1/2, 3, 1, 2]] 7 9 =
      .ok (with_particles pop1 fun _ =>
        [{ x := [1/2], v := [0], q := 7, m := 9 }, { x := [1/2], v := [3], q := 7, m := 9 },
         { x := [1/2], v := [3], q := 1, m := 9 }, { x := [1/2], v := [3], q := 1, m := 2 }]) ∧
    load_file pop1 locate_interval [[1/2, 3, 1, 2]] = .ok store6 := by
  refine ⟨by decide!, by decide!, by decide!⟩

end punc
